import Mathlib

/-!
Verification development for the ttmap map compiler (grid-connectivity model,
generator pass and SVG renderer). Rust sources are shallowly embedded: `usize`
becomes `Nat` (with explicit checked subtraction where underflow can panic),
`Vec` becomes `List`, `HashMap`/`HashSet` become association/membership lists,
fallible operations (indexing, `unwrap`) return `Option`, and compile failures
return `Except CompileError`. Recursive graph searches carry explicit fuel;
sufficiency of the fuel supplied at call sites is proved where needed.
-/

namespace TtMap

/-! ## Geometry primitives (src/points.rs) -/

/-- A grid point; from src/points.rs (`Point { x: usize, y: usize }`). -/
structure Point where
  x : Nat
  y : Nat
deriving DecidableEq, Repr

/-- `Point::down`: one unit step down. -/
def Point.down (p : Point) : Point := ⟨p.x, p.y + 1⟩

/-- `Point::right`: one unit step right. -/
def Point.right (p : Point) : Point := ⟨p.x + 1, p.y⟩

/-- `Point::scale`: multiply both coordinates by a factor. -/
def Point.scale (p : Point) (k : Nat) : Point := ⟨p.x * k, p.y * k⟩

/-- `impl Add for Point`: coordinatewise addition. -/
def Point.add (p q : Point) : Point := ⟨p.x + q.x, p.y + q.y⟩

/-! ## Undirected graph (src/graph.rs)

`NodeHandle(usize)` is embedded as a bare `Nat` index. -/

/-- A graph node: payload plus adjacency list; from src/graph.rs `Node<T>`
with `T = Point` (the only instantiation the map layer uses). -/
structure Node where
  data : Point
  edges : List Nat
deriving DecidableEq, Repr

/-- From src/graph.rs `Graph<T>`: an arena of nodes. -/
structure Graph where
  nodes : List Node
deriving DecidableEq, Repr

/-- `Vec::swap_remove(i)`: overwrite index `i` with the last element and pop.
Used by `Node::remove_edge`. -/
def swapRemove (l : List Nat) (i : Nat) : List Nat :=
  match l.getLast? with
  | none => l
  | some last => (l.set i last).dropLast

/-- `Node::add_edge`: push a handle onto the adjacency list. -/
def Node.addEdgeN (n : Node) (h : Nat) : Node := ⟨n.data, n.edges ++ [h]⟩

/-- `Node::remove_edge`: `swap_remove` the first occurrence, no-op if absent. -/
def Node.removeEdgeN (n : Node) (h : Nat) : Node :=
  match n.edges.indexOf? h with
  | none => n
  | some i => ⟨n.data, swapRemove n.edges i⟩

/-- `Node::has_edge`: adjacency-list membership. -/
def Node.hasEdge (n : Node) (h : Nat) : Bool := n.edges.contains h

/-- `Graph::new`. -/
def Graph.new : Graph := ⟨[]⟩

/-- `Graph::add_node`: append a node, its handle is its creation index. -/
def Graph.add_node (g : Graph) (d : Point) : Graph × Nat :=
  (⟨g.nodes ++ [⟨d, []⟩]⟩, g.nodes.length)

/-- Apply `f` to node `i`; `none` models the Rust index panic for `i` out of
range (`self.nodes[i]`). -/
def Graph.updateNode (g : Graph) (i : Nat) (f : Node → Node) : Option Graph :=
  match g.nodes.get? i with
  | none => none
  | some n => some ⟨g.nodes.set i (f n)⟩

/-- `Graph::add_edge`: symmetric adjacency push (unconditional). -/
def Graph.add_edge (g : Graph) (h1 h2 : Nat) : Option Graph := do
  let g1 ← g.updateNode h1 (fun n => n.addEdgeN h2)
  g1.updateNode h2 (fun n => n.addEdgeN h1)

/-- `Graph::remove_edge`: symmetric first-occurrence removal. -/
def Graph.remove_edge (g : Graph) (h1 h2 : Nat) : Option Graph := do
  let g1 ← g.updateNode h1 (fun n => n.removeEdgeN h2)
  g1.updateNode h2 (fun n => n.removeEdgeN h1)

/-- `Graph::is_edge_between`: true when either endpoint lists the other. -/
def Graph.is_edge_between (g : Graph) (h1 h2 : Nat) : Option Bool := do
  let n1 ← g.nodes.get? h1
  if n1.hasEdge h2 then pure true
  else do
    let n2 ← g.nodes.get? h2
    pure (n2.hasEdge h1)

/-! ### Cycle extraction (src/graph.rs `find_cycles`)

The DFS stack is a `List Nat` with the head as the TOP of the Rust `Vec`;
the `seen` `HashSet` is a membership list; the `cycles` accumulator is
threaded through a state record. Recursion carries explicit fuel (`none`
models fuel exhaustion, which never occurs for the fuel find_cycles
supplies on well-formed graphs — proved below). -/

/-- DFS state of `find_cycles_rec`: the fully-explored set, the stack
(head = top), and the accumulated cycles. -/
structure CycState where
  seen : List Nat
  stack : List Nat
  cycles : List (List Nat)
deriving DecidableEq, Repr

/-- `HashSet::insert` on the membership-list model. -/
def seenInsert (s : List Nat) (h : Nat) : List Nat :=
  if h ∈ s then s else h :: s

/-- The cycle extracted when `handle` is found on the stack: iterate from the
top (list head) and stop at (and include) `handle` — `for h in
stack.iter().rev() { cycle.push(*h); if *h == handle { break } }`. -/
def collectCycle : List Nat → Nat → List Nat
  | [], _ => []
  | a :: rest, h => if a = h then [a] else a :: collectCycle rest h

/-- The skip condition of the neighbor loop (src/graph.rs line 135):
`is_back_ref && back_ref.unwrap() == *e || seen.contains(&handle)` — skip a
neighbor equal to the immediate predecessor, or skip everything when the
CURRENT node is already in `seen`. -/
def skipNeighbor (backRef : Option Nat) (seen : List Nat) (handle e : Nat) : Bool :=
  (match backRef with
   | some b => b = e
   | none => false) || seen.contains handle

/-- The neighbor loop of `find_cycles_rec`, abstracted over the recursive
call (`recFn` is the DFS recursion at the current fuel level); structural in
the edge list so the kernel can evaluate it. -/
def Graph.goEdgesF (recFn : Nat → CycState → Option (Bool × CycState))
    (handle : Nat) (backRef : Option Nat) :
    List Nat → Bool → CycState → Option (Bool × CycState)
  | [], found, st => some (found, st)
  | e :: rest, found, st =>
    if skipNeighbor backRef st.seen handle e then
      Graph.goEdgesF recFn handle backRef rest found st
    else do
      let res ← recFn e st
      Graph.goEdgesF recFn handle backRef rest (found || res.1) res.2

/-- `Graph::find_cycles_rec` (src/graph.rs): if the handle is on the stack a
cycle is recorded; otherwise push it, process its neighbors, pop it and mark
it seen. Structural in the fuel. -/
def Graph.find_cycles_rec (g : Graph) : Nat → Nat → CycState → Option (Bool × CycState)
  | 0, _, _ => none
  | fuel + 1, handle, st =>
    if handle ∈ st.stack then
      some (true, ⟨st.seen, st.stack, st.cycles ++ [collectCycle st.stack handle]⟩)
    else
      let backRef := st.stack.head?
      match g.nodes.get? handle with
      | none => none
      | some nd => do
        let res ← Graph.goEdgesF (g.find_cycles_rec fuel) handle backRef nd.edges false
          ⟨st.seen, handle :: st.stack, st.cycles⟩
        some (res.1, ⟨seenInsert res.2.seen handle, res.2.stack.tail, res.2.cycles⟩)

/-- The neighbor loop at fuel level `fuel`: the recursion it performs on each
non-skipped neighbor is the DFS at the same fuel (which spends one unit on
entry, exactly as the mutual Rust recursion does). -/
def Graph.goEdges (g : Graph) (fuel : Nat) (handle : Nat) (backRef : Option Nat)
    (es : List Nat) (found : Bool) (st : CycState) : Option (Bool × CycState) :=
  Graph.goEdgesF (g.find_cycles_rec fuel) handle backRef es found st

/-- `visited[h] = true` with an index-bound check (Rust `visited[ch.0] = true`
panics out of range). -/
def markVisitedH (v : List Bool) (h : Nat) : Option (List Bool) :=
  if h < v.length then some (v.set h true) else none

/-- Mark every node of every cycle visited (`find_cycles`, src/graph.rs lines
96-100). -/
def markVisited (v : List Bool) (cycles : List (List Nat)) : Option (List Bool) :=
  cycles.foldlM (fun acc c => c.foldlM markVisitedH acc) v

/-- The root loop of `find_cycles` (src/graph.rs): iterate all node indices,
skip visited ones, run a DFS with fresh stack/seen and the shared cycles
accumulator, then mark all cycle nodes visited. -/
def findCyclesGo (g : Graph) : Nat → List Bool → List (List Nat) →
    Option (List (List Nat))
  | 0, _, cycles => some cycles
  | remaining + 1, visited, cycles =>
    let i := g.nodes.length - (remaining + 1)
    if visited.get? i = some true then
      findCyclesGo g remaining visited cycles
    else do
      let res ← g.find_cycles_rec (g.nodes.length + 2) i ⟨[], [], cycles⟩
      let v2 ← markVisited visited res.2.cycles
      findCyclesGo g remaining v2 res.2.cycles

/-- `Graph::find_cycles` (src/graph.rs). -/
def Graph.find_cycles (g : Graph) : Option (List (List Nat)) :=
  findCyclesGo g g.nodes.length (List.replicate g.nodes.length false) []

/-! ### Connected components (src/graph.rs `connected_components`, `bfs`) -/

/-- Total number of adjacency entries of the graph; bounds the work of the
traversal loops. -/
def Graph.totalEdges (g : Graph) : Nat :=
  (g.nodes.map (fun n => n.edges.length)).sum

/-- The loop of `Graph::bfs` (src/graph.rs): pop from the stack top (list
head), skip visited nodes, otherwise record the node, mark it and push all
its neighbors (so the LAST neighbor ends on top). -/
def Graph.bfsAux (g : Graph) : Nat → List Bool → List Nat → List Nat →
    Option (List Nat × List Bool)
  | 0, _, _, _ => none
  | _ + 1, visited, [], acc => some (acc, visited)
  | fuel + 1, visited, h :: rest, acc =>
    match visited.get? h with
    | none => none
    | some true => Graph.bfsAux g fuel visited rest acc
    | some false =>
      match g.nodes.get? h with
      | none => none
      | some nd =>
        Graph.bfsAux g fuel (visited.set h true) (nd.edges.reverse ++ rest) (acc ++ [h])

/-- `Graph::bfs` (src/graph.rs): traverse from `start` sharing `visited`. -/
def Graph.bfs (g : Graph) (start : Nat) (visited : List Bool) :
    Option (List Nat × List Bool) :=
  g.bfsAux (g.nodes.length + g.totalEdges + 1) visited [start] []

/-- The root loop of `connected_components` (src/graph.rs). -/
def ccGo (g : Graph) : Nat → List Bool → List (List Nat) →
    Option (List (List Nat))
  | 0, _, acc => some acc
  | remaining + 1, visited, acc =>
    let i := g.nodes.length - (remaining + 1)
    if visited.get? i = some true then
      ccGo g remaining visited acc
    else do
      let res ← g.bfs i visited
      ccGo g remaining res.2 (acc ++ [res.1])

/-- `Graph::connected_components` (src/graph.rs). -/
def Graph.connected_components (g : Graph) : Option (List (List Nat)) :=
  ccGo g g.nodes.length (List.replicate g.nodes.length false) []

/-! ## Map (src/map.rs): one graph node per grid intersection -/

/-- From src/shapes.rs `Shape`. The `Ladder` and `X` variants are matched on
by src/generator.rs and src/map.rs; their declarations are missing from the
shipped src/shapes.rs. Modelled from the spec: the closed variant set is
`Circle(radius)`, `Square`, `Stair`, `Ladder`, `X`. -/
inductive Shape where
  | Circle (radius : Nat)
  | Square
  | Stair
  | Ladder
  | X
deriving DecidableEq, Repr

/-- From src/entities.rs `EntityPosition`. -/
inductive EntityPosition where
  | Within
  | At
deriving DecidableEq, Repr

/-- From src/entities.rs `Entity`. -/
structure Entity where
  shape : Shape
  point : Point
  position : EntityPosition
deriving DecidableEq, Repr

/-- From src/map.rs `PointsIter`: row-major iterator over grid intersections. -/
structure PointsIter where
  x : Nat
  y : Nat
  x_max : Nat
  y_max : Nat
deriving DecidableEq, Repr

/-- `Iterator::next` for `PointsIter` (src/map.rs). -/
def PointsIter.next (it : PointsIter) : Option (Point × PointsIter) :=
  if it.x ≥ it.x_max ∨ it.y ≥ it.y_max then none
  else
    let p : Point := ⟨it.x, it.y⟩
    if it.x + 1 ≥ it.x_max then some (p, ⟨0, it.y + 1, it.x_max, it.y_max⟩)
    else some (p, ⟨it.x + 1, it.y, it.x_max, it.y_max⟩)

/-- Drain the iterator into a list; `fuel` bounds the number of `next` calls
(the grid iterator yields exactly `x_max * y_max` points). -/
def PointsIter.run : Nat → PointsIter → List Point
  | 0, _ => []
  | fuel + 1, it =>
    match it.next with
    | none => []
    | some (p, it2) => p :: PointsIter.run fuel it2

/-- `grid_points(width, height)` (src/map.rs): all grid intersections of a
`width × height` grid in row-major order. -/
def grid_points (width height : Nat) : List Point :=
  PointsIter.run ((width + 1) * (height + 1)) ⟨0, 0, width + 1, height + 1⟩

/-- From src/map.rs `Map`: grid dimensions, the intersection graph, the
coordinate-key-to-handle map (`HashMap<usize, NodeHandle>` as an association
list; inserted keys are distinct) and the entity list. -/
structure Map where
  width : Nat
  height : Nat
  graph : Graph
  point_nodes : List (Nat × Nat)
  entities : List Entity
deriving DecidableEq, Repr

/-- `Map::new` (src/map.rs): add one graph node per grid point, recording
`point_nodes.insert(i, h)` for the i-th point. -/
def Map.new (width height : Nat) : Map :=
  let step : Graph × List (Nat × Nat) → Nat × Point → Graph × List (Nat × Nat) :=
    fun acc ip =>
      let res := acc.1.add_node ip.2
      (res.1, acc.2 ++ [(ip.1, res.2)])
  let res := (grid_points width height).enum.foldl step (Graph.new, [])
  ⟨width, height, res.1, res.2, []⟩

/-- `Map::find_node` (src/map.rs): look the point up by its linearized key
`x + (width+1)*y`. -/
def Map.find_node (m : Map) (p : Point) : Option Nat :=
  m.point_nodes.lookup (p.x + (m.width + 1) * p.y)

/-- `Map::point_exists` (src/map.rs). -/
def Map.point_exists (m : Map) (p : Point) : Bool :=
  if p.x > m.width ∨ p.y > m.height then false
  else (m.find_node p).isSome

/-- `Map::contains_point` (src/map.rs). -/
def Map.contains_point (m : Map) (p : Point) : Bool :=
  p.x ≤ m.width ∧ p.y ≤ m.height

/-- `Map::connect` (src/map.rs): `none` models the `unwrap` panics on the two
handle lookups (and the graph index panics). -/
def Map.connect (m : Map) (p1 p2 : Point) : Option Map := do
  let h1 ← m.find_node p1
  let h2 ← m.find_node p2
  let g ← m.graph.add_edge h1 h2
  pure ⟨m.width, m.height, g, m.point_nodes, m.entities⟩

/-- `Map::disconnect` (src/map.rs). -/
def Map.disconnect (m : Map) (p1 p2 : Point) : Option Map := do
  let h1 ← m.find_node p1
  let h2 ← m.find_node p2
  let g ← m.graph.remove_edge h1 h2
  pure ⟨m.width, m.height, g, m.point_nodes, m.entities⟩

/-- `Map::are_connected` (src/map.rs). -/
def Map.are_connected (m : Map) (p1 p2 : Point) : Option Bool := do
  let h1 ← m.find_node p1
  let h2 ← m.find_node p2
  m.graph.is_edge_between h1 h2

/-- `Map::add_entity` (src/map.rs): unconditional append. -/
def Map.add_entity (m : Map) (e : Entity) : Map :=
  ⟨m.width, m.height, m.graph, m.point_nodes, m.entities ++ [e]⟩

/-! ## Shapes, AST and compile errors
(src/shapes.rs, src/ast.rs, src/compile_error.rs, src/source_location.rs) -/

/-- From src/shapes.rs `ShapeBoolean`. -/
inductive ShapeBoolean where
  | Or
  | Xor
deriving DecidableEq, Repr

/-- From src/shapes.rs `Rect`. -/
structure Rect where
  point : Point
  width : Nat
  height : Nat
  boolean_op : ShapeBoolean
deriving DecidableEq, Repr

/-- From src/shapes.rs `LineOrientation`. -/
inductive LineOrientation where
  | Left
  | Right
  | Top
  | Bottom
deriving DecidableEq, Repr

/-- From src/shapes.rs `Line`. -/
structure Line where
  orientation : LineOrientation
  start : Point
  length : Nat
  boolean_op : ShapeBoolean
deriving DecidableEq, Repr

/-- `SourceLocation` (declared in the missing src/source_location.rs; its
fields `line`/`col` are used throughout src). Modelled from the spec: a
1-based line/column pair. -/
structure SourceLocation where
  line : Nat
  col : Nat
deriving DecidableEq, Repr

/-- From src/compile_error.rs `CompileErrorType`. The payload of the
`SyntaxError` variant (an expected/actual token pair) is irrelevant to the
generator and omitted. -/
inductive CompileErrorType where
  | InvalidCharacter
  | UnrecognizedKeyword
  | InvalidNumber
  | UnexpectedEndOfFile
  | SyntaxError
  | InvalidShape
  | InvalidPosition
  | NoGridDimensions
  | OutOfBounds
  | InvalidOrientation
deriving DecidableEq, Repr

/-- From src/compile_error.rs `CompileError` (`CompileError::new` stores the
line/col pair as a `SourceLocation`). -/
structure CompileError where
  error_type : CompileErrorType
  location : SourceLocation
deriving DecidableEq, Repr

/-- `GridDimensionsNode` (src/ast.rs; numeric fields already converted to
`usize`). -/
structure GridDimensionsNode where
  width : Nat
  height : Nat
deriving DecidableEq, Repr

/-- `EntityNode` (src/ast.rs). -/
structure EntityNode where
  shape : Shape
  point : Point
  position : EntityPosition
deriving DecidableEq, Repr

/-- `ShapeNode` as used by src/generator.rs (`ShapeNode::Rect`,
`ShapeNode::Line`); the shipped src/ast.rs predates the `Line` variant.
Modelled from the spec where missing. -/
inductive ShapeNode where
  | rect (r : Rect)
  | line (l : Line)
deriving DecidableEq, Repr

/-- `AstNodeType` as used by src/generator.rs (grid dimensions, shape, or
entity node). Modelled from the spec where the shipped src/ast.rs is older
than the generator. -/
inductive AstNodeType where
  | GridDimensions (g : GridDimensionsNode)
  | Shape (s : ShapeNode)
  | Entity (e : EntityNode)
deriving DecidableEq, Repr

/-- `AstNode`: a typed node carrying its source location (as constructed by
`AstNode::new(node_type, location)` in the generator's callers). -/
structure AstNode where
  node_type : AstNodeType
  location : SourceLocation
deriving DecidableEq, Repr

/-- `AbstractSyntaxTree` as consumed by src/generator.rs: an ordered node
sequence (`ast.nodes()`). -/
structure AbstractSyntaxTree where
  nodes : List AstNode
deriving DecidableEq, Repr

/-! ## Generator (src/generator.rs) -/

/-- `find_grid_dimensions` (src/generator.rs): the first grid-dimension node,
if any. -/
def find_grid_dimensions (ast : AbstractSyntaxTree) : Option GridDimensionsNode :=
  ast.nodes.findSome? fun n =>
    match n.node_type with
    | .GridDimensions g => some g
    | _ => none

/-- `out_of_bounds` (src/generator.rs). -/
def out_of_bounds (loc : SourceLocation) : CompileError :=
  ⟨.OutOfBounds, loc⟩

/-- The Xor segment policy (the `ShapeBoolean::Xor` branch shared by
`handle_rect_points` and the loop of `handle_line` in src/generator.rs):
disconnect when connected, connect otherwise. -/
def xorToggle (m : Map) (p1 p2 : Point) : Option Map := do
  let c ← m.are_connected p1 p2
  if c then m.disconnect p1 p2 else m.connect p1 p2

/-- `handle_rect_points` (src/generator.rs): bounds-check one unit segment,
then apply the rectangle's boolean policy (`Or`: connect unconditionally;
`Xor`: toggle). The outer `Option` models panics, the `Except` the compile
error. -/
def handle_rect_points (m : Map) (r : Rect) (ps pe : Point)
    (loc : SourceLocation) : Option (Except CompileError Map) :=
  if ¬ m.point_exists ps ∨ ¬ m.point_exists pe then
    some (.error ⟨.OutOfBounds, loc⟩)
  else
    match r.boolean_op with
    | .Or => (m.connect ps pe).map .ok
    | .Xor => (xorToggle m ps pe).map .ok

/-- Sequential processing of a list of unit segments by `handle_rect_points`,
propagating the first compile error (the `?` operator in `handle_rect`). -/
def handleRectSegs (m : Map) (r : Rect) (segs : List (Point × Point))
    (loc : SourceLocation) : Option (Except CompileError Map) :=
  match segs with
  | [] => some (.ok m)
  | s :: rest => do
    let res ← handle_rect_points m r s.1 s.2 loc
    match res with
    | .error e => some (.error e)
    | .ok m2 => handleRectSegs m2 r rest loc

/-- The unit perimeter segments of a rectangle, in the order the four loops
of `handle_rect` (src/generator.rs) visit them: top row, left column, bottom
row, right column. -/
def rectSegments (r : Rect) : List (Point × Point) :=
  let x := r.point.x
  let y := r.point.y
  ((List.range r.width).map fun i => (Point.mk (x + i) y, Point.mk (x + i + 1) y)) ++
  ((List.range r.height).map fun i => (Point.mk x (y + i), Point.mk x (y + i + 1))) ++
  ((List.range r.width).map fun i =>
    (Point.mk (x + i) (y + r.height), Point.mk (x + i + 1) (y + r.height))) ++
  ((List.range r.height).map fun i =>
    (Point.mk (x + r.width) (y + i), Point.mk (x + r.width) (y + i + 1)))

/-- `handle_rect` (src/generator.rs): process the perimeter segments of the
rectangle in loop order. -/
def handle_rect (m : Map) (r : Rect) (loc : SourceLocation) :
    Option (Except CompileError Map) :=
  handleRectSegs m r (rectSegments r) loc

/-- One step direction of a line's walk (src/generator.rs `handle_line` loop
body): `Left`/`Right` step downward, `Top`/`Bottom` step rightward. -/
def lineStep (o : LineOrientation) (p : Point) : Point :=
  match o with
  | .Left | .Right => p.down
  | .Top | .Bottom => p.right

/-- The loop of `handle_line` (src/generator.rs): walk `n` unit segments from
`p`, bounds-checking each segment, then applying the boolean policy (the
`matches!(Xor) && are_connected` short-circuit is preserved: `are_connected`
is only consulted for `Xor`). -/
def handleLineGo (m : Map) (l : Line) (loc : SourceLocation) :
    Point → Nat → Option (Except CompileError Map)
  | _, 0 => some (.ok m)
  | p, n + 1 =>
    if ¬ (m.point_exists p ∧ m.point_exists (lineStep l.orientation p)) then
      some (.error ⟨.OutOfBounds, loc⟩)
    else do
      let m2 ←
        match l.boolean_op with
        | .Xor => xorToggle m p (lineStep l.orientation p)
        | .Or => m.connect p (lineStep l.orientation p)
      handleLineGo m2 l loc (lineStep l.orientation p) n

/-- `handle_line` (src/generator.rs): the effective start shifts one step
right for `Right`, one step down for `Bottom`, and is the declared start for
`Left`/`Top`; then walk `length` segments. -/
def handle_line (m : Map) (l : Line) (loc : SourceLocation) :
    Option (Except CompileError Map) :=
  let start :=
    match l.orientation with
    | .Left | .Top => l.start
    | .Right => l.start.right
    | .Bottom => l.start.down
  handleLineGo m l loc start l.length

/-- `handle_entity` (src/generator.rs). Note: the `bottom` extent point is
computed as `Point::new(center.x() + r, center.y())` (src/generator.rs line
150), identical to `right`; the subtractions are guarded so plain `Nat`
subtraction is faithful. -/
def handle_entity (m : Map) (en : EntityNode) (loc : SourceLocation) :
    Except CompileError Map :=
  match en.shape with
  | .Circle r =>
    if r > en.point.x then .error (out_of_bounds loc)
    else if r > en.point.y then .error (out_of_bounds loc)
    else if ([en.point,
              ⟨en.point.x - r, en.point.y⟩,
              ⟨en.point.x, en.point.y - r⟩,
              ⟨en.point.x + r, en.point.y⟩,
              ⟨en.point.x + r, en.point.y⟩] : List Point).any
              (fun p => ¬ m.point_exists p) then .error (out_of_bounds loc)
    else .ok (m.add_entity ⟨en.shape, en.point, en.position⟩)
  | _ => .ok (m.add_entity ⟨en.shape, en.point, en.position⟩)

/-- The node-processing loop of `generate_map` (src/generator.rs): grid
dimension nodes are skipped, shapes and entities mutate the map, the first
error aborts. -/
def genGo (m : Map) : List AstNode → Option (Except CompileError Map)
  | [] => some (.ok m)
  | n :: rest => do
    let step ←
      match n.node_type with
      | .GridDimensions _ => some (.ok m)
      | .Shape (.rect r) => handle_rect m r n.location
      | .Shape (.line l) => handle_line m l n.location
      | .Entity e => some (handle_entity m e n.location)
    match step with
    | .error e => some (.error e)
    | .ok m2 => genGo m2 rest

/-- `generate_map` (src/generator.rs): fail with `NoGridDimensions` at 1:1
when no grid node exists, otherwise build `Map::new` and process all nodes. -/
def generate_map (ast : AbstractSyntaxTree) : Option (Except CompileError Map) :=
  match find_grid_dimensions ast with
  | none => some (.error ⟨.NoGridDimensions, ⟨1, 1⟩⟩)
  | some dims => genGo (Map.new dims.width dims.height) ast.nodes

/-! ## Graph accessors used by the renderer

src/map.rs calls `Graph::find_node(handle)`, `Node::data()`, and
`Node::edge_count()`; these methods are missing from the shipped
src/graph.rs (which exposes `data(handle)` only). Modelled from the spec
and their call sites: `find_node` resolves a handle to its node (`None` out
of range, so `unwrap` models the panic), `data`/`edge_count` read the
payload and adjacency-list length. -/

/-- Modelled from the spec: `Graph::find_node(handle)`, missing from
src/graph.rs, resolves a handle to its node. -/
def Graph.find_node (g : Graph) (h : Nat) : Option Node :=
  g.nodes.get? h

/-- Modelled from the spec: `Node::edge_count()`, missing from src/graph.rs;
the node's degree (adjacency-list length). -/
def Node.edge_count (n : Node) : Nat :=
  n.edges.length

/-- The adjacency list of handle `h`, or `[]` when out of range (proof-side
accessor). -/
def Graph.edgesOf (g : Graph) (h : Nat) : List Nat :=
  ((g.nodes.get? h).map Node.edges).getD []

/-- Modelled from the spec: the traversal loop behind `Graph::find_path`
(declared in src/map.rs, definition missing from src/graph.rs; spec 4.1:
"a simple path between two nodes known to be in the same component").
Identical stack discipline to `Graph::bfs`, additionally carrying the path
from the start to each node. -/
def Graph.bfsPaths (g : Graph) : Nat → List Bool → List (Nat × List Nat) →
    List (Nat × List Nat) → Option (List (Nat × List Nat) × List Bool)
  | 0, _, _, _ => none
  | _ + 1, visited, [], acc => some (acc, visited)
  | fuel + 1, visited, (h, path) :: rest, acc =>
    match visited.get? h with
    | none => none
    | some true => g.bfsPaths fuel visited rest acc
    | some false =>
      match g.nodes.get? h with
      | none => none
      | some nd =>
        g.bfsPaths fuel (visited.set h true)
          ((nd.edges.reverse.map fun e => (e, path ++ [e])) ++ rest)
          (acc ++ [(h, path)])

/-- Modelled from the spec: `Graph::find_path(a, b)` — a path from `a` to `b`
when `b` is reachable from `a`, `none` otherwise. -/
def Graph.find_path (g : Graph) (a b : Nat) : Option (List Nat) := do
  let res ← g.bfsPaths (g.nodes.length + g.totalEdges + 1)
    (List.replicate g.nodes.length false) [(a, [a])] []
  res.1.lookup b

/-! ## SVG builder (src/svg.rs) -/

/-- From src/svg.rs `Colour`. -/
inductive Colour where
  | Black
  | Rgb (r g b : Nat)
deriving DecidableEq, Repr

/-- `Colour::to_svg` (src/svg.rs). -/
def Colour.to_svg : Colour → String
  | .Black => "black"
  | .Rgb r g b => s!"rgb({r}, {g}, {b})"

/-- The closed element set of src/svg.rs (`SvgRect`, `SvgPath`, `SvgCircle`,
`SvgPolygon`); the builder stores the elements it will serialize. -/
inductive SvgElement where
  | rect (point : Point) (width height : Nat) (stroke : Colour)
  | path (points : List Point) (stroke : Colour)
  | circle (x y radius : Nat) (stroke : Colour)
  | polygon (points : List Point) (stroke : Colour)
deriving DecidableEq, Repr

/-- `SvgRect::to_svg` (src/svg.rs). -/
def svgRectToSvg (p : Point) (w h : Nat) (stroke : Colour) : String :=
  let px := p.x
  let py := p.y
  let s := stroke.to_svg
  s!"<rect x=\"{px}\" y=\"{py}\" width=\"{w}\" height=\"{h}\" stroke=\"{s}\" fill=\"none\"/>"

/-- `SvgPath::to_svg` (src/svg.rs): `points_strs[0]` panics on an empty point
list (modelled by `none`); one `M` command then `L` commands joined by
spaces. -/
def svgPathToSvg (points : List Point) (stroke : Colour) : Option String :=
  let strs := points.map fun p =>
    let px := p.x
    let py := p.y
    s!"{px} {py}"
  match strs with
  | [] => none
  | s0 :: rest =>
    let start := s!"M{s0}"
    let linesStr := String.intercalate " " (rest.map fun s => s!"L{s}")
    let c := stroke.to_svg
    some s!"<path d=\"{start} {linesStr}\" stroke=\"{c}\" fill=\"none\"/>"

/-- `SvgCircle::to_svg` (src/svg.rs). -/
def svgCircleToSvg (x y radius : Nat) (stroke : Colour) : String :=
  let c := stroke.to_svg
  s!"<circle cx=\"{x}\" cy=\"{y}\" r=\"{radius}\" stroke=\"{c}\" fill=\"none\"/>"

/-- `SvgPolygon::to_svg` (src/svg.rs). -/
def svgPolygonToSvg (points : List Point) (stroke : Colour) : String :=
  let pointsStr := String.intercalate " " (points.map fun p =>
    let px := p.x
    let py := p.y
    s!"{px},{py}")
  let c := stroke.to_svg
  s!"<polygon points=\"{pointsStr}\" stroke=\"{c}\" fill=\"none\"/>"

/-- `ToSvg::to_svg` dispatch (src/svg.rs); `none` only for the empty-path
panic. -/
def SvgElement.to_svg : SvgElement → Option String
  | .rect p w h c => some (svgRectToSvg p w h c)
  | .path ps c => svgPathToSvg ps c
  | .circle x y r c => svgCircleToSvg x y r c
  | .polygon ps c => some (svgPolygonToSvg ps c)

/-- From src/svg.rs `SvgBuilder`. -/
structure SvgBuilder where
  width : Nat
  height : Nat
  elements : List SvgElement
deriving DecidableEq, Repr

/-- `SvgBuilder::new` (src/svg.rs). -/
def SvgBuilder.new (width height : Nat) : SvgBuilder :=
  ⟨width, height, []⟩

/-- `SvgBuilder::rect` (src/svg.rs). -/
def SvgBuilder.rect (b : SvgBuilder) (p : Point) (w h : Nat) (c : Colour) : SvgBuilder :=
  ⟨b.width, b.height, b.elements ++ [.rect p w h c]⟩

/-- `SvgBuilder::path` (src/svg.rs). -/
def SvgBuilder.path (b : SvgBuilder) (ps : List Point) (c : Colour) : SvgBuilder :=
  ⟨b.width, b.height, b.elements ++ [.path ps c]⟩

/-- `SvgBuilder::circle` (src/svg.rs). -/
def SvgBuilder.circle (b : SvgBuilder) (x y r : Nat) (c : Colour) : SvgBuilder :=
  ⟨b.width, b.height, b.elements ++ [.circle x y r c]⟩

/-- `SvgBuilder::polygon` (src/svg.rs). -/
def SvgBuilder.polygon (b : SvgBuilder) (ps : List Point) (c : Colour) : SvgBuilder :=
  ⟨b.width, b.height, b.elements ++ [.polygon ps c]⟩

/-- `SvgBuilder::build` (src/svg.rs): serialize all elements inside one svg
root sized `width × height`. -/
def SvgBuilder.build (b : SvgBuilder) : Option String := do
  let w := b.width
  let h := b.height
  let header :=
    s!"<svg version=\"1.1\" width=\"{w}\" height=\"{h}\" xmlns=\"http://www.w3.org/2000/svg\">"
  let elems ← b.elements.mapM SvgElement.to_svg
  some (elems.foldl (fun acc e => acc ++ e) header ++ "</svg>")

/-! ## Renderer (src/map.rs `map_to_svg`, `SvgMapDrawing`) -/

/-- `LIGHT_GRAY` (src/map.rs). -/
def LIGHT_GRAY : Colour := .Rgb 200 200 200

/-- `scale_points` (src/map.rs). -/
def scale_points (points : List Point) (scale_factor : Nat) : List Point :=
  points.map fun p => p.scale scale_factor

/-- Rust `usize` subtraction: `none` models the underflow panic. -/
def checkedSub (a b : Nat) : Option Nat :=
  if b ≤ a then some (a - b) else none

/-- From src/map.rs `SvgMapDrawing`. -/
structure SvgMapDrawing where
  builder : SvgBuilder
  dim : Nat
deriving DecidableEq, Repr

/-- `SvgMapDrawing::new` (src/map.rs): svg canvas `dim*width × dim*height`. -/
def SvgMapDrawing.new (dim : Nat) (m : Map) : SvgMapDrawing :=
  ⟨SvgBuilder.new (dim * m.width) (dim * m.height), dim⟩

/-- `SvgMapDrawing::grid_cell` (src/map.rs). -/
def SvgMapDrawing.grid_cell (d : SvgMapDrawing) (p : Point) : SvgMapDrawing :=
  ⟨d.builder.rect (p.scale d.dim) d.dim d.dim LIGHT_GRAY, d.dim⟩

/-- `SvgMapDrawing::polygon` (src/map.rs). -/
def SvgMapDrawing.polygon (d : SvgMapDrawing) (ps : List Point) : SvgMapDrawing :=
  ⟨d.builder.polygon ps .Black, d.dim⟩

/-- `SvgMapDrawing::path` (src/map.rs). -/
def SvgMapDrawing.pathElem (d : SvgMapDrawing) (ps : List Point) : SvgMapDrawing :=
  ⟨d.builder.path ps .Black, d.dim⟩

/-- `SvgMapDrawing::circle_entity` (src/map.rs): for `Within`, radius is
`dim/2 - 1` (an underflow panic at `dim = 1`); for `At`, radius is
`radius * dim`. -/
def SvgMapDrawing.circle_entity (d : SvgMapDrawing) (e : Entity) (radius : Nat) :
    Option SvgMapDrawing := do
  let xyr ←
    match e.position with
    | .Within => do
      let mid := d.dim / 2
      let p := (e.point.scale d.dim).add ⟨mid, mid⟩
      let r ← checkedSub mid 1
      pure (p.x, p.y, r)
    | .At =>
      let p := e.point.scale d.dim
      pure (p.x, p.y, radius * d.dim)
  pure ⟨d.builder.circle xyr.1 xyr.2.1 xyr.2.2 .Black, d.dim⟩

/-- `SvgMapDrawing::square_entity` (src/map.rs). -/
def SvgMapDrawing.square_entity (d : SvgMapDrawing) (e : Entity) :
    Option SvgMapDrawing := do
  let side := d.dim * 3 / 5
  let off ← checkedSub d.dim side
  let offset := off / 2
  let p := (e.point.scale d.dim).add ⟨offset, offset⟩
  pure ⟨d.builder.rect p side side .Black, d.dim⟩

/-- `SvgMapDrawing::stair_entity` (src/map.rs): 8-vertex zig-zag polygon. -/
def SvgMapDrawing.stair_entity (d : SvgMapDrawing) (e : Entity) :
    Option SvgMapDrawing := do
  let hgt := d.dim * 3 / 5
  let off ← checkedSub d.dim hgt
  let offset := off / 2
  let riser := d.dim / 5
  let origin := (e.point.scale d.dim).add ⟨offset, offset⟩
  let raw : List Point :=
    [⟨0, 2 * riser⟩, ⟨0, 3 * riser⟩, ⟨hgt, hgt⟩, ⟨hgt, 0⟩,
     ⟨2 * riser, 0⟩, ⟨2 * riser, riser⟩, ⟨riser, riser⟩, ⟨riser, 2 * riser⟩]
  let points := raw.map fun q => q.add origin
  pure ⟨d.builder.polygon points .Black, d.dim⟩

/-- `SvgMapDrawing::ladder_entity` (src/map.rs): two rails and two rungs,
each a two-point path. -/
def SvgMapDrawing.ladder_entity (d : SvgMapDrawing) (e : Entity) :
    Option SvgMapDrawing := do
  let hgt := d.dim * 3 / 5
  let off ← checkedSub d.dim hgt
  let offset := off / 2
  let l := d.dim / 5
  let origin := (e.point.scale d.dim).add ⟨offset, offset⟩
  let leftRail := [(Point.mk l 0).add origin, (Point.mk l (3 * l)).add origin]
  let rightRail := leftRail.map fun p => p.add ⟨l, 0⟩
  let topRung := [(Point.mk l l).add origin, (Point.mk (2 * l) l).add origin]
  let bottomRung := [(Point.mk l (2 * l)).add origin, (Point.mk (2 * l) (2 * l)).add origin]
  let paths := [leftRail, rightRail, topRung, bottomRung]
  pure ⟨paths.foldl (fun b ps => b.path ps .Black) d.builder, d.dim⟩

/-- `SvgMapDrawing::x_entity` (src/map.rs): two diagonal two-point paths. -/
def SvgMapDrawing.x_entity (d : SvgMapDrawing) (e : Entity) : SvgMapDrawing :=
  let offset := d.dim / 5
  let p := (e.point.scale d.dim).add ⟨offset, offset⟩
  let side := d.dim * 3 / 5
  let horiz : Point := ⟨side, 0⟩
  let vert : Point := ⟨0, side⟩
  let b1 := d.builder.path [p, (p.add horiz).add vert] .Black
  let b2 := b1.path [p.add vert, p.add horiz] .Black
  ⟨b2, d.dim⟩

/-- The entity dispatch of `SvgMapDrawing::draw` (src/map.rs lines 178-196). -/
def drawEntity (d : SvgMapDrawing) (e : Entity) : Option SvgMapDrawing :=
  match e.shape with
  | .Circle radius => d.circle_entity e radius
  | .Square => d.square_entity e
  | .Stair => d.stair_entity e
  | .Ladder => d.ladder_entity e
  | .X => some (d.x_entity e)

/-- The points of one cycle (`cycle.iter().map(|h| find_node(h).unwrap()
.data())` in src/map.rs). -/
def cyclePoints (g : Graph) (cycle : List Nat) : Option (List Point) :=
  cycle.mapM fun h => (g.find_node h).map Node.data

/-- `slice::chunks(2)`: split a list into successive pairs, a final singleton
when the length is odd. -/
def chunksTwo : List Nat → List (List Nat)
  | [] => []
  | [a] => [[a]]
  | a :: b :: rest => [a, b] :: chunksTwo rest

/-- The corridor-path step of `SvgMapDrawing::draw` (src/map.rs lines
145-175) for one connected component: drop nodes whose point lies in a
cycle (`polygon_points`), and if any remain, pair up the degree-1 survivors
(`edge_count() == 1`) two at a time (an odd tail endpoint is paired with
`endpoints[0]`), draw `find_path` between each pair, scaled by `dim`.
Returns the point lists of the paths to draw. -/
def componentChainPaths (g : Graph) (pp : List Point) (dim : Nat)
    (cc : List Nat) : Option (List (List Point)) := do
  let handles ← cc.filterM fun h => do
    let nd ← g.find_node h
    pure (¬ pp.contains nd.data)
  if handles.isEmpty then pure []
  else do
    let endpoints ← handles.filterM fun h => do
      let nd ← g.find_node h
      pure (nd.edge_count = 1)
    (chunksTwo endpoints).mapM fun chunk => do
      let se ←
        match chunk with
        | [] => none
        | [a] => do
          let e0 ← endpoints.head?
          pure (a, e0)
        | a :: b :: _ => pure (a, b)
      let path ← g.find_path se.1 se.2
      let pts ← path.mapM fun h => (g.find_node h).map Node.data
      pure (scale_points pts dim)

/-- `SvgMapDrawing::draw` (src/map.rs) up to (not including) the final
`build`: background grid cells, one polygon per cycle, corridor paths per
multi-node component, then entity glyphs. -/
def SvgMapDrawing.drawElems (d0 : SvgMapDrawing) (m : Map) :
    Option SvgMapDrawing := do
  let d1 := (List.range m.width).foldl
    (fun d i => (List.range m.height).foldl
      (fun d2 j => d2.grid_cell ⟨i, j⟩) d) d0
  let cycles ← m.graph.find_cycles
  let d2 ← cycles.foldlM (fun d cyc => do
    let pts ← cyclePoints m.graph cyc
    let pts2 := (pts.filter fun p => m.contains_point p).map fun p => p.scale d.dim
    pure (d.polygon pts2)) d1
  let pp ← cycles.flatten.mapM fun h => (m.graph.find_node h).map Node.data
  let ccs ← m.graph.connected_components
  let d3 ← (ccs.filter fun c => c.length > 1).foldlM (fun d cc => do
    let paths ← componentChainPaths m.graph pp d.dim cc
    pure (paths.foldl (fun dd pts => dd.pathElem pts) d)) d2
  m.entities.foldlM drawEntity d3

/-- `SvgMapDrawing::draw` (src/map.rs): the element pass then
`self.builder.build()`. -/
def SvgMapDrawing.draw (d : SvgMapDrawing) (m : Map) : Option String := do
  let d2 ← d.drawElems m
  d2.builder.build

/-- `map_to_svg` (src/map.rs). -/
def map_to_svg (m : Map) (dim : Nat) : Option String :=
  (SvgMapDrawing.new dim m).draw m

/-- Number of `<path>` elements a builder holds (proof-side accessor for the
corridor-drawing claims). -/
def SvgBuilder.numPaths (b : SvgBuilder) : Nat :=
  (b.elements.filter fun e =>
    match e with
    | .path _ _ => true
    | _ => false).length

/-! ## Well-formedness

`Graph.wfB`: every adjacency entry is a valid node index and adjacency is
multiset-symmetric (both hold for every graph the Map layer can build).
`Map.wfB` additionally pins the node payloads and the `point_nodes` key map
to the shape `Map::new` creates. -/

/-- Graph well-formedness (boolean, so concrete witnesses can be checked by
evaluation). -/
def Graph.wfB (g : Graph) : Bool :=
  (g.nodes.all fun nd => nd.edges.all fun e => e < g.nodes.length) &&
  ((List.range g.nodes.length).all fun a =>
    (List.range g.nodes.length).all fun b =>
      (g.edgesOf a).count b = (g.edgesOf b).count a)

/-- The `point_nodes` association list `Map::new` builds: key `i` maps to
handle `i` for each of the `n` grid points. -/
def canonicalPN (n : Nat) : List (Nat × Nat) :=
  (List.range n).map fun i => (i, i)

/-- Map well-formedness: a well-formed graph whose node payloads are exactly
the grid points of a `width × height` grid, with the canonical key map. -/
def Map.wfB (m : Map) : Bool :=
  m.graph.wfB &&
  decide (m.graph.nodes.map Node.data = grid_points m.width m.height) &&
  decide (m.point_nodes = canonicalPN ((m.width + 1) * (m.height + 1)))

/-! ## Spec-side definitions

These follow the spec's words (not the source); each is compared with the
corresponding embedded source function by a refinement theorem. -/

/-- Spec-side effective start of a line (spec 4.3: shift one step right for
`Right`, one step down for `Bottom`, unshifted for `Left`/`Top`). -/
def lineStartSpec (l : Line) : Point :=
  match l.orientation with
  | .Left | .Top => l.start
  | .Right => l.start.right
  | .Bottom => l.start.down

/-- Spec-side segment list of a line: `n` consecutive unit segments, each
stepping down (`Left`/`Right`) or right (`Top`/`Bottom`) from the previous
point. -/
def lineSegsSpec (o : LineOrientation) : Point → Nat → List (Point × Point)
  | _, 0 => []
  | p, n + 1 => (p, lineStep o p) :: lineSegsSpec o (lineStep o p) n

/-- Spec-side segment processing (spec 4.3): fail `OutOfBounds` at the first
segment with an endpoint for which `point_exists` is false; `Or` connects,
`Xor` toggles. -/
def processSegsSpec (m : Map) (b : ShapeBoolean) (loc : SourceLocation) :
    List (Point × Point) → Option (Except CompileError Map)
  | [] => some (.ok m)
  | s :: rest =>
    if ¬ m.point_exists s.1 ∨ ¬ m.point_exists s.2 then
      some (.error ⟨.OutOfBounds, loc⟩)
    else do
      let m2 ←
        match b with
        | .Or => m.connect s.1 s.2
        | .Xor => do
          let c ← m.are_connected s.1 s.2
          if c then m.disconnect s.1 s.2 else m.connect s.1 s.2
      processSegsSpec m2 b loc rest

/-- Spec-side line handling: process the spec-side segment list from the
spec-side effective start. -/
def handle_line_spec (m : Map) (l : Line) (loc : SourceLocation) :
    Option (Except CompileError Map) :=
  processSegsSpec m l.boolean_op loc
    (lineSegsSpec l.orientation (lineStartSpec l) l.length)

/-- The grid points of a `w × h` grid as a row-major list comprehension
(proof-side normal form of `grid_points`). -/
def gridList (w h : Nat) : List Point :=
  (List.range (h + 1)).flatMap fun j => (List.range (w + 1)).map fun i => Point.mk i j

/-- Number of points the iterator still yields (proof-side). -/
def PointsIter.numRemaining (it : PointsIter) : Nat :=
  if it.x ≥ it.x_max ∨ it.y ≥ it.y_max then 0
  else it.y_max * it.x_max - it.y * it.x_max - it.x

/-- The list the iterator still yields (proof-side): the rest of the current
row, then all full rows below. -/
def PointsIter.target (it : PointsIter) : List Point :=
  if it.x ≥ it.x_max ∨ it.y ≥ it.y_max then []
  else
    ((List.range' it.x (it.x_max - it.x)).map fun i => Point.mk i it.y) ++
    ((List.range' (it.y + 1) (it.y_max - (it.y + 1))).flatMap fun j =>
      (List.range' 0 it.x_max).map fun i => Point.mk i j)

/-! ## Concrete example inputs used by witnesses and counterexamples -/

/-- A grid-dimension AST node at source location 1:1. -/
def gridNode (w h : Nat) : AstNode :=
  ⟨.GridDimensions ⟨w, h⟩, ⟨1, 1⟩⟩

/-- A rectangle AST node. -/
def rectNodeAt (x y w h : Nat) (b : ShapeBoolean) (line col : Nat) : AstNode :=
  ⟨.Shape (.rect ⟨⟨x, y⟩, w, h, b⟩), ⟨line, col⟩⟩

/-- A line AST node. -/
def lineNodeAt (o : LineOrientation) (x y n : Nat) (b : ShapeBoolean)
    (line col : Nat) : AstNode :=
  ⟨.Shape (.line ⟨o, ⟨x, y⟩, n, b⟩), ⟨line, col⟩⟩

/-- A circle entity AST node anchored `At`. -/
def circleNodeAt (x y r line col : Nat) : AstNode :=
  ⟨.Entity ⟨.Circle r, ⟨x, y⟩, .At⟩, ⟨line, col⟩⟩

/-- Two identical `Or` rectangles over the single cell of a 1×1 grid: every
perimeter segment is Or-connected twice. -/
def astOverlapOr : AbstractSyntaxTree :=
  ⟨[gridNode 1 1, rectNodeAt 0 0 1 1 .Or 2 1, rectNodeAt 0 0 1 1 .Or 3 1]⟩

/-- The map `generate_map` produces for `astOverlapOr` (the fallback branch is
dead; the accompanying theorem proves generation succeeds with this value). -/
def mapOverlapOr : Map :=
  match generate_map astOverlapOr with
  | some (.ok m) => m
  | _ => Map.new 0 0

/-- A unit `Xor` rectangle (only its `boolean_op` matters to
`handle_rect_points`). -/
def rectXorUnit : Rect := ⟨⟨0, 0⟩, 1, 1, .Xor⟩

/-- One Xor application to segment `(0,0)-(1,0)` of `mapOverlapOr`. -/
def xorOnce : Map :=
  match handle_rect_points mapOverlapOr rectXorUnit ⟨0, 0⟩ ⟨1, 0⟩ ⟨1, 1⟩ with
  | some (.ok m) => m
  | _ => Map.new 0 0

/-- A second Xor application to the same segment. -/
def xorTwice : Map :=
  match handle_rect_points xorOnce rectXorUnit ⟨0, 0⟩ ⟨1, 0⟩ ⟨1, 1⟩ with
  | some (.ok m) => m
  | _ => Map.new 0 0

/-- A one-Xor-rectangle program on a 2×2 grid. -/
def astXorExample : AbstractSyntaxTree :=
  ⟨[gridNode 2 2, rectNodeAt 0 0 1 1 .Xor 2 1]⟩

/-- The map generated for `astXorExample` (fallback branch dead). -/
def mapXorExample : Map :=
  match generate_map astXorExample with
  | some (.ok m) => m
  | _ => Map.new 0 0

/-- The program `grid 5,5` followed by `entity circle at 2,4 radius 2`: the
bottom extent point `(2, 4+2) = (2, 6)` lies outside the grid (valid `y`
range `0..5`). -/
def astCircleBottomOOB : AbstractSyntaxTree :=
  ⟨[gridNode 5 5, circleNodeAt 2 4 2 2 1]⟩

/-- The map generated for `astCircleBottomOOB` (fallback branch dead; the
accompanying theorem proves generation succeeds with this value). -/
def mapCircleBottomOOB : Map :=
  match generate_map astCircleBottomOOB with
  | some (.ok m) => m
  | _ => Map.new 0 0

/-- The program `grid 5,5` followed by `rect at 2,2 width 10 height 10`: the
rectangle's perimeter leaves the 5×5 grid. -/
def astRectOOB : AbstractSyntaxTree :=
  ⟨[gridNode 5 5, rectNodeAt 2 2 10 10 .Or 2 1]⟩

/-- Four bare nodes for the cycle-search examples. -/
def g6base : Graph :=
  ⟨[⟨⟨0, 0⟩, []⟩, ⟨⟨1, 0⟩, []⟩, ⟨⟨2, 0⟩, []⟩, ⟨⟨3, 0⟩, []⟩]⟩

/-- A square `0-1-2-3-0` with the diagonal `1-3` (fallback branch dead). -/
def g6 : Graph :=
  match (do
      let a ← g6base.add_edge 0 1
      let b ← a.add_edge 1 2
      let c ← b.add_edge 2 3
      let d ← c.add_edge 3 0
      d.add_edge 1 3 : Option Graph) with
  | some g => g
  | none => Graph.new

/-- `v`'s adjacency list is exactly `{a, b}` (in either order). -/
def adjPair (g : Graph) (v a b : Nat) : Bool :=
  decide (g.edgesOf v = [a, b] ∨ g.edgesOf v = [b, a])

/-- `chainAdjB g tgt prev chain`: walking `chain` after having arrived from
`prev`, every node's adjacency is exactly its two walk neighbors, and the
last node's forward neighbor is `tgt` (the wrap-around). -/
def chainAdjB (g : Graph) (tgt : Nat) : Nat → List Nat → Bool
  | _, [] => false
  | prev, [last] => adjPair g last prev tgt
  | prev, v :: w :: rest => adjPair g v prev w && chainAdjB g tgt v (w :: rest)

/-- `ringAdjB g ring`: the edge set of `g` is exactly the cyclic unit
segments of `ring` — each ring node's adjacency is its two cyclic neighbors
in either order. -/
def ringAdjB (g : Graph) (ring : List Nat) : Bool :=
  match ring with
  | v0 :: v1 :: rest =>
    adjPair g v0 v1 ((v1 :: rest).getLastD 0) && chainAdjB g v0 v0 (v1 :: rest)
  | _ => false

/-- The perimeter grid points of the `w×h` rectangle anchored at `(x,y)`, in
cyclic order: top row left→right, right column top→bottom, bottom row
right→left, left column bottom→top. -/
def ringPts (w h x y : Nat) : List Point :=
  Point.mk x y ::
  (((List.range (w - 1)).map fun i => Point.mk (x + 1 + i) y) ++
   ((List.range h).map fun j => Point.mk (x + w) (y + j)) ++
   ((List.range w).map fun i => Point.mk (x + w - i) (y + h)) ++
   ((List.range h).map fun j => Point.mk x (y + h - j)))

/-- The map of `grid 1,1` plus a unit rectangle (fallback branch dead). -/
def mapRect11 : Map :=
  match generate_map ⟨[gridNode 1 1, rectNodeAt 0 0 1 1 .Or 2 1]⟩ with
  | some (.ok m) => m
  | _ => Map.new 0 0

/-- Two 1×1 rooms at the ends of a 4×1 grid joined by a 2-segment corridor
line. -/
def astCorridor : AbstractSyntaxTree :=
  ⟨[gridNode 4 1, rectNodeAt 0 0 1 1 .Or 2 1, rectNodeAt 3 0 1 1 .Or 3 1,
    lineNodeAt .Top 1 0 2 .Or 4 1]⟩

/-- The generated corridor map (fallback branch dead). -/
def mapCorridor : Map :=
  match generate_map astCorridor with
  | some (.ok m) => m
  | _ => Map.new 0 0

/-- The polygon points of `mapCorridor` as the renderer computes them. -/
def ppCorridor : List Point :=
  ((mapCorridor.graph.find_cycles.getD []).flatten.mapM
    fun h => (mapCorridor.graph.find_node h).map Node.data).getD []

/-- The corridor map's big connected component (both rooms plus the
corridor). -/
def ccBig : List Nat := [0, 5, 6, 1, 2, 3, 8, 9, 4]

/-- A 1×1 map holding one `Within`-positioned circle entity. -/
def mapWithin : Map :=
  (Map.new 1 1).add_entity ⟨.Circle 0, ⟨0, 0⟩, .Within⟩

/-- A builder element is serializable: a `path` needs at least one point
(`SvgPath::to_svg` indexes `points_strs[0]`), everything else always
serializes. -/
def elemOkB : SvgElement → Bool
  | .path ps _ => ¬ ps.isEmpty
  | _ => true

/-- All elements of the builder are serializable. -/
def builderOkB (b : SvgBuilder) : Bool :=
  b.elements.all elemOkB

/-- Remaining traversal work of `bfs`: total adjacency length of the
not-yet-visited nodes (proof-side termination metric). -/
def unvisitedWork (g : Graph) (visited : List Bool) : Nat :=
  (((List.range g.nodes.length).filter fun i =>
    decide (visited.get? i = some false)).map fun i => (g.edgesOf i).length).sum

/-- Reachability along adjacency lists (proof-side). -/
inductive Reach (g : Graph) (a : Nat) : Nat → Prop
  | refl : Reach g a a
  | step {b c : Nat} : Reach g a b → c ∈ g.edgesOf b → Reach g a c

/-- An AST whose every shape (rectangle or line) carries the `Xor` policy. -/
def astXorOnly (ast : AbstractSyntaxTree) : Bool :=
  ast.nodes.all fun n =>
    match n.node_type with
    | .Shape (.rect r) =>
      match r.boolean_op with
      | .Xor => true
      | .Or => false
    | .Shape (.line l) =>
      match l.boolean_op with
      | .Xor => true
      | .Or => false
    | _ => true

/-- Generation invariant for the adjacency-multiplicity arguments: the key
table is the canonical one for the node count, and no adjacency list holds
the same handle twice. -/
def MapInv (m : Map) : Prop :=
  m.point_nodes = canonicalPN m.graph.nodes.length ∧
  ∀ a b, (m.graph.edgesOf a).count b ≤ 1

/-! # Theorems -/

theorem pointsRun_eq_target : ∀ (fuel : Nat) (it : PointsIter),
    it.numRemaining ≤ fuel → PointsIter.run fuel it = it.target := by
  intro fuel
  induction fuel with
  | zero =>
    intro it h
    obtain ⟨x, y, xm, ym⟩ := it
    unfold PointsIter.numRemaining at h
    unfold PointsIter.target
    by_cases hend : x ≥ xm ∨ y ≥ ym
    · simp only [PointsIter.run]
      rw [if_pos (by simpa using hend)]
    · exfalso
      rw [if_neg (by simpa using hend)] at h
      simp only at h hend
      push_neg at hend
      have hmul : y * xm + xm ≤ ym * xm := by
        have h2 : (y + 1) * xm ≤ ym * xm :=
          Nat.mul_le_mul_right xm (by omega)
        have h3 : (y + 1) * xm = y * xm + xm := by ring
        omega
      omega
  | succ f ih =>
    intro it h
    obtain ⟨x, y, xm, ym⟩ := it
    by_cases hend : x ≥ xm ∨ y ≥ ym
    · have hnext : PointsIter.next ⟨x, y, xm, ym⟩ = none := by
        unfold PointsIter.next
        rw [if_pos (by simpa using hend)]
      rw [show PointsIter.run (f + 1) ⟨x, y, xm, ym⟩ =
        (match PointsIter.next ⟨x, y, xm, ym⟩ with
         | none => []
         | some (p, it2) => p :: PointsIter.run f it2) from rfl, hnext]
      unfold PointsIter.target
      rw [if_pos (by simpa using hend)]
    · push_neg at hend
      obtain ⟨hx, hy⟩ := hend
      unfold PointsIter.numRemaining at h
      rw [if_neg (by simp only [ge_iff_le]; omega)] at h
      simp only at h
      by_cases hwrap : x + 1 ≥ xm
      · have hnext : PointsIter.next ⟨x, y, xm, ym⟩ =
            some (⟨x, y⟩, ⟨0, y + 1, xm, ym⟩) := by
          unfold PointsIter.next
          rw [if_neg (by simp only [ge_iff_le]; omega)]
          simp only
          rw [if_pos (by simpa using hwrap)]
        rw [show PointsIter.run (f + 1) ⟨x, y, xm, ym⟩ =
          (match PointsIter.next ⟨x, y, xm, ym⟩ with
           | none => []
           | some (p, it2) => p :: PointsIter.run f it2) from rfl, hnext]
        simp only
        rw [ih ⟨0, y + 1, xm, ym⟩ (by
          unfold PointsIter.numRemaining
          by_cases hl : (0 : Nat) ≥ xm ∨ y + 1 ≥ ym
          · rw [if_pos (by simpa using hl)]
            omega
          · rw [if_neg (by simpa using hl)]
            simp only
            have h3 : (y + 1) * xm = y * xm + xm := by ring
            omega)]
        have hxm : xm - x = 1 := by omega
        have hR : PointsIter.target ⟨x, y, xm, ym⟩ =
            ⟨x, y⟩ :: ((List.range' (y + 1) (ym - (y + 1))).flatMap fun j =>
              (List.range' 0 xm).map fun i => Point.mk i j) := by
          unfold PointsIter.target
          rw [if_neg (by simp only [ge_iff_le]; omega)]
          simp only
          rw [hxm]
          simp [List.range']
        rw [hR]
        by_cases hlast : y + 1 ≥ ym
        · have hL : PointsIter.target ⟨0, y + 1, xm, ym⟩ = [] := by
            unfold PointsIter.target
            rw [if_pos (by simp only [ge_iff_le]; omega)]
          rw [hL]
          have h4 : ym - (y + 1) = 0 := by omega
          rw [h4]
          simp
        · have hL : PointsIter.target ⟨0, y + 1, xm, ym⟩ =
              ((List.range' (y + 1) (ym - (y + 1))).flatMap fun j =>
                (List.range' 0 xm).map fun i => Point.mk i j) := by
            unfold PointsIter.target
            rw [if_neg (by simp only [ge_iff_le]; omega)]
            simp only [Nat.sub_zero]
            have h1 : ym - (y + 1) = (ym - (y + 1 + 1)) + 1 := by omega
            rw [h1, List.range'_succ]
            simp [List.flatMap_cons]
          rw [hL]
      · have hnext : PointsIter.next ⟨x, y, xm, ym⟩ =
            some (⟨x, y⟩, ⟨x + 1, y, xm, ym⟩) := by
          unfold PointsIter.next
          rw [if_neg (by simp only [ge_iff_le]; omega)]
          simp only
          rw [if_neg (by simpa using hwrap)]
        rw [show PointsIter.run (f + 1) ⟨x, y, xm, ym⟩ =
          (match PointsIter.next ⟨x, y, xm, ym⟩ with
           | none => []
           | some (p, it2) => p :: PointsIter.run f it2) from rfl, hnext]
        simp only
        rw [ih ⟨x + 1, y, xm, ym⟩ (by
          unfold PointsIter.numRemaining
          by_cases hl : x + 1 ≥ xm ∨ y ≥ ym
          · rw [if_pos (by simpa using hl)]
            omega
          · rw [if_neg (by simpa using hl)]
            simp only
            omega)]
        unfold PointsIter.target
        simp only
        rw [if_neg (by simp only [ge_iff_le]; omega)]
        rw [if_neg (by simp only [ge_iff_le]; omega)]
        have h1 : xm - x = (xm - (x + 1)) + 1 := by omega
        rw [h1, List.range'_succ]
        simp

theorem grid_points_eq_gridList (w h : Nat) :
    grid_points w h = gridList w h := by
  unfold grid_points gridList
  rw [pointsRun_eq_target]
  · unfold PointsIter.target
    rw [if_neg (by simp)]
    simp only [Nat.sub_zero, Nat.add_sub_cancel]
    simp only [List.range_eq_range']
    conv_rhs => rw [List.range'_succ]
    simp [List.flatMap_cons]
  · unfold PointsIter.numRemaining
    rw [if_neg (by simp)]
    simp only [Nat.mul_zero, Nat.sub_zero, Nat.zero_mul]
    exact le_of_eq (by ring)

theorem gridList_length (w h : Nat) :
    (gridList w h).length = (w + 1) * (h + 1) := by
  unfold gridList
  rw [List.length_flatMap]
  simp only [Function.comp_def, List.length_map, List.length_range]
  rw [List.map_const', List.sum_replicate, List.length_range, smul_eq_mul]
  ring

theorem grid_points_length (w h : Nat) :
    (grid_points w h).length = (w + 1) * (h + 1) := by
  rw [grid_points_eq_gridList, gridList_length]

/-- Positional characterization: the point `(x, y)` sits at linear index
`x + (w+1)*y`. -/
theorem gridListFrom_get : ∀ (rows j y x w : Nat), y < rows → x ≤ w →
    ((List.range' j rows).flatMap fun b =>
      (List.range (w + 1)).map fun a => Point.mk a b).get? (x + (w + 1) * y) =
      some ⟨x, j + y⟩ := by
  intro rows
  induction rows with
  | zero => omega
  | succ r ih =>
    intro j y x w hy hx
    rw [List.range'_succ, List.flatMap_cons]
    cases y with
    | zero =>
      rw [List.get?_append (by simp; omega)]
      simp only [Nat.mul_zero, Nat.add_zero]
      rw [List.get?_map, List.get?_range (by omega)]
      simp
    | succ y2 =>
      rw [List.get?_append_right (by simp; nlinarith)]
      simp only [List.length_map, List.length_range]
      have harith : x + (w + 1) * (y2 + 1) - (w + 1) = x + (w + 1) * y2 := by
        have : (w + 1) * (y2 + 1) = (w + 1) * y2 + (w + 1) := by ring
        omega
      rw [harith, ih (j + 1) y2 x w (by omega) hx]
      have : j + 1 + y2 = j + (y2 + 1) := by omega
      rw [this]

theorem grid_points_get (w h x y : Nat) (hx : x ≤ w) (hy : y ≤ h) :
    (grid_points w h).get? (x + (w + 1) * y) = some ⟨x, y⟩ := by
  rw [grid_points_eq_gridList]
  unfold gridList
  rw [List.range_eq_range' (n := h + 1)]
  have := gridListFrom_get (h + 1) 0 y x w (by omega) hx
  simpa using this

/-- The `Map::new` fold, characterized: nodes are the grid points (with empty
adjacency), `point_nodes` is the canonical identity key map. -/
theorem mapNew_fold : ∀ (ps : List Point) (g : Graph) (pn : List (Nat × Nat)) (j : Nat),
    List.foldl
      (fun acc ip =>
        let res := acc.1.add_node ip.2
        (res.1, acc.2 ++ [(ip.1, res.2)]))
      (g, pn) (ps.enumFrom j) =
    (⟨g.nodes ++ ps.map fun p => ⟨p, []⟩⟩,
      pn ++ (List.range ps.length).map fun k => (j + k, g.nodes.length + k)) := by
  intro ps
  induction ps with
  | nil => intro g pn j; simp
  | cons p rest ih =>
    intro g pn j
    simp only [List.enumFrom, List.foldl_cons]
    rw [ih]
    unfold Graph.add_node
    simp only [List.length_cons, Prod.mk.injEq]
    refine ⟨by simp, ?_⟩
    simp only [List.range_succ_eq_map, List.map_cons, List.map_map]
    simp only [Nat.add_zero, List.append_assoc, List.singleton_append]
    congr 1
    congr 1
    apply List.map_congr_left
    intro a _
    simp only [Function.comp_apply, List.length_append, List.length_map,
      List.length_cons, List.length_nil, Prod.mk.injEq]
    constructor <;> omega

theorem mapNew_graph_nodes (w h : Nat) :
    (Map.new w h).graph.nodes = (grid_points w h).map fun p => ⟨p, []⟩ := by
  unfold Map.new
  simp only [List.enum]
  have := mapNew_fold (grid_points w h) Graph.new [] 0
  simp only [List.enum] at this ⊢
  rw [this]
  rfl

theorem mapNew_point_nodes (w h : Nat) :
    (Map.new w h).point_nodes = canonicalPN ((w + 1) * (h + 1)) := by
  unfold Map.new
  have := mapNew_fold (grid_points w h) Graph.new [] 0
  simp only [List.enum] at this ⊢
  rw [this]
  unfold canonicalPN Graph.new
  rw [grid_points_length]
  simp

theorem mapNew_width (w h : Nat) : (Map.new w h).width = w := rfl

theorem mapNew_height (w h : Nat) : (Map.new w h).height = h := rfl

theorem mapNew_entities (w h : Nat) : (Map.new w h).entities = [] := rfl

/-- Association-list lookup splits over append, first list winning. -/
theorem lookup_append (a : Nat) : ∀ (l1 l2 : List (Nat × Nat)),
    List.lookup a (l1 ++ l2) =
      match List.lookup a l1 with
      | some v => some v
      | none => List.lookup a l2 := by
  intro l1 l2
  induction l1 with
  | nil => simp [List.lookup]
  | cons hd tl ih =>
    simp only [List.cons_append, List.lookup]
    cases hbeq : (a == hd.1)
    · simpa using ih
    · rfl

theorem lookup_canonicalPN (n k : Nat) :
    List.lookup k (canonicalPN n) = if k < n then some k else none := by
  induction n with
  | zero => simp [canonicalPN]
  | succ m ih =>
    unfold canonicalPN at ih ⊢
    rw [List.range_succ, List.map_append, lookup_append]
    rw [ih]
    by_cases hk : k < m
    · rw [if_pos hk, if_pos (by omega)]
    · rw [if_neg hk]
      by_cases hk2 : k = m
      · subst hk2
        simp [List.lookup]
      · simp only [List.map_cons, List.map_nil, List.lookup]
        rw [show (k == m) = false from by simpa using hk2]
        rw [if_neg (by omega)]

/-- `find_node` on any map with the canonical key table: defined exactly on
keys below the node count, returning the key itself. -/
theorem find_node_canonical (m : Map) (n : Nat)
    (hpn : m.point_nodes = canonicalPN n) (p : Point) :
    m.find_node p =
      if p.x + (m.width + 1) * p.y < n then some (p.x + (m.width + 1) * p.y)
      else none := by
  unfold Map.find_node
  rw [hpn, lookup_canonicalPN]

theorem inBounds_key_lt (w h x y : Nat) (hx : x ≤ w) (hy : y ≤ h) :
    x + (w + 1) * y < (w + 1) * (h + 1) := by
  have h1 : (w + 1) * y ≤ (w + 1) * h := Nat.mul_le_mul_left _ hy
  have h2 : (w + 1) * (h + 1) = (w + 1) * h + (w + 1) := by ring
  omega

theorem mapNew_find_node (w h : Nat) (p : Point) (hx : p.x ≤ w) (hy : p.y ≤ h) :
    (Map.new w h).find_node p = some (p.x + (w + 1) * p.y) := by
  rw [find_node_canonical (Map.new w h) ((w + 1) * (h + 1)) (mapNew_point_nodes w h) p]
  rw [mapNew_width]
  rw [if_pos (inBounds_key_lt w h p.x p.y hx hy)]

theorem mapNew_point_exists (w h : Nat) (p : Point) :
    (Map.new w h).point_exists p = (decide (p.x ≤ w) && decide (p.y ≤ h)) := by
  unfold Map.point_exists
  by_cases hx : p.x ≤ w <;> by_cases hy : p.y ≤ h
  · rw [if_neg (by rw [mapNew_width, mapNew_height]; omega)]
    rw [mapNew_find_node w h p hx hy]
    simp [hx, hy]
  · rw [if_pos (by rw [mapNew_width, mapNew_height]; omega)]
    simp [hy]
  · rw [if_pos (by rw [mapNew_width, mapNew_height]; omega)]
    simp [hx]
  · rw [if_pos (by rw [mapNew_width, mapNew_height]; omega)]
    simp [hx]

/-! ### Adjacency-list surgery: `swap_remove`, `add_edge`, `remove_edge` -/

theorem nodes_get_exists (g : Graph) (h : Nat) (hl : h < g.nodes.length) :
    ∃ nd, g.nodes.get? h = some nd := by
  rw [List.get?_eq_getElem?]
  exact ⟨_, List.getElem?_eq_getElem hl⟩

theorem edgesOf_eq (g : Graph) (h : Nat) (nd : Node)
    (hget : g.nodes.get? h = some nd) : g.edgesOf h = nd.edges := by
  unfold Graph.edgesOf
  rw [hget]
  rfl

/-- `swap_remove` at a valid index is a permutation of deleting that index. -/
theorem swapRemove_perm (l : List Nat) (i : Nat) (hi : i < l.length) :
    List.Perm (swapRemove l i) (l.eraseIdx i) := by
  cases hg : l.getLast? with
  | none =>
    rw [List.getLast?_eq_none_iff] at hg
    subst hg
    simp at hi
  | some b =>
    obtain ⟨zs, hzs⟩ := List.getLast?_eq_some_iff.mp hg
    subst hzs
    unfold swapRemove
    rw [hg]
    simp only
    rw [List.set_eq_take_cons_drop b (by simpa using hi)]
    rw [List.eraseIdx_eq_take_drop_succ]
    have hlen : (zs ++ [b]).length = zs.length + 1 := by simp
    by_cases hlast : i = zs.length
    · subst hlast
      rw [show List.take zs.length (zs ++ [b]) = zs from List.take_left zs [b]]
      rw [show List.drop (zs.length + 1) (zs ++ [b]) = [] from
        List.drop_eq_nil_of_le (by simp)]
      rw [show zs ++ b :: ([] : List Nat) = zs ++ [b] from rfl]
      rw [List.dropLast_concat]
      simp
    · have hilt : i < zs.length := by omega
      rw [List.take_append_eq_append_take]
      rw [show i - zs.length = 0 from by omega]
      rw [List.take_zero, List.append_nil]
      rw [List.drop_append_eq_append_drop]
      rw [show i + 1 - zs.length = 0 from by omega]
      rw [List.drop_zero]
      rw [show (b :: (List.drop (i + 1) zs ++ [b])) =
        (b :: List.drop (i + 1) zs) ++ [b] from by simp]
      rw [← List.append_assoc]
      rw [List.dropLast_concat]
      apply List.Perm.append_left
      exact (List.perm_append_singleton b (List.drop (i + 1) zs)).symm

/-- First-occurrence decomposition underlying `Vec::position`. -/
theorem indexOf?_first : ∀ (l : List Nat) (h : Nat), h ∈ l →
    ∃ xs ys, l = xs ++ h :: ys ∧ h ∉ xs ∧ l.indexOf? h = some xs.length := by
  intro l
  induction l with
  | nil => intro h hmem; simp at hmem
  | cons a tl ih =>
    intro h hmem
    by_cases hah : a = h
    · subst hah
      refine ⟨[], tl, by simp, by simp, ?_⟩
      rw [List.indexOf?_cons]
      simp
    · have htl : h ∈ tl := by
        rcases List.mem_cons.mp hmem with rfl | htl
        · exact absurd rfl hah
        · exact htl
      obtain ⟨xs, ys, heq, hnot, hidx⟩ := ih h htl
      refine ⟨a :: xs, ys, by simp [heq], ?_, ?_⟩
      · simp only [List.mem_cons, not_or]
        exact ⟨fun hh => hah hh.symm, hnot⟩
      · rw [List.indexOf?_cons]
        rw [if_neg (by simpa using hah), hidx]
        simp

theorem removeEdgeN_perm (n : Node) (h : Nat) :
    List.Perm (n.removeEdgeN h).edges (n.edges.erase h) := by
  unfold Node.removeEdgeN
  by_cases hmem : h ∈ n.edges
  · obtain ⟨xs, ys, heq, hnot, hidx⟩ := indexOf?_first n.edges h hmem
    rw [hidx]
    simp only
    have hperm := swapRemove_perm n.edges xs.length
      (by rw [heq]; simp)
    have herase : n.edges.erase h = xs ++ ys := by
      rw [heq, List.erase_append_right _ hnot, List.erase_cons_head]
    have heidx : n.edges.eraseIdx xs.length = xs ++ ys := by
      rw [heq, List.eraseIdx_eq_take_drop_succ]
      rw [show List.take xs.length (xs ++ h :: ys) = xs from List.take_left xs _]
      rw [List.drop_append_eq_append_drop]
      rw [show xs.length + 1 - xs.length = 1 from by omega]
      rw [List.drop_eq_nil_of_le (by omega)]
      simp
    rw [herase, ← heidx]
    exact hperm
  · have hidx : n.edges.indexOf? h = none := by
      rw [List.indexOf?_eq_none_iff]
      intro x hx
      simp only [beq_iff_eq]
      rintro rfl
      exact hmem hx
    rw [hidx]
    simp only
    rw [List.erase_of_not_mem hmem]

theorem removeEdgeN_data (n : Node) (h : Nat) :
    (n.removeEdgeN h).data = n.data := by
  unfold Node.removeEdgeN
  cases n.edges.indexOf? h <;> rfl

theorem addEdgeN_edges (n : Node) (h : Nat) :
    (n.addEdgeN h).edges = n.edges ++ [h] := rfl

theorem addEdgeN_data (n : Node) (h : Nat) :
    (n.addEdgeN h).data = n.data := rfl

/-- Setting an index back to its current value leaves the list unchanged. -/
theorem set_get_self (l : List Point) (i : Nat) (v : Point)
    (h : l.get? i = some v) : l.set i v = l := by
  apply List.ext_getElem?
  intro j
  by_cases hij : i = j
  · subst hij
    rw [List.get?_eq_getElem?] at h
    rw [List.getElem?_set_self (by
      by_contra hc
      rw [List.getElem?_eq_none (by omega)] at h
      exact Option.noConfusion h)]
    exact h.symm
  · rw [List.getElem?_set_ne hij]

theorem updateNode_some (g : Graph) (i : Nat) (f : Node → Node) (nd : Node)
    (hget : g.nodes.get? i = some nd) :
    g.updateNode i f = some ⟨g.nodes.set i (f nd)⟩ := by
  unfold Graph.updateNode
  rw [hget]

/-- Full characterization of a successful `add_edge` between distinct valid
handles: push on each endpoint's adjacency list, all else unchanged. -/
theorem add_edge_char (g : Graph) (h1 h2 : Nat) (hne : h1 ≠ h2)
    (hl1 : h1 < g.nodes.length) (hl2 : h2 < g.nodes.length) :
    ∃ g2, g.add_edge h1 h2 = some g2 ∧
      g2.edgesOf h1 = g.edgesOf h1 ++ [h2] ∧
      g2.edgesOf h2 = g.edgesOf h2 ++ [h1] ∧
      (∀ j, j ≠ h1 → j ≠ h2 → g2.edgesOf j = g.edgesOf j) ∧
      g2.nodes.length = g.nodes.length ∧
      g2.nodes.map Node.data = g.nodes.map Node.data := by
  obtain ⟨n1, hg1⟩ := nodes_get_exists g h1 hl1
  obtain ⟨n2, hg2⟩ := nodes_get_exists g h2 hl2
  have hg2' : (g.nodes.set h1 (n1.addEdgeN h2)).get? h2 = some n2 := by
    rw [List.get?_eq_getElem?, List.getElem?_set_ne hne,
      ← List.get?_eq_getElem?]
    exact hg2
  have hgetA : (Graph.mk ((g.nodes.set h1 (n1.addEdgeN h2)).set h2 (n2.addEdgeN h1))).nodes.get? h1
      = some (n1.addEdgeN h2) := by
    show ((g.nodes.set h1 (n1.addEdgeN h2)).set h2 (n2.addEdgeN h1)).get? h1 = _
    rw [List.get?_eq_getElem?, List.getElem?_set_ne (Ne.symm hne),
      List.getElem?_set_self (by simpa using hl1)]
  have hgetB : (Graph.mk ((g.nodes.set h1 (n1.addEdgeN h2)).set h2 (n2.addEdgeN h1))).nodes.get? h2
      = some (n2.addEdgeN h1) := by
    show ((g.nodes.set h1 (n1.addEdgeN h2)).set h2 (n2.addEdgeN h1)).get? h2 = _
    rw [List.get?_eq_getElem?, List.getElem?_set_self (by simpa using hl2)]
  refine ⟨⟨(g.nodes.set h1 (n1.addEdgeN h2)).set h2 (n2.addEdgeN h1)⟩, ?_, ?_, ?_, ?_, ?_, ?_⟩
  · unfold Graph.add_edge
    rw [updateNode_some g h1 _ n1 hg1]
    simp only [Option.bind_eq_bind, Option.some_bind]
    exact updateNode_some ⟨g.nodes.set h1 (n1.addEdgeN h2)⟩ h2 _ n2 hg2'
  · rw [edgesOf_eq _ h1 _ hgetA, edgesOf_eq g h1 n1 hg1, addEdgeN_edges]
  · rw [edgesOf_eq _ h2 _ hgetB, edgesOf_eq g h2 n2 hg2, addEdgeN_edges]
  · intro j hj1 hj2
    unfold Graph.edgesOf
    rw [List.get?_eq_getElem?, List.getElem?_set_ne (Ne.symm hj2),
      List.getElem?_set_ne (Ne.symm hj1), ← List.get?_eq_getElem?]
  · simp
  · rw [List.map_set, List.map_set]
    rw [addEdgeN_data, addEdgeN_data]
    rw [set_get_self _ h1 n1.data (by
      rw [List.get?_eq_getElem?, List.getElem?_map]
      rw [List.get?_eq_getElem?] at hg1
      rw [hg1]
      rfl)]
    rw [set_get_self _ h2 n2.data (by
      rw [List.get?_eq_getElem?, List.getElem?_map]
      rw [List.get?_eq_getElem?] at hg2
      rw [hg2]
      rfl)]

/-- Full characterization of a successful `remove_edge` between distinct valid
handles: each endpoint's adjacency list is (up to permutation) the erasure of
the other handle, all else unchanged. -/
theorem remove_edge_char (g : Graph) (h1 h2 : Nat) (hne : h1 ≠ h2)
    (hl1 : h1 < g.nodes.length) (hl2 : h2 < g.nodes.length) :
    ∃ g2, g.remove_edge h1 h2 = some g2 ∧
      List.Perm (g2.edgesOf h1) ((g.edgesOf h1).erase h2) ∧
      List.Perm (g2.edgesOf h2) ((g.edgesOf h2).erase h1) ∧
      (∀ j, j ≠ h1 → j ≠ h2 → g2.edgesOf j = g.edgesOf j) ∧
      g2.nodes.length = g.nodes.length ∧
      g2.nodes.map Node.data = g.nodes.map Node.data := by
  obtain ⟨n1, hg1⟩ := nodes_get_exists g h1 hl1
  obtain ⟨n2, hg2⟩ := nodes_get_exists g h2 hl2
  have hg2' : (g.nodes.set h1 (n1.removeEdgeN h2)).get? h2 = some n2 := by
    rw [List.get?_eq_getElem?, List.getElem?_set_ne hne,
      ← List.get?_eq_getElem?]
    exact hg2
  have hgetA : (Graph.mk ((g.nodes.set h1 (n1.removeEdgeN h2)).set h2 (n2.removeEdgeN h1))).nodes.get? h1
      = some (n1.removeEdgeN h2) := by
    show ((g.nodes.set h1 (n1.removeEdgeN h2)).set h2 (n2.removeEdgeN h1)).get? h1 = _
    rw [List.get?_eq_getElem?, List.getElem?_set_ne (Ne.symm hne),
      List.getElem?_set_self (by simpa using hl1)]
  have hgetB : (Graph.mk ((g.nodes.set h1 (n1.removeEdgeN h2)).set h2 (n2.removeEdgeN h1))).nodes.get? h2
      = some (n2.removeEdgeN h1) := by
    show ((g.nodes.set h1 (n1.removeEdgeN h2)).set h2 (n2.removeEdgeN h1)).get? h2 = _
    rw [List.get?_eq_getElem?, List.getElem?_set_self (by simpa using hl2)]
  refine ⟨⟨(g.nodes.set h1 (n1.removeEdgeN h2)).set h2 (n2.removeEdgeN h1)⟩, ?_, ?_, ?_, ?_, ?_, ?_⟩
  · unfold Graph.remove_edge
    rw [updateNode_some g h1 _ n1 hg1]
    simp only [Option.bind_eq_bind, Option.some_bind]
    exact updateNode_some ⟨g.nodes.set h1 (n1.removeEdgeN h2)⟩ h2 _ n2 hg2'
  · rw [edgesOf_eq _ h1 _ hgetA, edgesOf_eq g h1 n1 hg1]
    exact removeEdgeN_perm n1 h2
  · rw [edgesOf_eq _ h2 _ hgetB, edgesOf_eq g h2 n2 hg2]
    exact removeEdgeN_perm n2 h1
  · intro j hj1 hj2
    unfold Graph.edgesOf
    rw [List.get?_eq_getElem?, List.getElem?_set_ne (Ne.symm hj2),
      List.getElem?_set_ne (Ne.symm hj1), ← List.get?_eq_getElem?]
  · simp
  · rw [List.map_set, List.map_set]
    rw [removeEdgeN_data, removeEdgeN_data]
    rw [set_get_self _ h1 n1.data (by
      rw [List.get?_eq_getElem?, List.getElem?_map]
      rw [List.get?_eq_getElem?] at hg1
      rw [hg1]
      rfl)]
    rw [set_get_self _ h2 n2.data (by
      rw [List.get?_eq_getElem?, List.getElem?_map]
      rw [List.get?_eq_getElem?] at hg2
      rw [hg2]
      rfl)]

theorem is_edge_between_eq (g : Graph) (h1 h2 : Nat)
    (hl1 : h1 < g.nodes.length) (hl2 : h2 < g.nodes.length) :
    g.is_edge_between h1 h2 =
      some ((g.edgesOf h1).contains h2 || (g.edgesOf h2).contains h1) := by
  obtain ⟨n1, hg1⟩ := nodes_get_exists g h1 hl1
  obtain ⟨n2, hg2⟩ := nodes_get_exists g h2 hl2
  unfold Graph.is_edge_between
  rw [hg1]
  simp only [Option.bind_eq_bind, Option.some_bind]
  rw [edgesOf_eq g h1 n1 hg1, edgesOf_eq g h2 n2 hg2]
  unfold Node.hasEdge
  by_cases hc : n1.edges.contains h2
  · rw [if_pos hc, hc]
    rfl
  · rw [if_neg hc]
    rw [show n1.edges.contains h2 = false from by
      cases hcc : n1.edges.contains h2
      · rfl
      · exact absurd hcc hc]
    rw [hg2]
    rfl

theorem contains_eq_decide_mem (l : List Nat) (a : Nat) :
    l.contains a = decide (a ∈ l) := by
  show l.elem a = decide (a ∈ l)
  exact List.elem_eq_mem a l

theorem add_edge_isSome (g : Graph) (h1 h2 : Nat)
    (hl1 : h1 < g.nodes.length) (hl2 : h2 < g.nodes.length) :
    (g.add_edge h1 h2).isSome := by
  obtain ⟨n1, hg1⟩ := nodes_get_exists g h1 hl1
  have h2' : h2 < (g.nodes.set h1 (n1.addEdgeN h2)).length := by simpa using hl2
  obtain ⟨n2, hg2⟩ := nodes_get_exists ⟨g.nodes.set h1 (n1.addEdgeN h2)⟩ h2 h2'
  unfold Graph.add_edge
  rw [updateNode_some g h1 _ n1 hg1]
  simp only [Option.bind_eq_bind, Option.some_bind]
  rw [updateNode_some _ h2 _ n2 hg2]
  rfl

theorem remove_edge_isSome (g : Graph) (h1 h2 : Nat)
    (hl1 : h1 < g.nodes.length) (hl2 : h2 < g.nodes.length) :
    (g.remove_edge h1 h2).isSome := by
  obtain ⟨n1, hg1⟩ := nodes_get_exists g h1 hl1
  have h2' : h2 < (g.nodes.set h1 (n1.removeEdgeN h2)).length := by simpa using hl2
  obtain ⟨n2, hg2⟩ := nodes_get_exists ⟨g.nodes.set h1 (n1.removeEdgeN h2)⟩ h2 h2'
  unfold Graph.remove_edge
  rw [updateNode_some g h1 _ n1 hg1]
  simp only [Option.bind_eq_bind, Option.some_bind]
  rw [updateNode_some _ h2 _ n2 hg2]
  rfl

/-! ### Map-level operation characterizations -/

theorem connect_char (m : Map) (p q : Point) (h1 h2 : Nat) (g2 : Graph)
    (hp : m.find_node p = some h1) (hq : m.find_node q = some h2)
    (hadd : m.graph.add_edge h1 h2 = some g2) :
    m.connect p q = some ⟨m.width, m.height, g2, m.point_nodes, m.entities⟩ := by
  unfold Map.connect
  rw [hp, hq]
  simp only [Option.bind_eq_bind, Option.some_bind]
  rw [hadd]
  rfl

theorem disconnect_char (m : Map) (p q : Point) (h1 h2 : Nat) (g2 : Graph)
    (hp : m.find_node p = some h1) (hq : m.find_node q = some h2)
    (hrem : m.graph.remove_edge h1 h2 = some g2) :
    m.disconnect p q = some ⟨m.width, m.height, g2, m.point_nodes, m.entities⟩ := by
  unfold Map.disconnect
  rw [hp, hq]
  simp only [Option.bind_eq_bind, Option.some_bind]
  rw [hrem]
  rfl

theorem are_connected_eq (m : Map) (p q : Point) (h1 h2 : Nat)
    (hp : m.find_node p = some h1) (hq : m.find_node q = some h2)
    (hl1 : h1 < m.graph.nodes.length) (hl2 : h2 < m.graph.nodes.length) :
    m.are_connected p q =
      some ((m.graph.edgesOf h1).contains h2 || (m.graph.edgesOf h2).contains h1) := by
  unfold Map.are_connected
  rw [hp, hq]
  simp only [Option.bind_eq_bind, Option.some_bind]
  exact is_edge_between_eq m.graph h1 h2 hl1 hl2

theorem mapNew_nodes_length (w h : Nat) :
    (Map.new w h).graph.nodes.length = (w + 1) * (h + 1) := by
  rw [mapNew_graph_nodes]
  rw [List.length_map, grid_points_length]

theorem mapNew_connect_isSome (w h : Nat) (p q : Point)
    (hpx : p.x ≤ w) (hpy : p.y ≤ h) (hqx : q.x ≤ w) (hqy : q.y ≤ h) :
    ((Map.new w h).connect p q).isSome := by
  have hp := mapNew_find_node w h p hpx hpy
  have hq := mapNew_find_node w h q hqx hqy
  have hl1 : p.x + (w + 1) * p.y < (Map.new w h).graph.nodes.length := by
    rw [mapNew_nodes_length]
    exact inBounds_key_lt w h p.x p.y hpx hpy
  have hl2 : q.x + (w + 1) * q.y < (Map.new w h).graph.nodes.length := by
    rw [mapNew_nodes_length]
    exact inBounds_key_lt w h q.x q.y hqx hqy
  have hsome := add_edge_isSome (Map.new w h).graph _ _ hl1 hl2
  obtain ⟨g2, hg2⟩ := Option.isSome_iff_exists.mp hsome
  rw [connect_char (Map.new w h) p q _ _ g2 hp hq hg2]
  rfl

theorem mapNew_disconnect_isSome (w h : Nat) (p q : Point)
    (hpx : p.x ≤ w) (hpy : p.y ≤ h) (hqx : q.x ≤ w) (hqy : q.y ≤ h) :
    ((Map.new w h).disconnect p q).isSome := by
  have hp := mapNew_find_node w h p hpx hpy
  have hq := mapNew_find_node w h q hqx hqy
  have hl1 : p.x + (w + 1) * p.y < (Map.new w h).graph.nodes.length := by
    rw [mapNew_nodes_length]
    exact inBounds_key_lt w h p.x p.y hpx hpy
  have hl2 : q.x + (w + 1) * q.y < (Map.new w h).graph.nodes.length := by
    rw [mapNew_nodes_length]
    exact inBounds_key_lt w h q.x q.y hqx hqy
  have hsome := remove_edge_isSome (Map.new w h).graph _ _ hl1 hl2
  obtain ⟨g2, hg2⟩ := Option.isSome_iff_exists.mp hsome
  rw [disconnect_char (Map.new w h) p q _ _ g2 hp hq hg2]
  rfl

theorem mapNew_are_connected_isSome (w h : Nat) (p q : Point)
    (hpx : p.x ≤ w) (hpy : p.y ≤ h) (hqx : q.x ≤ w) (hqy : q.y ≤ h) :
    ((Map.new w h).are_connected p q).isSome := by
  have hp := mapNew_find_node w h p hpx hpy
  have hq := mapNew_find_node w h q hqx hqy
  have hl1 : p.x + (w + 1) * p.y < (Map.new w h).graph.nodes.length := by
    rw [mapNew_nodes_length]
    exact inBounds_key_lt w h p.x p.y hpx hpy
  have hl2 : q.x + (w + 1) * q.y < (Map.new w h).graph.nodes.length := by
    rw [mapNew_nodes_length]
    exact inBounds_key_lt w h q.x q.y hqx hqy
  rw [are_connected_eq (Map.new w h) p q _ _ hp hq hl1 hl2]
  rfl

/-- C10: on a freshly built `Map::new(width, height)` map, the linearized
coordinate key of every in-bounds point is present in `point_nodes`, so
`point_exists` holds and `connect`/`disconnect`/`are_connected` cannot hit
their `unwrap` panics; a panic (modelled `none`) implies some argument point
is out of range. -/
theorem C10_mapNew_lookup_safety (w h : Nat) (p q : Point)
    (hpx : p.x ≤ w) (hpy : p.y ≤ h) (hqx : q.x ≤ w) (hqy : q.y ≤ h) :
    (Map.new w h).find_node p = some (p.x + (w + 1) * p.y) ∧
    (Map.new w h).point_exists p = true ∧
    ((Map.new w h).connect p q).isSome ∧
    ((Map.new w h).disconnect p q).isSome ∧
    ((Map.new w h).are_connected p q).isSome ∧
    (∀ r s : Point,
      ((Map.new w h).connect r s = none ∨
       (Map.new w h).disconnect r s = none ∨
       (Map.new w h).are_connected r s = none) →
      ¬(r.x ≤ w ∧ r.y ≤ h ∧ s.x ≤ w ∧ s.y ≤ h)) := by
  refine ⟨mapNew_find_node w h p hpx hpy, ?_,
    mapNew_connect_isSome w h p q hpx hpy hqx hqy,
    mapNew_disconnect_isSome w h p q hpx hpy hqx hqy,
    mapNew_are_connected_isSome w h p q hpx hpy hqx hqy, ?_⟩
  · rw [mapNew_point_exists]
    simp [hpx, hpy]
  · intro r s hnone hins
    obtain ⟨hrx, hry, hsx, hsy⟩ := hins
    rcases hnone with hn | hn | hn
    · have := mapNew_connect_isSome w h r s hrx hry hsx hsy
      rw [hn] at this
      exact Bool.noConfusion this
    · have := mapNew_disconnect_isSome w h r s hrx hry hsx hsy
      rw [hn] at this
      exact Bool.noConfusion this
    · have := mapNew_are_connected_isSome w h r s hrx hry hsx hsy
      rw [hn] at this
      exact Bool.noConfusion this

/-- C10 witness: instantiated on the 3×2 map at points (1,1) and (1,2). -/
theorem C10_mapNew_lookup_safety_witness :
    (1 : Nat) ≤ 3 ∧ (1 : Nat) ≤ 2 ∧
    (Map.new 3 2).find_node ⟨1, 1⟩ = some 5 ∧
    ((Map.new 3 2).connect ⟨1, 1⟩ ⟨1, 2⟩).isSome := by
  have hmain := C10_mapNew_lookup_safety 3 2 ⟨1, 1⟩ ⟨1, 2⟩
    (by decide) (by decide) (by decide) (by decide)
  exact ⟨by decide, by decide, hmain.1, hmain.2.2.1⟩

/-! ### The Xor segment policy (claims C3 and C4) -/

theorem count_pos_of_contains (l : List Nat) (a : Nat)
    (h : l.contains a = true) : 0 < l.count a := by
  rw [contains_eq_decide_mem] at h
  exact List.count_pos_iff.mpr (of_decide_eq_true h)

theorem contains_eq_false_iff (l : List Nat) (a : Nat) :
    l.contains a = false ↔ l.count a = 0 := by
  rw [contains_eq_decide_mem, List.count_eq_zero]
  constructor
  · intro h
    exact of_decide_eq_false h
  · intro h
    exact decide_eq_false h

theorem contains_eq_true_iff (l : List Nat) (a : Nat) :
    l.contains a = true ↔ 0 < l.count a := by
  rw [contains_eq_decide_mem, List.count_pos_iff]
  constructor
  · intro h
    exact of_decide_eq_true h
  · intro h
    exact decide_eq_true h

/-- C4 (amended): applying the Xor segment policy twice to the same adjacent
in-bounds pair restores `are_connected` to its pre-toggle value, PROVIDED each
endpoint's adjacency list contains the other handle at most once. (The
unrestricted claim is refuted by `C4_xor_double_toggle_counterexample`: with a
duplicated edge the double toggle disconnects the pair.) -/
theorem C4_xor_double_toggle (m : Map) (r : Rect) (loc : SourceLocation)
    (p q : Point) (h1 h2 : Nat)
    (hb : r.boolean_op = .Xor)
    (hp : m.find_node p = some h1) (hq : m.find_node q = some h2)
    (hne : h1 ≠ h2)
    (hl1 : h1 < m.graph.nodes.length) (hl2 : h2 < m.graph.nodes.length)
    (hpe : m.point_exists p = true) (hqe : m.point_exists q = true)
    (hc1 : (m.graph.edgesOf h1).count h2 ≤ 1)
    (hc2 : (m.graph.edgesOf h2).count h1 ≤ 1) :
    ∃ m1 m2, handle_rect_points m r p q loc = some (.ok m1) ∧
      handle_rect_points m1 r p q loc = some (.ok m2) ∧
      m2.are_connected p q = m.are_connected p q := by
  have hAC := are_connected_eq m p q h1 h2 hp hq hl1 hl2
  by_cases hcb : ((m.graph.edgesOf h1).contains h2 || (m.graph.edgesOf h2).contains h1) = true
  · -- initially connected: first Xor disconnects, second reconnects
    obtain ⟨g2, hg2, hperm1, hperm2, _, hlen2, _⟩ :=
      remove_edge_char m.graph h1 h2 hne hl1 hl2
    have hdis := disconnect_char m p q h1 h2 g2 hp hq hg2
    set m1 : Map := ⟨m.width, m.height, g2, m.point_nodes, m.entities⟩ with hm1
    have hp1 : m1.find_node p = some h1 := hp
    have hq1 : m1.find_node q = some h2 := hq
    have hl1b : h1 < m1.graph.nodes.length := by
      show h1 < g2.nodes.length
      omega
    have hl2b : h2 < m1.graph.nodes.length := by
      show h2 < g2.nodes.length
      omega
    have hcnt1 : (m1.graph.edgesOf h1).count h2 = 0 := by
      show (g2.edgesOf h1).count h2 = 0
      rw [hperm1.count_eq, List.count_erase_self]
      omega
    have hcnt2 : (m1.graph.edgesOf h2).count h1 = 0 := by
      show (g2.edgesOf h2).count h1 = 0
      rw [hperm2.count_eq, List.count_erase_self]
      omega
    have hAC1 : m1.are_connected p q = some false := by
      rw [are_connected_eq m1 p q h1 h2 hp1 hq1 hl1b hl2b]
      rw [(contains_eq_false_iff _ _).mpr hcnt1,
        (contains_eq_false_iff _ _).mpr hcnt2]
      rfl
    obtain ⟨g3, hg3, hed1, hed2, _, hlen3, _⟩ :=
      add_edge_char m1.graph h1 h2 hne hl1b hl2b
    have hcon := connect_char m1 p q h1 h2 g3 hp1 hq1 hg3
    set m2 : Map := ⟨m1.width, m1.height, g3, m1.point_nodes, m1.entities⟩ with hm2
    have hp2 : m2.find_node p = some h1 := hp
    have hq2 : m2.find_node q = some h2 := hq
    have hl1c : h1 < m2.graph.nodes.length := by
      show h1 < g3.nodes.length
      omega
    have hl2c : h2 < m2.graph.nodes.length := by
      show h2 < g3.nodes.length
      omega
    have hxt1 : xorToggle m p q = some m1 := by
      unfold xorToggle
      rw [hAC, hcb]
      simp [hdis]
    have hxt2 : xorToggle m1 p q = some m2 := by
      unfold xorToggle
      rw [hAC1]
      simp [hcon]
    refine ⟨m1, m2, ?_, ?_, ?_⟩
    · unfold handle_rect_points
      rw [if_neg (by rw [hpe, hqe]; simp)]
      rw [hb, hxt1]
      rfl
    · unfold handle_rect_points
      rw [if_neg (by
        show ¬(¬ m1.point_exists p ∨ ¬ m1.point_exists q)
        have hpe1 : m1.point_exists p = m.point_exists p := rfl
        have hqe1 : m1.point_exists q = m.point_exists q := rfl
        rw [hpe1, hqe1, hpe, hqe]
        simp)]
      rw [hb, hxt2]
      rfl
    · rw [are_connected_eq m2 p q h1 h2 hp2 hq2 hl1c hl2c, hAC]
      have hcc : (m2.graph.edgesOf h1).contains h2 = true := by
        show (g3.edgesOf h1).contains h2 = true
        rw [contains_eq_true_iff, hed1]
        rw [List.count_append]
        simp
      rw [hcc, hcb]
      rfl
  · -- initially disconnected: first Xor connects, second disconnects
    have hcb0 : ((m.graph.edgesOf h1).contains h2 || (m.graph.edgesOf h2).contains h1) = false :=
      Bool.eq_false_iff.mpr hcb
    have hz1 : (m.graph.edgesOf h1).count h2 = 0 := by
      rw [← contains_eq_false_iff]
      cases hc : (m.graph.edgesOf h1).contains h2
      · rfl
      · rw [hc] at hcb0
        simp at hcb0
    have hz2 : (m.graph.edgesOf h2).count h1 = 0 := by
      rw [← contains_eq_false_iff]
      cases hc : (m.graph.edgesOf h2).contains h1
      · rfl
      · rw [hc] at hcb0
        simp at hcb0
    obtain ⟨g2, hg2, hed1, hed2, _, hlen2, _⟩ :=
      add_edge_char m.graph h1 h2 hne hl1 hl2
    have hcon := connect_char m p q h1 h2 g2 hp hq hg2
    set m1 : Map := ⟨m.width, m.height, g2, m.point_nodes, m.entities⟩ with hm1
    have hp1 : m1.find_node p = some h1 := hp
    have hq1 : m1.find_node q = some h2 := hq
    have hl1b : h1 < m1.graph.nodes.length := by
      show h1 < g2.nodes.length
      omega
    have hl2b : h2 < m1.graph.nodes.length := by
      show h2 < g2.nodes.length
      omega
    have hone1 : (m1.graph.edgesOf h1).count h2 = 1 := by
      show (g2.edgesOf h1).count h2 = 1
      rw [hed1, List.count_append, hz1]
      simp
    have hone2 : (m1.graph.edgesOf h2).count h1 = 1 := by
      show (g2.edgesOf h2).count h1 = 1
      rw [hed2, List.count_append, hz2]
      simp
    have hAC1 : m1.are_connected p q = some true := by
      rw [are_connected_eq m1 p q h1 h2 hp1 hq1 hl1b hl2b]
      rw [(contains_eq_true_iff _ _).mpr (by omega)]
      rfl
    obtain ⟨g3, hg3, hperm1, hperm2, _, hlen3, _⟩ :=
      remove_edge_char m1.graph h1 h2 hne hl1b hl2b
    have hdis := disconnect_char m1 p q h1 h2 g3 hp1 hq1 hg3
    set m2 : Map := ⟨m1.width, m1.height, g3, m1.point_nodes, m1.entities⟩ with hm2
    have hp2 : m2.find_node p = some h1 := hp
    have hq2 : m2.find_node q = some h2 := hq
    have hl1c : h1 < m2.graph.nodes.length := by
      show h1 < g3.nodes.length
      omega
    have hl2c : h2 < m2.graph.nodes.length := by
      show h2 < g3.nodes.length
      omega
    have hxt1 : xorToggle m p q = some m1 := by
      unfold xorToggle
      rw [hAC, hcb0]
      simp [hcon]
    have hxt2 : xorToggle m1 p q = some m2 := by
      unfold xorToggle
      rw [hAC1]
      simp [hdis]
    refine ⟨m1, m2, ?_, ?_, ?_⟩
    · unfold handle_rect_points
      rw [if_neg (by rw [hpe, hqe]; simp)]
      rw [hb, hxt1]
      rfl
    · unfold handle_rect_points
      rw [if_neg (by
        show ¬(¬ m1.point_exists p ∨ ¬ m1.point_exists q)
        have hpe1 : m1.point_exists p = m.point_exists p := rfl
        have hqe1 : m1.point_exists q = m.point_exists q := rfl
        rw [hpe1, hqe1, hpe, hqe]
        simp)]
      rw [hb, hxt2]
      rfl
    · rw [are_connected_eq m2 p q h1 h2 hp2 hq2 hl1c hl2c, hAC, hcb0]
      have hz1b : (m2.graph.edgesOf h1).count h2 = 0 := by
        show (g3.edgesOf h1).count h2 = 0
        rw [hperm1.count_eq, List.count_erase_self]
        show (m1.graph.edgesOf h1).count h2 - 1 = 0
        omega
      have hz2b : (m2.graph.edgesOf h2).count h1 = 0 := by
        show (g3.edgesOf h2).count h1 = 0
        rw [hperm2.count_eq, List.count_erase_self]
        show (m1.graph.edgesOf h2).count h1 - 1 = 0
        omega
      rw [(contains_eq_false_iff _ _).mpr hz1b,
        (contains_eq_false_iff _ _).mpr hz2b]
      rfl

/-! ### Xor-only generation keeps adjacency lists duplicate-free (claim C3) -/

theorem edgesOf_of_ge (g : Graph) (a : Nat) (ha : g.nodes.length ≤ a) :
    g.edgesOf a = [] := by
  unfold Graph.edgesOf
  rw [List.get?_eq_getElem?, List.getElem?_eq_none (by omega)]
  rfl

theorem mapNew_edgesOf (w h a : Nat) : (Map.new w h).graph.edgesOf a = [] := by
  unfold Graph.edgesOf
  rw [mapNew_graph_nodes]
  rw [List.get?_eq_getElem?, List.getElem?_map]
  cases hg : (grid_points w h)[a]? <;> simp [hg]

theorem mapNew_MapInv (w h : Nat) : MapInv (Map.new w h) := by
  constructor
  · rw [mapNew_point_nodes, mapNew_nodes_length]
  · intro a b
    rw [mapNew_edgesOf]
    simp

theorem point_exists_canonical (m : Map) (n : Nat)
    (hpn : m.point_nodes = canonicalPN n) (p : Point)
    (hpe : m.point_exists p = true) :
    m.find_node p = some (p.x + (m.width + 1) * p.y) ∧
    p.x + (m.width + 1) * p.y < n := by
  have hfn := find_node_canonical m n hpn p
  by_cases hk : p.x + (m.width + 1) * p.y < n
  · exact ⟨by rw [hfn, if_pos hk], hk⟩
  · exfalso
    unfold Map.point_exists at hpe
    split at hpe
    · exact Bool.noConfusion hpe
    · rw [hfn, if_neg hk] at hpe
      exact Bool.noConfusion hpe

theorem xorToggle_preserves (m m2 : Map) (p1 p2 : Point)
    (hinv : MapInv m)
    (hpe1 : m.point_exists p1 = true) (hpe2 : m.point_exists p2 = true)
    (hkey : p1.x + (m.width + 1) * p1.y ≠ p2.x + (m.width + 1) * p2.y)
    (hstep : xorToggle m p1 p2 = some m2) :
    MapInv m2 ∧ m2.width = m.width ∧ m2.height = m.height ∧
      m2.graph.nodes.length = m.graph.nodes.length ∧
      m2.point_nodes = m.point_nodes ∧ m2.entities = m.entities := by
  obtain ⟨hpn, hcnt⟩ := hinv
  obtain ⟨hf1, hk1⟩ := point_exists_canonical m _ hpn p1 hpe1
  obtain ⟨hf2, hk2⟩ := point_exists_canonical m _ hpn p2 hpe2
  set h1 := p1.x + (m.width + 1) * p1.y with hh1
  set h2 := p2.x + (m.width + 1) * p2.y with hh2
  have hAC := are_connected_eq m p1 p2 h1 h2 hf1 hf2 hk1 hk2
  unfold xorToggle at hstep
  rw [hAC] at hstep
  simp only [Option.bind_eq_bind, Option.some_bind] at hstep
  by_cases hcb : ((m.graph.edgesOf h1).contains h2 || (m.graph.edgesOf h2).contains h1) = true
  · rw [if_pos hcb] at hstep
    obtain ⟨g2, hg2, hperm1, hperm2, hunch, hlen2, _⟩ :=
      remove_edge_char m.graph h1 h2 hkey hk1 hk2
    rw [disconnect_char m p1 p2 h1 h2 g2 hf1 hf2 hg2] at hstep
    have hm2 : m2 = ⟨m.width, m.height, g2, m.point_nodes, m.entities⟩ :=
      (Option.some.inj hstep).symm
    subst hm2
    refine ⟨⟨?_, ?_⟩, rfl, rfl, by simpa using hlen2, rfl, rfl⟩
    · show m.point_nodes = canonicalPN g2.nodes.length
      rw [hlen2]
      exact hpn
    · intro a b
      show (g2.edgesOf a).count b ≤ 1
      by_cases ha1 : a = h1
      · subst ha1
        rw [hperm1.count_eq]
        by_cases hb2 : b = h2
        · subst hb2
          rw [List.count_erase_self]
          have := hcnt h1 h2
          omega
        · rw [List.count_erase_of_ne hb2]
          exact hcnt h1 b
      · by_cases ha2 : a = h2
        · subst ha2
          rw [hperm2.count_eq]
          by_cases hb1 : b = h1
          · subst hb1
            rw [List.count_erase_self]
            have := hcnt h2 h1
            omega
          · rw [List.count_erase_of_ne hb1]
            exact hcnt h2 b
        · rw [hunch a ha1 ha2]
          exact hcnt a b
  · rw [if_neg hcb] at hstep
    have hcb0 : ((m.graph.edgesOf h1).contains h2 || (m.graph.edgesOf h2).contains h1) = false :=
      Bool.eq_false_iff.mpr hcb
    have hz1 : (m.graph.edgesOf h1).count h2 = 0 := by
      rw [← contains_eq_false_iff]
      cases hc : (m.graph.edgesOf h1).contains h2
      · rfl
      · rw [hc] at hcb0
        simp at hcb0
    have hz2 : (m.graph.edgesOf h2).count h1 = 0 := by
      rw [← contains_eq_false_iff]
      cases hc : (m.graph.edgesOf h2).contains h1
      · rfl
      · rw [hc] at hcb0
        simp at hcb0
    obtain ⟨g2, hg2, hed1, hed2, hunch, hlen2, _⟩ :=
      add_edge_char m.graph h1 h2 hkey hk1 hk2
    rw [connect_char m p1 p2 h1 h2 g2 hf1 hf2 hg2] at hstep
    have hm2 : m2 = ⟨m.width, m.height, g2, m.point_nodes, m.entities⟩ :=
      (Option.some.inj hstep).symm
    subst hm2
    refine ⟨⟨?_, ?_⟩, rfl, rfl, by simpa using hlen2, rfl, rfl⟩
    · show m.point_nodes = canonicalPN g2.nodes.length
      rw [hlen2]
      exact hpn
    · intro a b
      show (g2.edgesOf a).count b ≤ 1
      by_cases ha1 : a = h1
      · subst ha1
        rw [hed1, List.count_append]
        by_cases hb2 : b = h2
        · subst hb2
          rw [hz1]
          simp
        · rw [show List.count b [h2] = 0 from by
            rw [List.count_singleton]
            simp only [beq_iff_eq]
            rw [if_neg (fun hh => hb2 hh.symm)]]
          have := hcnt h1 b
          omega
      · by_cases ha2 : a = h2
        · subst ha2
          rw [hed2, List.count_append]
          by_cases hb1 : b = h1
          · subst hb1
            rw [hz2]
            simp
          · rw [show List.count b [h1] = 0 from by
              rw [List.count_singleton]
              simp only [beq_iff_eq]
              rw [if_neg (fun hh => hb1 hh.symm)]]
            have := hcnt h2 b
            omega
        · rw [hunch a ha1 ha2]
          exact hcnt a b

theorem hrp_xor_ok (m m2 : Map) (r : Rect) (ps pe : Point) (loc : SourceLocation)
    (hb : r.boolean_op = .Xor)
    (h : handle_rect_points m r ps pe loc = some (.ok m2)) :
    m.point_exists ps = true ∧ m.point_exists pe = true ∧
      xorToggle m ps pe = some m2 := by
  unfold handle_rect_points at h
  split at h
  · exact absurd (Option.some.inj h) (by simp)
  · rename_i hok
    push_neg at hok
    rw [hb] at h
    refine ⟨by simpa using hok.1, by simpa using hok.2, ?_⟩
    cases hxt : xorToggle m ps pe with
    | none => rw [hxt] at h; simp at h
    | some md =>
      rw [hxt] at h
      simp only [Option.map_some] at h
      have : md = m2 := Except.ok.inj (Option.some.inj h)
      rw [this]

theorem rectSegments_shape (r : Rect) :
    ∀ s ∈ rectSegments r, s.2 = s.1.right ∨ s.2 = s.1.down := by
  intro s hs
  unfold rectSegments at hs
  simp only [List.mem_append, List.mem_map, List.mem_range] at hs
  rcases hs with ((⟨i, _, rfl⟩ | ⟨i, _, rfl⟩) | ⟨i, _, rfl⟩) | ⟨i, _, rfl⟩
  · left; rfl
  · right; rfl
  · left; rfl
  · right; rfl

theorem key_ne_of_shape (W : Nat) (p1 p2 : Point)
    (hs : p2 = p1.right ∨ p2 = p1.down) :
    p1.x + (W + 1) * p1.y ≠ p2.x + (W + 1) * p2.y := by
  rcases hs with rfl | rfl
  · unfold Point.right
    simp only
    omega
  · unfold Point.down
    simp only
    have : (W + 1) * (p1.y + 1) = (W + 1) * p1.y + (W + 1) := by ring
    omega

theorem handleRectSegs_inv : ∀ (segs : List (Point × Point)) (m m2 : Map)
    (r : Rect) (loc : SourceLocation),
    r.boolean_op = .Xor →
    (∀ s ∈ segs, s.2 = s.1.right ∨ s.2 = s.1.down) →
    MapInv m →
    handleRectSegs m r segs loc = some (.ok m2) →
    MapInv m2 ∧ m2.width = m.width ∧ m2.height = m.height := by
  intro segs
  induction segs with
  | nil =>
    intro m m2 r loc _ _ hinv h
    unfold handleRectSegs at h
    have : m = m2 := Except.ok.inj (Option.some.inj h)
    subst this
    exact ⟨hinv, rfl, rfl⟩
  | cons s rest ih =>
    intro m m2 r loc hb hshape hinv h
    unfold handleRectSegs at h
    cases hres : handle_rect_points m r s.1 s.2 loc with
    | none => rw [hres] at h; simp at h
    | some res =>
      rw [hres] at h
      simp only [Option.bind_eq_bind, Option.some_bind] at h
      cases res with
      | error e => exact absurd (Option.some.inj h) (by simp)
      | ok mmid =>
        obtain ⟨hpe1, hpe2, htog⟩ := hrp_xor_ok m mmid r s.1 s.2 loc hb hres
        obtain ⟨hinv2, hw, hh, _, _, _⟩ := xorToggle_preserves m mmid s.1 s.2 hinv
          hpe1 hpe2 (key_ne_of_shape m.width s.1 s.2 (hshape s (by simp))) htog
        obtain ⟨hinv3, hw2, hh2⟩ := ih mmid m2 r loc hb
          (fun t ht => hshape t (by simp [ht])) hinv2 h
        exact ⟨hinv3, by omega, by omega⟩

theorem handleLineGo_inv : ∀ (n : Nat) (p : Point) (m m2 : Map)
    (l : Line) (loc : SourceLocation),
    l.boolean_op = .Xor →
    MapInv m →
    handleLineGo m l loc p n = some (.ok m2) →
    MapInv m2 ∧ m2.width = m.width ∧ m2.height = m.height := by
  intro n
  induction n with
  | zero =>
    intro p m m2 l loc _ hinv h
    unfold handleLineGo at h
    have : m = m2 := Except.ok.inj (Option.some.inj h)
    subst this
    exact ⟨hinv, rfl, rfl⟩
  | succ k ih =>
    intro p m m2 l loc hb hinv h
    unfold handleLineGo at h
    split at h
    · exact absurd (Option.some.inj h) (by simp)
    · rename_i hok
      push_neg at hok
      rw [hb] at h
      simp only [Option.bind_eq_bind] at h
      obtain ⟨mmid, htog, hrest⟩ :
          ∃ mmid, xorToggle m p (lineStep l.orientation p) = some mmid ∧
            handleLineGo mmid l loc (lineStep l.orientation p) k = some (.ok m2) := by
        cases hxt : xorToggle m p (lineStep l.orientation p) with
        | none => rw [hxt] at h; simp at h
        | some md =>
          rw [hxt] at h
          simp only [Option.some_bind] at h
          exact ⟨md, rfl, h⟩
      have hshape : lineStep l.orientation p = p.right ∨ lineStep l.orientation p = p.down := by
        unfold lineStep
        cases l.orientation
        · right; rfl
        · right; rfl
        · left; rfl
        · left; rfl
      obtain ⟨hinv2, hw, hh, _, _, _⟩ := xorToggle_preserves m mmid p
        (lineStep l.orientation p) hinv (by simpa using hok.1) (by simpa using hok.2)
        (key_ne_of_shape m.width p (lineStep l.orientation p) (by tauto)) htog
      obtain ⟨hinv3, hw2, hh2⟩ := ih (lineStep l.orientation p) mmid m2 l loc hb hinv2 hrest
      exact ⟨hinv3, by omega, by omega⟩

theorem handle_entity_frame (m m2 : Map) (e : EntityNode) (loc : SourceLocation)
    (h : handle_entity m e loc = .ok m2) :
    m2.graph = m.graph ∧ m2.point_nodes = m.point_nodes ∧
      m2.width = m.width ∧ m2.height = m.height := by
  unfold handle_entity at h
  split at h
  · split at h
    · exact absurd h (by simp)
    · split at h
      · exact absurd h (by simp)
      · split at h
        · exact absurd h (by simp)
        · have : m.add_entity ⟨e.shape, e.point, e.position⟩ = m2 := Except.ok.inj h
          subst this
          exact ⟨rfl, rfl, rfl, rfl⟩
  · have : m.add_entity ⟨e.shape, e.point, e.position⟩ = m2 := Except.ok.inj h
    subst this
    exact ⟨rfl, rfl, rfl, rfl⟩

theorem genGo_inv : ∀ (nodes : List AstNode) (m m2 : Map),
    astXorOnly ⟨nodes⟩ = true →
    MapInv m →
    genGo m nodes = some (.ok m2) →
    MapInv m2 := by
  intro nodes
  induction nodes with
  | nil =>
    intro m m2 _ hinv h
    unfold genGo at h
    have : m = m2 := Except.ok.inj (Option.some.inj h)
    subst this
    exact hinv
  | cons nd rest ih =>
    intro m m2 hxor hinv h
    have hxhead : (match nd.node_type with
        | .Shape (.rect r) => (match r.boolean_op with | .Xor => true | .Or => false)
        | .Shape (.line l) => (match l.boolean_op with | .Xor => true | .Or => false)
        | _ => true) = true := by
      have := hxor
      unfold astXorOnly at this
      simp only [List.all_cons, Bool.and_eq_true] at this
      exact this.1
    have hxrest : astXorOnly ⟨rest⟩ = true := by
      have := hxor
      unfold astXorOnly at this ⊢
      simp only [List.all_cons, Bool.and_eq_true] at this
      exact this.2
    unfold genGo at h
    simp only [Option.bind_eq_bind] at h
    cases hnt : nd.node_type with
    | GridDimensions g =>
      rw [hnt] at h
      simp only [Option.some_bind] at h
      exact ih m m2 hxrest hinv h
    | Shape sn =>
      rw [hnt] at h
      cases sn with
      | rect r =>
        have hbop : r.boolean_op = .Xor := by
          rw [hnt] at hxhead
          simp only at hxhead
          cases hb : r.boolean_op
          · rw [hb] at hxhead
            simp at hxhead
          · rfl
        simp only at h
        cases hres : handle_rect m r nd.location with
        | none => rw [hres] at h; simp at h
        | some res =>
          rw [hres] at h
          simp only [Option.some_bind] at h
          cases res with
          | error e => simp at h
          | ok mmid =>
            have hsegs : handleRectSegs m r (rectSegments r) nd.location = some (.ok mmid) := hres
            obtain ⟨hinv2, _, _⟩ := handleRectSegs_inv (rectSegments r) m mmid r
              nd.location hbop (rectSegments_shape r) hinv hsegs
            exact ih mmid m2 hxrest hinv2 h
      | line l =>
        have hbop : l.boolean_op = .Xor := by
          rw [hnt] at hxhead
          simp only at hxhead
          cases hb : l.boolean_op
          · rw [hb] at hxhead
            simp at hxhead
          · rfl
        simp only at h
        cases hres : handle_line m l nd.location with
        | none => rw [hres] at h; simp at h
        | some res =>
          rw [hres] at h
          simp only [Option.some_bind] at h
          cases res with
          | error e => simp at h
          | ok mmid =>
            have hline : handleLineGo m l nd.location
                (match l.orientation with
                 | .Left | .Top => l.start
                 | .Right => l.start.right
                 | .Bottom => l.start.down) l.length = some (.ok mmid) := hres
            obtain ⟨hinv2, _, _⟩ := handleLineGo_inv l.length _ m mmid l
              nd.location hbop hinv hline
            exact ih mmid m2 hxrest hinv2 h
    | Entity e =>
      rw [hnt] at h
      simp only [Option.some_bind] at h
      cases hres : handle_entity m e nd.location with
      | error err => rw [hres] at h; simp at h
      | ok mmid =>
        rw [hres] at h
        obtain ⟨hg, hpn, hw, hh⟩ := handle_entity_frame m mmid e nd.location hres
        have hinv2 : MapInv mmid := by
          obtain ⟨h1, h2⟩ := hinv
          constructor
          · rw [hpn, hg]
            exact h1
          · intro a b
            rw [hg]
            exact h2 a b
        exact ih mmid m2 hxrest hinv2 h

/-- C3 (amended): `Map::connect` calls `add_edge` unconditionally, so Or-policy
shapes can duplicate adjacency entries (refuted concretely by
`C3_or_duplicates_counterexample`); but for programs all of whose shapes use
the Xor policy, the generated map never holds a duplicate adjacency entry. -/
theorem C3_xor_only_nodup (ast : AbstractSyntaxTree) (m : Map)
    (hxor : astXorOnly ast = true)
    (hgen : generate_map ast = some (.ok m)) :
    ∀ a, (m.graph.edgesOf a).Nodup := by
  intro a
  unfold generate_map at hgen
  cases hdims : find_grid_dimensions ast with
  | none =>
    rw [hdims] at hgen
    exact absurd (Option.some.inj hgen) (by simp)
  | some dims =>
    rw [hdims] at hgen
    have hinv := genGo_inv ast.nodes (Map.new dims.width dims.height) m
      (by cases ast; exact hxor) (mapNew_MapInv dims.width dims.height) hgen
    rw [List.nodup_iff_count_le_one]
    exact fun b => hinv.2 a b

/-- C3 witness: a single Xor rectangle on a 2×2 grid generates duplicate-free
adjacency lists. -/
theorem C3_xor_only_nodup_witness :
    astXorOnly astXorExample = true ∧
    generate_map astXorExample = some (.ok mapXorExample) ∧
    (mapXorExample.graph.edgesOf 0).Nodup :=
  ⟨by decide, by rfl,
    C3_xor_only_nodup astXorExample mapXorExample (by decide) (by rfl) 0⟩

/-- C3 counterexample: two overlapping Or rectangles double-add their shared
perimeter segments — node 0 of the generated map lists each neighbour twice. -/
theorem C3_or_duplicates_counterexample :
    generate_map astOverlapOr = some (.ok mapOverlapOr) ∧
    mapOverlapOr.graph.edgesOf 0 = [1, 2, 1, 2] ∧
    ¬ (mapOverlapOr.graph.edgesOf 0).Nodup := by
  refine ⟨by rfl, by rfl, by decide⟩

/-- C4 counterexample: on the duplicated edge produced by two overlapping Or
rectangles, applying the Xor policy twice flips `are_connected` from `true`
to `false` instead of restoring it. -/
theorem C4_xor_double_toggle_counterexample :
    generate_map astOverlapOr = some (.ok mapOverlapOr) ∧
    mapOverlapOr.are_connected ⟨0, 0⟩ ⟨1, 0⟩ = some true ∧
    handle_rect_points mapOverlapOr rectXorUnit ⟨0, 0⟩ ⟨1, 0⟩ ⟨1, 1⟩ = some (.ok xorOnce) ∧
    handle_rect_points xorOnce rectXorUnit ⟨0, 0⟩ ⟨1, 0⟩ ⟨1, 1⟩ = some (.ok xorTwice) ∧
    xorTwice.are_connected ⟨0, 0⟩ ⟨1, 0⟩ = some false := by
  refine ⟨by rfl, by rfl, by rfl, by rfl, by rfl⟩

/-- C4 witness: the amended double-toggle theorem applied on a fresh 1×1 map
at the adjacent pair (0,0)-(1,0). -/
theorem C4_xor_double_toggle_witness :
    ∃ m1 m2, handle_rect_points (Map.new 1 1) rectXorUnit ⟨0, 0⟩ ⟨1, 0⟩ ⟨1, 1⟩ = some (.ok m1) ∧
      handle_rect_points m1 rectXorUnit ⟨0, 0⟩ ⟨1, 0⟩ ⟨1, 1⟩ = some (.ok m2) ∧
      m2.are_connected ⟨0, 0⟩ ⟨1, 0⟩ = (Map.new 1 1).are_connected ⟨0, 0⟩ ⟨1, 0⟩ :=
  C4_xor_double_toggle (Map.new 1 1) rectXorUnit ⟨1, 1⟩ ⟨0, 0⟩ ⟨1, 0⟩ 0 1
    (by decide) (by decide) (by decide) (by decide) (by decide) (by decide)
    (by decide) (by decide) (by decide) (by decide)

/-- C1: refuted (code bug). Generating `grid 5,5` with `entity circle At
(2,4) radius 2` succeeds and attaches the entity, even though the claimed
bottom cardinal extent point `(2, 4+2) = (2,6)` does not satisfy
`point_exists` on the resulting map: `handle_entity` (src/generator.rs line
150) computes `bottom` as `Point::new(center.x() + r, center.y())` — a copy
of `right` — so the bottom extent point is never checked, contradicting the
claim that generation succeeds only if all four cardinal extent points
exist. -/
theorem C1_circle_bottom_extent_unchecked :
    generate_map astCircleBottomOOB = some (.ok mapCircleBottomOOB) ∧
    mapCircleBottomOOB.entities = [⟨.Circle 2, ⟨2, 4⟩, .At⟩] ∧
    mapCircleBottomOOB.point_exists ⟨2, 4 + 2⟩ = false :=
  ⟨by rfl, by rfl, by rfl⟩

/-! ### Line handling refines the spec's description (claim C9) -/

theorem lineSegsSpec_length (o : LineOrientation) :
    ∀ (n : Nat) (p : Point), (lineSegsSpec o p n).length = n
  | 0, _ => rfl
  | n + 1, p => by
    simp only [lineSegsSpec, List.length_cons, lineSegsSpec_length o n]

theorem handleLineGo_eq_spec (l : Line) (loc : SourceLocation) :
    ∀ (n : Nat) (p : Point) (m : Map),
      handleLineGo m l loc p n =
      processSegsSpec m l.boolean_op loc (lineSegsSpec l.orientation p n) := by
  intro n
  induction n with
  | zero => intro p m; rfl
  | succ n ih =>
    intro p m
    cases hb : l.boolean_op with
    | Or =>
      simp only [lineSegsSpec, handleLineGo, processSegsSpec, hb]
      by_cases h1 : m.point_exists p = true
      · by_cases h2 : m.point_exists (lineStep l.orientation p) = true
        · rw [if_neg (by simp [h1, h2]), if_neg (by simp [h1, h2])]
          simp only [Option.bind_eq_bind]
          cases m.connect p (lineStep l.orientation p) with
          | none => rfl
          | some m2 =>
            simp only [Option.some_bind]
            have ih2 := ih (lineStep l.orientation p) m2
            rw [hb] at ih2
            exact ih2
        · rw [if_pos (by simp [h2]), if_pos (by simp [h2])]
      · rw [if_pos (by simp [h1]), if_pos (by simp [h1])]
    | Xor =>
      simp only [lineSegsSpec, handleLineGo, processSegsSpec, hb]
      by_cases h1 : m.point_exists p = true
      · by_cases h2 : m.point_exists (lineStep l.orientation p) = true
        · rw [if_neg (by simp [h1, h2]), if_neg (by simp [h1, h2])]
          simp only [Option.bind_eq_bind]
          unfold xorToggle
          simp only [Option.bind_eq_bind]
          cases m.are_connected p (lineStep l.orientation p) with
          | none => rfl
          | some c =>
            simp only [Option.some_bind]
            cases c with
            | true =>
              simp only [if_pos rfl]
              cases m.disconnect p (lineStep l.orientation p) with
              | none => rfl
              | some m2 =>
                simp only [Option.some_bind]
                have ih2 := ih (lineStep l.orientation p) m2
                rw [hb] at ih2
                exact ih2
            | false =>
              simp only [if_neg (show ¬ false = true by simp)]
              cases m.connect p (lineStep l.orientation p) with
              | none => rfl
              | some m2 =>
                simp only [Option.some_bind]
                have ih2 := ih (lineStep l.orientation p) m2
                rw [hb] at ih2
                exact ih2
        · rw [if_pos (by simp [h2]), if_pos (by simp [h2])]
      · rw [if_pos (by simp [h1]), if_pos (by simp [h1])]

/-- C9: confirmed. `handle_line` coincides with the spec-side description
`handle_line_spec` on every map, line and source location: the effective
start is the declared start shifted one step right for `Right`, one step down
for `Bottom`, unshifted for `Left`/`Top` (`lineStartSpec`); the walk applies
the Or/Xor segment policy to exactly `length` consecutive unit segments, each
stepping down for `Left`/`Right` and right for `Top`/`Bottom`
(`lineSegsSpec`), failing `OutOfBounds` at the first segment with a
nonexistent endpoint (`processSegsSpec`). -/
theorem C9_handle_line_refines_spec (m : Map) (l : Line) (loc : SourceLocation) :
    handle_line m l loc = handle_line_spec m l loc ∧
    (lineSegsSpec l.orientation (lineStartSpec l) l.length).length = l.length := by
  constructor
  · have hstart : handle_line m l loc =
        handleLineGo m l loc (lineStartSpec l) l.length := by
      unfold handle_line lineStartSpec
      cases l.orientation <;> rfl
    rw [hstart]
    exact handleLineGo_eq_spec l loc l.length (lineStartSpec l) m
  · exact lineSegsSpec_length l.orientation l.length (lineStartSpec l)

/-- C9 witness: evaluate both sides on a concrete program — a `Right` line of
length 2 from `(1,0)` on a 4×1 grid. -/
theorem C9_handle_line_refines_spec_witness :
    handle_line (Map.new 4 1) ⟨.Right, ⟨1, 0⟩, 2, .Or⟩ ⟨2, 1⟩ =
      handle_line_spec (Map.new 4 1) ⟨.Right, ⟨1, 0⟩, 2, .Or⟩ ⟨2, 1⟩ ∧
    (lineSegsSpec LineOrientation.Right
      (lineStartSpec ⟨.Right, ⟨1, 0⟩, 2, .Or⟩) 2).length = 2 :=
  C9_handle_line_refines_spec (Map.new 4 1) ⟨.Right, ⟨1, 0⟩, 2, .Or⟩ ⟨2, 1⟩

/-! ### Any-policy frame preservation and out-of-bounds abort (claim C8) -/

theorem updateNode_length (g : Graph) (i : Nat) (f : Node → Node) (g2 : Graph)
    (h : g.updateNode i f = some g2) : g2.nodes.length = g.nodes.length := by
  unfold Graph.updateNode at h
  split at h
  · exact Option.noConfusion h
  · have := Option.some.inj h
    rw [← this]
    simp [List.length_set]

theorem add_edge_length (g : Graph) (h1 h2 : Nat) (g2 : Graph)
    (h : g.add_edge h1 h2 = some g2) : g2.nodes.length = g.nodes.length := by
  unfold Graph.add_edge at h
  simp only [Option.bind_eq_bind] at h
  cases hu1 : g.updateNode h1 (fun n => n.addEdgeN h2) with
  | none => rw [hu1] at h; simp at h
  | some g1 =>
    rw [hu1] at h
    simp only [Option.some_bind] at h
    rw [updateNode_length g1 h2 _ g2 h, updateNode_length g h1 _ g1 hu1]

theorem remove_edge_length (g : Graph) (h1 h2 : Nat) (g2 : Graph)
    (h : g.remove_edge h1 h2 = some g2) : g2.nodes.length = g.nodes.length := by
  unfold Graph.remove_edge at h
  simp only [Option.bind_eq_bind] at h
  cases hu1 : g.updateNode h1 (fun n => n.removeEdgeN h2) with
  | none => rw [hu1] at h; simp at h
  | some g1 =>
    rw [hu1] at h
    simp only [Option.some_bind] at h
    rw [updateNode_length g1 h2 _ g2 h, updateNode_length g h1 _ g1 hu1]

theorem connect_preserves (m m2 : Map) (p q : Point)
    (h : m.connect p q = some m2) :
    m2.width = m.width ∧ m2.height = m.height ∧ m2.point_nodes = m.point_nodes ∧
      m2.entities = m.entities ∧ m2.graph.nodes.length = m.graph.nodes.length := by
  unfold Map.connect at h
  simp only [Option.bind_eq_bind] at h
  cases hf1 : m.find_node p with
  | none => rw [hf1] at h; simp at h
  | some k1 =>
    rw [hf1] at h
    simp only [Option.some_bind] at h
    cases hf2 : m.find_node q with
    | none => rw [hf2] at h; simp at h
    | some k2 =>
      rw [hf2] at h
      simp only [Option.some_bind] at h
      cases hadd : m.graph.add_edge k1 k2 with
      | none => rw [hadd] at h; simp at h
      | some g2 =>
        rw [hadd] at h
        simp only [Option.some_bind, Option.pure_def] at h
        have := Option.some.inj h
        rw [← this]
        exact ⟨rfl, rfl, rfl, rfl, add_edge_length m.graph k1 k2 g2 hadd⟩

theorem disconnect_preserves (m m2 : Map) (p q : Point)
    (h : m.disconnect p q = some m2) :
    m2.width = m.width ∧ m2.height = m.height ∧ m2.point_nodes = m.point_nodes ∧
      m2.entities = m.entities ∧ m2.graph.nodes.length = m.graph.nodes.length := by
  unfold Map.disconnect at h
  simp only [Option.bind_eq_bind] at h
  cases hf1 : m.find_node p with
  | none => rw [hf1] at h; simp at h
  | some k1 =>
    rw [hf1] at h
    simp only [Option.some_bind] at h
    cases hf2 : m.find_node q with
    | none => rw [hf2] at h; simp at h
    | some k2 =>
      rw [hf2] at h
      simp only [Option.some_bind] at h
      cases hrem : m.graph.remove_edge k1 k2 with
      | none => rw [hrem] at h; simp at h
      | some g2 =>
        rw [hrem] at h
        simp only [Option.some_bind, Option.pure_def] at h
        have := Option.some.inj h
        rw [← this]
        exact ⟨rfl, rfl, rfl, rfl, remove_edge_length m.graph k1 k2 g2 hrem⟩

theorem xorToggle_weak_preserves (m m2 : Map) (p q : Point)
    (h : xorToggle m p q = some m2) :
    m2.width = m.width ∧ m2.height = m.height ∧ m2.point_nodes = m.point_nodes ∧
      m2.entities = m.entities ∧ m2.graph.nodes.length = m.graph.nodes.length := by
  unfold xorToggle at h
  simp only [Option.bind_eq_bind] at h
  cases hac : m.are_connected p q with
  | none => rw [hac] at h; simp at h
  | some c =>
    rw [hac] at h
    simp only [Option.some_bind] at h
    cases c with
    | true =>
      simp only [if_pos rfl] at h
      exact disconnect_preserves m m2 p q h
    | false =>
      simp only [if_neg (show ¬ false = true by simp)] at h
      exact connect_preserves m m2 p q h

theorem hrp_frame (m m2 : Map) (r : Rect) (ps pe : Point) (loc : SourceLocation)
    (h : handle_rect_points m r ps pe loc = some (.ok m2)) :
    m2.width = m.width ∧ m2.height = m.height ∧ m2.point_nodes = m.point_nodes ∧
      m2.entities = m.entities ∧ m2.graph.nodes.length = m.graph.nodes.length := by
  unfold handle_rect_points at h
  split at h
  · exact absurd (Option.some.inj h) (by simp)
  · cases hb : r.boolean_op with
    | Or =>
      rw [hb] at h
      cases hc : m.connect ps pe with
      | none => rw [hc] at h; simp at h
      | some md =>
        rw [hc] at h
        simp only [Option.map_some] at h
        have : md = m2 := Except.ok.inj (Option.some.inj h)
        rw [← this]
        exact connect_preserves m md ps pe hc
    | Xor =>
      rw [hb] at h
      cases hc : xorToggle m ps pe with
      | none => rw [hc] at h; simp at h
      | some md =>
        rw [hc] at h
        simp only [Option.map_some] at h
        have : md = m2 := Except.ok.inj (Option.some.inj h)
        rw [← this]
        exact xorToggle_weak_preserves m md ps pe hc

theorem handleRectSegs_frame : ∀ (segs : List (Point × Point)) (m m2 : Map)
    (r : Rect) (loc : SourceLocation),
    handleRectSegs m r segs loc = some (.ok m2) →
    m2.width = m.width ∧ m2.height = m.height ∧ m2.point_nodes = m.point_nodes ∧
      m2.graph.nodes.length = m.graph.nodes.length := by
  intro segs
  induction segs with
  | nil =>
    intro m m2 r loc h
    have : m = m2 := Except.ok.inj (Option.some.inj h)
    subst this
    exact ⟨rfl, rfl, rfl, rfl⟩
  | cons s rest ih =>
    intro m m2 r loc h
    unfold handleRectSegs at h
    simp only [Option.bind_eq_bind] at h
    cases hs : handle_rect_points m r s.1 s.2 loc with
    | none => rw [hs] at h; simp at h
    | some res =>
      rw [hs] at h
      simp only [Option.some_bind] at h
      cases res with
      | error e => exact absurd (Option.some.inj h) (by simp)
      | ok mmid =>
        obtain ⟨hw1, hh1, hpn1, hlen1⟩ := ih mmid m2 r loc h
        obtain ⟨hw2, hh2, hpn2, _, hlen2⟩ := hrp_frame m mmid r s.1 s.2 loc hs
        exact ⟨hw1.trans hw2, hh1.trans hh2, hpn1.trans hpn2, hlen1.trans hlen2⟩

theorem handleLineGo_frame : ∀ (n : Nat) (p : Point) (m m2 : Map) (l : Line)
    (loc : SourceLocation),
    handleLineGo m l loc p n = some (.ok m2) →
    m2.width = m.width ∧ m2.height = m.height ∧ m2.point_nodes = m.point_nodes ∧
      m2.graph.nodes.length = m.graph.nodes.length := by
  intro n
  induction n with
  | zero =>
    intro p m m2 l loc h
    have : m = m2 := Except.ok.inj (Option.some.inj h)
    subst this
    exact ⟨rfl, rfl, rfl, rfl⟩
  | succ k ih =>
    intro p m m2 l loc h
    unfold handleLineGo at h
    split at h
    · exact absurd (Option.some.inj h) (by simp)
    · cases hb : l.boolean_op with
      | Or =>
        rw [hb] at h
        simp only [Option.bind_eq_bind] at h
        cases hc : m.connect p (lineStep l.orientation p) with
        | none => rw [hc] at h; simp at h
        | some mmid =>
          rw [hc] at h
          simp only [Option.some_bind] at h
          obtain ⟨hw1, hh1, hpn1, hlen1⟩ := ih (lineStep l.orientation p) mmid m2 l loc h
          obtain ⟨hw2, hh2, hpn2, _, hlen2⟩ :=
            connect_preserves m mmid p (lineStep l.orientation p) hc
          exact ⟨hw1.trans hw2, hh1.trans hh2, hpn1.trans hpn2, hlen1.trans hlen2⟩
      | Xor =>
        rw [hb] at h
        simp only [Option.bind_eq_bind] at h
        cases hc : xorToggle m p (lineStep l.orientation p) with
        | none => rw [hc] at h; simp at h
        | some mmid =>
          rw [hc] at h
          simp only [Option.some_bind] at h
          obtain ⟨hw1, hh1, hpn1, hlen1⟩ := ih (lineStep l.orientation p) mmid m2 l loc h
          obtain ⟨hw2, hh2, hpn2, _, hlen2⟩ :=
            xorToggle_weak_preserves m mmid p (lineStep l.orientation p) hc
          exact ⟨hw1.trans hw2, hh1.trans hh2, hpn1.trans hpn2, hlen1.trans hlen2⟩

theorem handle_line_frame (m m2 : Map) (l : Line) (loc : SourceLocation)
    (h : handle_line m l loc = some (.ok m2)) :
    m2.width = m.width ∧ m2.height = m.height ∧ m2.point_nodes = m.point_nodes ∧
      m2.graph.nodes.length = m.graph.nodes.length := by
  revert h
  unfold handle_line
  cases l.orientation
  · exact fun h => handleLineGo_frame l.length l.start m m2 l loc h
  · exact fun h => handleLineGo_frame l.length l.start.right m m2 l loc h
  · exact fun h => handleLineGo_frame l.length l.start m m2 l loc h
  · exact fun h => handleLineGo_frame l.length l.start.down m m2 l loc h

theorem genGo_frame : ∀ (nodes : List AstNode) (m m2 : Map),
    genGo m nodes = some (.ok m2) →
    m2.width = m.width ∧ m2.height = m.height ∧ m2.point_nodes = m.point_nodes ∧
      m2.graph.nodes.length = m.graph.nodes.length := by
  intro nodes
  induction nodes with
  | nil =>
    intro m m2 h
    have : m = m2 := Except.ok.inj (Option.some.inj h)
    subst this
    exact ⟨rfl, rfl, rfl, rfl⟩
  | cons n rest ih =>
    intro m m2 h
    unfold genGo at h
    simp only [Option.bind_eq_bind] at h
    cases hnt : n.node_type with
    | GridDimensions g =>
      rw [hnt] at h
      simp only [Option.some_bind] at h
      exact ih m m2 h
    | Shape s =>
      cases s with
      | rect r =>
        rw [hnt] at h
        simp only [] at h
        cases hr : handle_rect m r n.location with
        | none => rw [hr] at h; simp at h
        | some res =>
          rw [hr] at h
          simp only [Option.some_bind] at h
          cases res with
          | error e => exact absurd (Option.some.inj h) (by simp)
          | ok mmid =>
            obtain ⟨hw1, hh1, hpn1, hlen1⟩ := ih mmid m2 h
            obtain ⟨hw2, hh2, hpn2, hlen2⟩ :=
              handleRectSegs_frame (rectSegments r) m mmid r n.location hr
            exact ⟨hw1.trans hw2, hh1.trans hh2, hpn1.trans hpn2, hlen1.trans hlen2⟩
      | line l =>
        rw [hnt] at h
        simp only [] at h
        cases hl : handle_line m l n.location with
        | none => rw [hl] at h; simp at h
        | some res =>
          rw [hl] at h
          simp only [Option.some_bind] at h
          cases res with
          | error e => exact absurd (Option.some.inj h) (by simp)
          | ok mmid =>
            obtain ⟨hw1, hh1, hpn1, hlen1⟩ := ih mmid m2 h
            obtain ⟨hw2, hh2, hpn2, hlen2⟩ := handle_line_frame m mmid l n.location hl
            exact ⟨hw1.trans hw2, hh1.trans hh2, hpn1.trans hpn2, hlen1.trans hlen2⟩
    | Entity e =>
      rw [hnt] at h
      simp only [Option.some_bind] at h
      cases hhe : handle_entity m e n.location with
      | error er => rw [hhe] at h; simp at h
      | ok mmid =>
        rw [hhe] at h
        simp only [] at h
        obtain ⟨hw1, hh1, hpn1, hlen1⟩ := ih mmid m2 h
        obtain ⟨hg, hpn2, hw2, hh2⟩ := handle_entity_frame m mmid e n.location hhe
        exact ⟨hw1.trans hw2, hh1.trans hh2, hpn1.trans hpn2,
          hlen1.trans (by rw [hg])⟩

theorem point_exists_congr (m m2 : Map) (hw : m2.width = m.width)
    (hh : m2.height = m.height) (hpn : m2.point_nodes = m.point_nodes) :
    ∀ p, m2.point_exists p = m.point_exists p := by
  intro p
  unfold Map.point_exists Map.find_node
  rw [hw, hh, hpn]

theorem connect_progress (m : Map) (p q : Point)
    (hpn : m.point_nodes = canonicalPN m.graph.nodes.length)
    (hkey : p.x + (m.width + 1) * p.y ≠ q.x + (m.width + 1) * q.y)
    (hp : m.point_exists p = true) (hq : m.point_exists q = true) :
    ∃ m2, m.connect p q = some m2 := by
  obtain ⟨hfp, hkp⟩ := point_exists_canonical m m.graph.nodes.length hpn p hp
  obtain ⟨hfq, hkq⟩ := point_exists_canonical m m.graph.nodes.length hpn q hq
  obtain ⟨g2, hadd, -, -, -, -, -⟩ := add_edge_char m.graph _ _ hkey hkp hkq
  exact ⟨_, connect_char m p q _ _ g2 hfp hfq hadd⟩

theorem disconnect_progress (m : Map) (p q : Point)
    (hpn : m.point_nodes = canonicalPN m.graph.nodes.length)
    (hkey : p.x + (m.width + 1) * p.y ≠ q.x + (m.width + 1) * q.y)
    (hp : m.point_exists p = true) (hq : m.point_exists q = true) :
    ∃ m2, m.disconnect p q = some m2 := by
  obtain ⟨hfp, hkp⟩ := point_exists_canonical m m.graph.nodes.length hpn p hp
  obtain ⟨hfq, hkq⟩ := point_exists_canonical m m.graph.nodes.length hpn q hq
  obtain ⟨g2, hrem, -, -, -, -, -⟩ := remove_edge_char m.graph _ _ hkey hkp hkq
  exact ⟨_, disconnect_char m p q _ _ g2 hfp hfq hrem⟩

theorem xorToggle_progress (m : Map) (p q : Point)
    (hpn : m.point_nodes = canonicalPN m.graph.nodes.length)
    (hkey : p.x + (m.width + 1) * p.y ≠ q.x + (m.width + 1) * q.y)
    (hp : m.point_exists p = true) (hq : m.point_exists q = true) :
    ∃ m2, xorToggle m p q = some m2 := by
  obtain ⟨hfp, hkp⟩ := point_exists_canonical m m.graph.nodes.length hpn p hp
  obtain ⟨hfq, hkq⟩ := point_exists_canonical m m.graph.nodes.length hpn q hq
  have hac := are_connected_eq m p q _ _ hfp hfq hkp hkq
  obtain ⟨mc, hmc⟩ := connect_progress m p q hpn hkey hp hq
  obtain ⟨md, hmd⟩ := disconnect_progress m p q hpn hkey hp hq
  unfold xorToggle
  rw [hac]
  simp only [Option.bind_eq_bind, Option.some_bind]
  cases hbv : ((m.graph.edgesOf (p.x + (m.width + 1) * p.y)).contains
        (q.x + (m.width + 1) * q.y) ||
      (m.graph.edgesOf (q.x + (m.width + 1) * q.y)).contains
        (p.x + (m.width + 1) * p.y)) with
  | true => exact ⟨md, by rw [if_pos rfl]; exact hmd⟩
  | false =>
    exact ⟨mc, by rw [if_neg (show ¬ false = true by simp)]; exact hmc⟩

theorem hrp_fail (m : Map) (r : Rect) (ps pe : Point) (loc : SourceLocation)
    (hfail : ¬ m.point_exists ps = true ∨ ¬ m.point_exists pe = true) :
    handle_rect_points m r ps pe loc = some (.error ⟨.OutOfBounds, loc⟩) := by
  unfold handle_rect_points
  rw [if_pos hfail]

theorem hrp_progress (m : Map) (r : Rect) (ps pe : Point) (loc : SourceLocation)
    (hpn : m.point_nodes = canonicalPN m.graph.nodes.length)
    (hkey : ps.x + (m.width + 1) * ps.y ≠ pe.x + (m.width + 1) * pe.y)
    (hp : m.point_exists ps = true) (hq : m.point_exists pe = true) :
    ∃ m2, handle_rect_points m r ps pe loc = some (.ok m2) := by
  unfold handle_rect_points
  rw [if_neg (by simp [hp, hq])]
  cases hb : r.boolean_op with
  | Or =>
    obtain ⟨m2, hc⟩ := connect_progress m ps pe hpn hkey hp hq
    exact ⟨m2, by rw [hc]; rfl⟩
  | Xor =>
    obtain ⟨m2, hc⟩ := xorToggle_progress m ps pe hpn hkey hp hq
    exact ⟨m2, by rw [hc]; rfl⟩

theorem handleRectSegs_first_fail : ∀ (segs : List (Point × Point)) (m : Map)
    (r : Rect) (loc : SourceLocation),
    m.point_nodes = canonicalPN m.graph.nodes.length →
    (∀ s ∈ segs, s.2 = s.1.right ∨ s.2 = s.1.down) →
    (∃ s ∈ segs, ¬ m.point_exists s.1 = true ∨ ¬ m.point_exists s.2 = true) →
    handleRectSegs m r segs loc = some (.error ⟨.OutOfBounds, loc⟩) := by
  intro segs
  induction segs with
  | nil => intro m r loc _ _ hex; simp at hex
  | cons s rest ih =>
    intro m r loc hpn hsh hex
    unfold handleRectSegs
    simp only [Option.bind_eq_bind]
    by_cases hfail : ¬ m.point_exists s.1 = true ∨ ¬ m.point_exists s.2 = true
    · rw [hrp_fail m r s.1 s.2 loc hfail]
      rfl
    · push_neg at hfail
      have hkey := key_ne_of_shape m.width s.1 s.2 (hsh s (by simp))
      obtain ⟨m2, hok⟩ := hrp_progress m r s.1 s.2 loc hpn hkey hfail.1 hfail.2
      rw [hok]
      simp only [Option.some_bind]
      obtain ⟨hw, hh, hpn2, _, hlen⟩ := hrp_frame m m2 r s.1 s.2 loc hok
      have hpe2 := point_exists_congr m m2 hw hh hpn2
      apply ih m2 r loc
      · rw [hpn2, hlen]; exact hpn
      · intro t ht; exact hsh t (by simp [ht])
      · obtain ⟨t, ht, hbad⟩ := hex
        rcases List.mem_cons.mp ht with rfl | htr
        · exact absurd hbad (by simp [hfail.1, hfail.2])
        · exact ⟨t, htr, by rw [hpe2 t.1, hpe2 t.2]; exact hbad⟩

theorem handle_rect_fail (m : Map) (r : Rect) (loc : SourceLocation)
    (hpn : m.point_nodes = canonicalPN m.graph.nodes.length)
    (hbad : ∃ s ∈ rectSegments r,
      ¬ m.point_exists s.1 = true ∨ ¬ m.point_exists s.2 = true) :
    handle_rect m r loc = some (.error ⟨.OutOfBounds, loc⟩) :=
  handleRectSegs_first_fail (rectSegments r) m r loc hpn (rectSegments_shape r) hbad

theorem genGo_cons (m : Map) (n : AstNode) (rest : List AstNode) :
    genGo m (n :: rest) =
      ((match n.node_type with
        | .GridDimensions _ => some (Except.ok m)
        | .Shape (.rect r) => handle_rect m r n.location
        | .Shape (.line l) => handle_line m l n.location
        | .Entity e => some (handle_entity m e n.location)) :
          Option (Except CompileError Map)).bind
        (fun step => match step with
          | .error e => some (.error e)
          | .ok m2 => genGo m2 rest) := by
  conv_lhs => rw [genGo]
  cases n.node_type with
  | GridDimensions g => rfl
  | Shape s => cases s <;> rfl
  | Entity e => rfl

theorem genGo_append : ∀ (xs : List AstNode) (ys : List AstNode) (m m2 : Map),
    genGo m xs = some (.ok m2) →
    genGo m (xs ++ ys) = genGo m2 ys := by
  intro xs
  induction xs with
  | nil =>
    intro ys m m2 h
    have : m = m2 := Except.ok.inj (Option.some.inj h)
    subst this
    rfl
  | cons n rest ih =>
    intro ys m m2 h
    rw [genGo_cons] at h
    rw [List.cons_append, genGo_cons]
    cases hnt : n.node_type with
    | GridDimensions g =>
      rw [hnt] at h
      simp only [Option.some_bind] at h ⊢
      exact ih ys m m2 h
    | Shape s =>
      cases s with
      | rect r =>
        rw [hnt] at h
        simp only [] at h ⊢
        cases hr : handle_rect m r n.location with
        | none => rw [hr] at h; simp at h
        | some res =>
          rw [hr] at h
          simp only [Option.some_bind] at h ⊢
          cases res with
          | error e => exact absurd (Option.some.inj h) (by simp)
          | ok mmid => exact ih ys mmid m2 h
      | line l =>
        rw [hnt] at h
        simp only [] at h ⊢
        cases hl : handle_line m l n.location with
        | none => rw [hl] at h; simp at h
        | some res =>
          rw [hl] at h
          simp only [Option.some_bind] at h ⊢
          cases res with
          | error e => exact absurd (Option.some.inj h) (by simp)
          | ok mmid => exact ih ys mmid m2 h
    | Entity e =>
      rw [hnt] at h
      simp only [Option.some_bind] at h ⊢
      cases hhe : handle_entity m e n.location with
      | error er => rw [hhe] at h; simp at h
      | ok mmid =>
        rw [hhe] at h
        simp only [] at h ⊢
        exact ih ys mmid m2 h

theorem genGo_rect_error (m : Map) (r : Rect) (loc : SourceLocation)
    (rest : List AstNode) (e : CompileError)
    (h : handle_rect m r loc = some (.error e)) :
    genGo m (⟨.Shape (.rect r), loc⟩ :: rest) = some (.error e) := by
  unfold genGo
  simp only []
  rw [h]
  rfl

/-- C8: confirmed. If a rectangle declaration's perimeter contains a unit
segment with an endpoint failing `point_exists` (a property of the grid
dimensions alone, invariant under generation), then — provided the
declarations before it process without error — `generate_map` returns the
`OutOfBounds` error tagged with the rectangle's source location, no map is
returned to the caller, and segment processing stops at the failing segment:
everything after it is never touched. -/
theorem C8_rect_oob_aborts
    (ast : AbstractSyntaxTree) (dims : GridDimensionsNode)
    (pre post : List AstNode) (r : Rect) (loc : SourceLocation) (m : Map)
    (hdims : find_grid_dimensions ast = some dims)
    (hsplit : ast.nodes = pre ++ ⟨.Shape (.rect r), loc⟩ :: post)
    (hpre : genGo (Map.new dims.width dims.height) pre = some (.ok m))
    (hbad : ∃ s ∈ rectSegments r,
      ¬ (Map.new dims.width dims.height).point_exists s.1 = true ∨
        ¬ (Map.new dims.width dims.height).point_exists s.2 = true) :
    generate_map ast = some (.error ⟨.OutOfBounds, loc⟩) ∧
    (∀ m', generate_map ast ≠ some (.ok m')) ∧
    (∀ (segs1 segs2 : List (Point × Point)) (s : Point × Point),
      rectSegments r = segs1 ++ s :: segs2 →
      (¬ m.point_exists s.1 = true ∨ ¬ m.point_exists s.2 = true) →
      handleRectSegs m r (segs1 ++ s :: segs2) loc =
        handleRectSegs m r (segs1 ++ [s]) loc) := by
  have hpn0 : (Map.new dims.width dims.height).point_nodes =
      canonicalPN (Map.new dims.width dims.height).graph.nodes.length :=
    (mapNew_MapInv dims.width dims.height).1
  obtain ⟨hw, hh, hpnm, hlen⟩ := genGo_frame pre _ m hpre
  have hpn : m.point_nodes = canonicalPN m.graph.nodes.length := by
    rw [hpnm, hlen]; exact hpn0
  have hpe := point_exists_congr (Map.new dims.width dims.height) m hw hh hpnm
  have hbadm : ∃ s ∈ rectSegments r,
      ¬ m.point_exists s.1 = true ∨ ¬ m.point_exists s.2 = true := by
    obtain ⟨s, hs, hb2⟩ := hbad
    exact ⟨s, hs, by rw [hpe s.1, hpe s.2]; exact hb2⟩
  have hrect := handle_rect_fail m r loc hpn hbadm
  have hgen : generate_map ast = some (.error ⟨.OutOfBounds, loc⟩) := by
    unfold generate_map
    rw [hdims]
    simp only []
    rw [hsplit, genGo_append pre _ _ m hpre]
    exact genGo_rect_error m r loc post _ hrect
  refine ⟨hgen, ?_, ?_⟩
  · intro m' hcontra
    rw [hgen] at hcontra
    exact absurd (Option.some.inj hcontra) (by simp)
  · intro segs1 segs2 s hseq hsbad
    have hshape := rectSegments_shape r
    rw [hseq] at hshape
    have h1 := handleRectSegs_first_fail (segs1 ++ s :: segs2) m r loc hpn hshape
      ⟨s, by simp, hsbad⟩
    have h2 := handleRectSegs_first_fail (segs1 ++ [s]) m r loc hpn
      (by
        intro t ht
        rcases List.mem_append.mp ht with h3 | h3
        · exact hshape t (List.mem_append.mpr (Or.inl h3))
        · simp only [List.mem_singleton] at h3
          subst h3
          exact hshape t (by simp))
      ⟨s, by simp, hsbad⟩
    rw [h1, h2]

/-- C8 witness: `grid 5,5` + `rect at 2,2 width 10 height 10` fails with
`OutOfBounds` at the rectangle's source location 2:1. -/
theorem C8_rect_oob_aborts_witness :
    generate_map astRectOOB = some (.error ⟨.OutOfBounds, ⟨2, 1⟩⟩) :=
  (C8_rect_oob_aborts astRectOOB ⟨5, 5⟩ [gridNode 5 5] [] ⟨⟨2, 2⟩, 10, 10, .Or⟩
    ⟨2, 1⟩ (Map.new 5 5) (by rfl) (by rfl) (by rfl) (by decide)).1

/-! ### The neighbor-skip condition of `find_cycles_rec` (claim C6) -/

theorem collectCycle_front : ∀ (pre : List Nat) (e : Nat) (post : List Nat),
    e ∉ pre → collectCycle (pre ++ e :: post) e = pre ++ [e]
  | [], e, post, _ => by simp [collectCycle]
  | a :: pre, e, post, h => by
    have hne : a ≠ e := fun heq => h (by simp [heq])
    simp only [List.cons_append, collectCycle, if_neg hne, List.append_eq]
    rw [collectCycle_front pre e post (fun hm => h (by simp [hm]))]

/-- C6: corrected. Per-step characterization of the neighbor loop of
`find_cycles_rec`: a neighbor `e` is skipped exactly when it equals the
immediate predecessor (`backRef`) or the CURRENT node being expanded is
already in `seen` — not, as claimed, when the neighbor itself is in `seen`.
A non-skipped neighbor on the DFS stack closes a cycle: the stack slice from
that neighbor to the top, listed top-first (reversed), is appended to the
accumulated cycles and the found flag is set. -/
theorem C6_skip_and_close (g : Graph) (fuel handle : Nat) (backRef : Option Nat)
    (e : Nat) (rest : List Nat) (found : Bool) (st : CycState) :
    (skipNeighbor backRef st.seen handle e = true ↔
      (backRef = some e ∨ handle ∈ st.seen)) ∧
    ((backRef = some e ∨ handle ∈ st.seen) →
      Graph.goEdges g (fuel + 1) handle backRef (e :: rest) found st =
        Graph.goEdges g (fuel + 1) handle backRef rest found st) ∧
    (¬ (backRef = some e ∨ handle ∈ st.seen) → e ∈ st.stack →
      Graph.goEdges g (fuel + 1) handle backRef (e :: rest) found st =
        Graph.goEdges g (fuel + 1) handle backRef rest true
          ⟨st.seen, st.stack, st.cycles ++ [collectCycle st.stack e]⟩) ∧
    (∀ (pre post : List Nat), st.stack = pre ++ e :: post → e ∉ pre →
      collectCycle st.stack e = pre ++ [e]) := by
  have hiff : skipNeighbor backRef st.seen handle e = true ↔
      (backRef = some e ∨ handle ∈ st.seen) := by
    unfold skipNeighbor
    rw [Bool.or_eq_true, contains_eq_decide_mem, decide_eq_true_eq]
    cases backRef with
    | none => simp
    | some b => simp
  refine ⟨hiff, ?_, ?_, ?_⟩
  · intro hcond
    unfold Graph.goEdges
    conv_lhs => rw [Graph.goEdgesF]
    rw [if_pos (hiff.mpr hcond)]
  · intro hcond hstk
    unfold Graph.goEdges
    conv_lhs => rw [Graph.goEdgesF]
    rw [if_neg (fun hc => hcond (hiff.mp hc))]
    rw [show Graph.find_cycles_rec g (fuel + 1) e st =
        some (true, ⟨st.seen, st.stack, st.cycles ++ [collectCycle st.stack e]⟩) by
      rw [Graph.find_cycles_rec]
      rw [if_pos hstk]]
    simp only [Option.bind_eq_bind, Option.some_bind, Bool.or_true]
  · intro pre post hst hpre
    rw [hst]
    exact collectCycle_front pre e post hpre

/-- C6 witness: on `g6` (square `0-1-2-3-0` plus diagonal `1-3`), expanding
node 3 with fresh `seen`, predecessor 1 and stack `[3,1,0]`, the on-stack
neighbor 0 closes the cycle `[3,1,0]`. -/
theorem C6_skip_and_close_witness :
    Graph.goEdges g6 3 3 (some 1) [0, 1] false ⟨[], [3, 1, 0], []⟩ =
      Graph.goEdges g6 3 3 (some 1) [1] true ⟨[], [3, 1, 0], [[3, 1, 0]]⟩ :=
  (C6_skip_and_close g6 2 3 (some 1) 0 [1] false ⟨[], [3, 1, 0], []⟩).2.2.1
    (by decide) (by decide)

/-- C6: refutation of the claimed skip rule. Inside
`find_cycles g6 = some [[3,2,1,0],[3,2,1]]` the DFS revisits node 3 (already
in `seen = [2,3]`) from node 1 with stack `[3,1,0]`: neighbor 0 is not the
predecessor (1), not in `seen`, and on the stack, so the claim says it closes
the cycle `[3,1,0]`; the code's skip test (`seen.contains(&handle)` checks
the CURRENT node) fires instead, the whole expansion is a no-op, and no third
cycle is recorded. -/
theorem C6_skip_condition_counterexample :
    Graph.find_cycles g6 = some [[3, 2, 1, 0], [3, 2, 1]] ∧
    Graph.find_cycles_rec g6 4 3
        ⟨[2, 3], [1, 0], [[3, 2, 1, 0], [3, 2, 1]]⟩ =
      some (false, ⟨[2, 3], [1, 0], [[3, 2, 1, 0], [3, 2, 1]]⟩) ∧
    Graph.goEdges g6 3 3 (some 1) [2, 0, 1] false
        ⟨[2, 3], [3, 1, 0], [[3, 2, 1, 0], [3, 2, 1]]⟩ =
      some (false, ⟨[2, 3], [3, 1, 0], [[3, 2, 1, 0], [3, 2, 1]]⟩) ∧
    skipNeighbor (some 1) [2, 3] 3 0 = true ∧
    ((0 : Nat) ∈ [3, 1, 0] ∧ (0 : Nat) ∉ [2, 3] ∧ some 0 ≠ some 1) ∧
    collectCycle [3, 1, 0] 0 = [3, 1, 0] := by
  refine ⟨by decide, by decide, by decide, by decide, by decide, by decide⟩

/-! ### One rectangle perimeter yields exactly one cycle (claim C5) -/

theorem adjPair_comm (g : Graph) (v a b : Nat) :
    adjPair g v a b = adjPair g v b a := by
  unfold adjPair
  simp [or_comm]

theorem mem_of_head?_eq (l : List Nat) (a : Nat) (h : l.head? = some a) : a ∈ l := by
  cases l with
  | nil => exact Option.noConfusion h
  | cons x xs =>
    have : x = a := Option.some.inj h
    subst this
    exact List.mem_cons_self x xs

theorem chainAdjB_snoc (g : Graph) (tgt p a : Nat) :
    ∀ (l : List Nat), l ≠ [] →
    (chainAdjB g tgt p (l ++ [a]) = true ↔
      chainAdjB g a p l = true ∧ adjPair g a (l.getLastD 0) tgt = true)
  | [], h => absurd rfl h
  | [x], _ => by
    rw [show (([x] : List Nat).getLastD 0) = x from rfl]
    rw [show (([x] : List Nat) ++ [a]) = [x, a] from rfl]
    rw [show chainAdjB g tgt p [x, a] =
        (adjPair g x p a && chainAdjB g tgt x [a]) from rfl]
    rw [show chainAdjB g tgt x [a] = adjPair g a x tgt from rfl]
    rw [show chainAdjB g a p [x] = adjPair g x p a from rfl]
    rw [Bool.and_eq_true]
  | x :: y :: l', _ => by
    have hih := chainAdjB_snoc g tgt x a (y :: l') (by simp)
    rw [show ((x :: y :: l') ++ [a]) = (x :: (y :: l') ++ [a]) from rfl]
    rw [show chainAdjB g tgt p (x :: (y :: l') ++ [a]) =
        (adjPair g x p y && chainAdjB g tgt x ((y :: l') ++ [a])) from rfl]
    rw [show chainAdjB g a p (x :: y :: l') =
        (adjPair g x p y && chainAdjB g a x (y :: l')) from rfl]
    rw [show ((x :: y :: l').getLastD 0) = ((y :: l').getLastD 0) from rfl]
    simp only [Bool.and_eq_true]
    rw [hih]
    tauto

theorem chainAdjB_reverse (g : Graph) : ∀ (l : List Nat) (tgt p : Nat),
    chainAdjB g tgt p l = true → chainAdjB g p tgt l.reverse = true
  | [], _, _, h => by simp [chainAdjB] at h
  | [x], tgt, p, h => by
    simp only [chainAdjB] at h ⊢
    rw [adjPair_comm]
    exact h
  | x :: y :: l', tgt, p, h => by
    simp only [chainAdjB, Bool.and_eq_true] at h
    obtain ⟨h1, h2⟩ := h
    have hih := chainAdjB_reverse g (y :: l') tgt x h2
    rw [show (x :: y :: l').reverse = ((y :: l').reverse ++ [x]) by simp]
    rw [chainAdjB_snoc g p tgt x ((y :: l').reverse) (by simp)]
    refine ⟨hih, ?_⟩
    have hlast : ((y :: l').reverse).getLastD 0 = y := by
      rw [show (y :: l').reverse = l'.reverse ++ [y] by simp]
      simp [List.getLastD_concat]
    rw [hlast, adjPair_comm]
    exact h1

theorem goEdgesF_skip_all (recFn : Nat → CycState → Option (Bool × CycState))
    (handle : Nat) (backRef : Option Nat) :
    ∀ (es : List Nat) (found : Bool) (seen stk : List Nat) (C : List (List Nat)),
    handle ∈ seen →
    Graph.goEdgesF recFn handle backRef es found ⟨seen, stk, C⟩ =
      some (found, ⟨seen, stk, C⟩)
  | [], _, _, _, _, _ => rfl
  | e :: rest, found, seen, stk, C, hmem => by
    rw [Graph.goEdgesF]
    rw [if_pos (by
      unfold skipNeighbor
      simp only [Bool.or_eq_true, contains_eq_decide_mem, decide_eq_true_eq]
      exact Or.inr hmem)]
    exact goEdgesF_skip_all recFn handle backRef rest found seen stk C hmem

theorem revisit_noop (g : Graph) (f : Nat) (t : Nat) (seen stk : List Nat)
    (C : List (List Nat)) (hseen : t ∈ seen) (hstk : t ∉ stk)
    (hlt : t < g.nodes.length) :
    Graph.find_cycles_rec g (f + 1) t ⟨seen, stk, C⟩ = some (false, ⟨seen, stk, C⟩) := by
  obtain ⟨nd, hnd⟩ := nodes_get_exists g t hlt
  rw [Graph.find_cycles_rec]
  rw [if_neg hstk]
  simp only [hnd]
  rw [goEdgesF_skip_all (g.find_cycles_rec f) t (stk.head?) nd.edges false seen
    (t :: stk) C hseen]
  simp only [Option.bind_eq_bind, Option.some_bind, List.tail_cons]
  have : seenInsert seen t = seen := by
    unfold seenInsert
    rw [if_pos hseen]
  rw [this]

theorem emptyAdj_noop (g : Graph) (f : Nat) (i : Nat) (seen stk : List Nat)
    (C : List (List Nat)) (hstk : i ∉ stk) (hlt : i < g.nodes.length)
    (hedges : g.edgesOf i = []) :
    Graph.find_cycles_rec g (f + 1) i ⟨seen, stk, C⟩ =
      some (false, ⟨seenInsert seen i, stk, C⟩) := by
  obtain ⟨nd, hnd⟩ := nodes_get_exists g i hlt
  have hnde : nd.edges = [] := by
    have := edgesOf_eq g i nd hnd
    rw [hedges] at this
    exact this.symm
  rw [Graph.find_cycles_rec]
  rw [if_neg hstk]
  simp only [hnd, hnde]
  rw [show Graph.goEdgesF (g.find_cycles_rec f) i (stk.head?) [] false
      ⟨seen, i :: stk, C⟩ = some (false, ⟨seen, i :: stk, C⟩) from rfl]
  simp only [Option.bind_eq_bind, Option.some_bind, List.tail_cons]

theorem ringWalk (g : Graph) (v0 : Nat) :
    ∀ (chain : List Nat) (prev : Nat) (stk : List Nat) (C : List (List Nat))
      (fuel : Nat),
    chainAdjB g v0 prev chain = true →
    stk.head? = some prev →
    v0 ∈ stk →
    chain.length + 1 ≤ fuel →
    (∀ z ∈ chain, z < g.nodes.length) →
    (∀ z ∈ chain, z ∉ stk) →
    chain.Nodup →
    v0 ∉ chain →
    (chain.length = 1 → prev ≠ v0) →
    Graph.find_cycles_rec g fuel (chain.headD 0) ⟨[], stk, C⟩ =
      some (true, ⟨chain, stk, C ++ [collectCycle (chain.reverse ++ stk) v0]⟩)
  | [], _, _, _, _, hadj, _, _, _, _, _, _, _, _ => by simp [chainAdjB] at hadj
  | [last], prev, stk, C, fuel, hadj, hhead, hv0, hfuel, hlt, hdisj, hnd, hv0c,
      hpv => by
    obtain ⟨f, rfl⟩ : ∃ f, fuel = f + 2 := ⟨fuel - 2, by simp at hfuel; omega⟩
    have hlast_stk : last ∉ stk := hdisj last (by simp)
    have hprev_ne : prev ≠ v0 := hpv rfl
    obtain ⟨nd, hnd_get⟩ := nodes_get_exists g last (hlt last (by simp))
    have hedges : g.edgesOf last = nd.edges := edgesOf_eq g last nd hnd_get
    have hv0last : v0 ≠ last := fun he => hv0c (by simp [he])
    simp only [chainAdjB, adjPair, decide_eq_true_eq] at hadj
    rw [show (([last] : List Nat).headD 0) = last from rfl]
    rw [Graph.find_cycles_rec]
    rw [if_neg hlast_stk]
    simp only [hnd_get, hhead]
    have hclose : Graph.find_cycles_rec g (f + 1) v0 ⟨[], last :: stk, C⟩ =
        some (true, ⟨[], last :: stk, C ++ [collectCycle (last :: stk) v0]⟩) := by
      rw [Graph.find_cycles_rec]
      rw [if_pos (show v0 ∈ last :: stk from List.mem_cons_of_mem last hv0)]
    have hskip : skipNeighbor (some prev) ([] : List Nat) last prev = true := by
      unfold skipNeighbor
      simp
    have hnoskip : skipNeighbor (some prev) ([] : List Nat) last v0 = false := by
      unfold skipNeighbor
      simp [hprev_ne]
    rcases hadj with hE | hE
    · rw [hedges] at hE
      rw [hE]
      rw [Graph.goEdgesF]
      rw [if_pos hskip]
      rw [Graph.goEdgesF]
      rw [if_neg (by rw [hnoskip]; simp)]
      rw [hclose]
      simp only [Option.bind_eq_bind, Option.some_bind, Bool.or_true]
      rw [show Graph.goEdgesF (g.find_cycles_rec (f + 1)) last (some prev) [] true
          ⟨[], last :: stk, C ++ [collectCycle (last :: stk) v0]⟩ =
          some (true, ⟨[], last :: stk, C ++ [collectCycle (last :: stk) v0]⟩)
        from rfl]
      simp only [Option.some_bind, List.tail_cons]
      have hsi : seenInsert ([] : List Nat) last = [last] := rfl
      rw [hsi]
      simp [List.reverse_cons]
    · rw [hedges] at hE
      rw [hE]
      rw [Graph.goEdgesF]
      rw [if_neg (by rw [hnoskip]; simp)]
      rw [hclose]
      simp only [Option.bind_eq_bind, Option.some_bind, Bool.or_true]
      rw [Graph.goEdgesF]
      rw [if_pos (show skipNeighbor (some prev) ([] : List Nat) last prev = true
        from hskip)]
      rw [show Graph.goEdgesF (g.find_cycles_rec (f + 1)) last (some prev) [] true
          ⟨[], last :: stk, C ++ [collectCycle (last :: stk) v0]⟩ =
          some (true, ⟨[], last :: stk, C ++ [collectCycle (last :: stk) v0]⟩)
        from rfl]
      simp only [Option.some_bind, List.tail_cons]
      have hsi : seenInsert ([] : List Nat) last = [last] := rfl
      rw [hsi]
      simp [List.reverse_cons]
  | v :: w :: rest, prev, stk, C, fuel, hadj, hhead, hv0, hfuel, hlt, hdisj, hnd,
      hv0c, hpv => by
    obtain ⟨f, rfl⟩ : ∃ f, fuel = f + 1 := ⟨fuel - 1, by simp at hfuel; omega⟩
    have hvstk : v ∉ stk := hdisj v (by simp)
    have hprev_mem : prev ∈ stk := mem_of_head?_eq stk prev hhead
    have hwprev : prev ≠ w := fun he => hdisj w (by simp) (he ▸ hprev_mem)
    obtain ⟨nd, hnd_get⟩ := nodes_get_exists g v (hlt v (by simp))
    have hedges : g.edgesOf v = nd.edges := edgesOf_eq g v nd hnd_get
    simp only [chainAdjB, Bool.and_eq_true] at hadj
    obtain ⟨hadj1, hadj2⟩ := hadj
    simp only [adjPair, decide_eq_true_eq] at hadj1
    have hvw : v ∉ w :: rest := (List.nodup_cons.mp hnd).1
    have hih := ringWalk g v0 (w :: rest) v (v :: stk) C f hadj2 rfl
      (List.mem_cons_of_mem v hv0)
      (by simp at hfuel ⊢; omega)
      (fun z hz => hlt z (List.mem_cons_of_mem v hz))
      (fun z hz => by
        simp only [List.mem_cons]
        push_neg
        exact ⟨fun he => hvw (he ▸ hz), hdisj z (List.mem_cons_of_mem v hz)⟩)
      (List.nodup_cons.mp hnd).2
      (fun hm => hv0c (List.mem_cons_of_mem v hm))
      (fun _ hev => hv0c (by simp [hev]))
    rw [show ((w :: rest).headD 0) = w from rfl] at hih
    have hskip : skipNeighbor (some prev) ([] : List Nat) v prev = true := by
      unfold skipNeighbor
      simp
    have hnoskipw : skipNeighbor (some prev) ([] : List Nat) v w = false := by
      unfold skipNeighbor
      simp [hwprev]
    have hskip2 : skipNeighbor (some prev) (w :: rest) v prev = true := by
      unfold skipNeighbor
      simp
    have hfin : seenInsert (w :: rest) v = v :: w :: rest := by
      unfold seenInsert
      rw [if_neg hvw]
    have hcyc : collectCycle ((w :: rest).reverse ++ (v :: stk)) v0 =
        collectCycle ((v :: w :: rest).reverse ++ stk) v0 := by
      simp [List.reverse_cons, List.append_assoc]
    rw [show ((v :: w :: rest).headD 0) = v from rfl]
    rw [Graph.find_cycles_rec]
    rw [if_neg hvstk]
    simp only [hnd_get, hhead]
    rcases hadj1 with hE | hE
    · rw [hedges] at hE
      rw [hE]
      rw [Graph.goEdgesF]
      rw [if_pos hskip]
      rw [Graph.goEdgesF]
      rw [if_neg (by rw [hnoskipw]; simp)]
      rw [hih]
      simp only [Option.bind_eq_bind, Option.some_bind, Bool.or_true]
      rw [show Graph.goEdgesF (g.find_cycles_rec f) v (some prev) [] true
          ⟨w :: rest, v :: stk, C ++ [collectCycle ((w :: rest).reverse ++ (v :: stk)) v0]⟩ =
          some (true, ⟨w :: rest, v :: stk,
            C ++ [collectCycle ((w :: rest).reverse ++ (v :: stk)) v0]⟩) from rfl]
      simp only [Option.some_bind, List.tail_cons]
      rw [hfin, hcyc]
    · rw [hedges] at hE
      rw [hE]
      rw [Graph.goEdgesF]
      rw [if_neg (by rw [hnoskipw]; simp)]
      rw [hih]
      simp only [Option.bind_eq_bind, Option.some_bind, Bool.or_true]
      rw [Graph.goEdgesF]
      rw [if_pos hskip2]
      rw [show Graph.goEdgesF (g.find_cycles_rec f) v (some prev) [] true
          ⟨w :: rest, v :: stk, C ++ [collectCycle ((w :: rest).reverse ++ (v :: stk)) v0]⟩ =
          some (true, ⟨w :: rest, v :: stk,
            C ++ [collectCycle ((w :: rest).reverse ++ (v :: stk)) v0]⟩) from rfl]
      simp only [Option.some_bind, List.tail_cons]
      rw [hfin, hcyc]

theorem getLastD_mem : ∀ (l : List Nat), l ≠ [] → l.getLastD 0 ∈ l
  | [], h => absurd rfl h
  | [x], _ => by
    rw [show (([x] : List Nat).getLastD 0) = x from rfl]
    simp
  | x :: y :: l, _ => by
    rw [show ((x :: y :: l).getLastD 0) = ((y :: l).getLastD 0) from rfl]
    exact List.mem_cons_of_mem x (getLastD_mem (y :: l) (by simp))

theorem headD_mem (l : List Nat) (h : l ≠ []) : l.headD 0 ∈ l := by
  cases l with
  | nil => exact absurd rfl h
  | cons x xs => simp

theorem getLastD_reverse (l : List Nat) (h : l ≠ []) :
    l.reverse.getLastD 0 = l.headD 0 := by
  cases l with
  | nil => exact absurd rfl h
  | cons x xs =>
    rw [show (x :: xs).reverse = xs.reverse ++ [x] by simp]
    rw [List.getLastD_concat]
    rfl

theorem headD_reverse (l : List Nat) (h : l ≠ []) :
    l.reverse.headD 0 = l.getLastD 0 := by
  have h2 : l.reverse ≠ [] := by simpa using h
  have := getLastD_reverse l.reverse h2
  rw [List.reverse_reverse] at this
  rw [← this]

theorem ringRoot (g : Graph) (v0 : Nat) (chain : List Nat) (C : List (List Nat))
    (fuel : Nat)
    (hlen2 : 2 ≤ chain.length)
    (hadj0 : adjPair g v0 (chain.headD 0) (chain.getLastD 0) = true)
    (hchain : chainAdjB g v0 v0 chain = true)
    (hfuel : chain.length + 2 ≤ fuel)
    (hv0lt : v0 < g.nodes.length)
    (hlt : ∀ z ∈ chain, z < g.nodes.length)
    (hnd : chain.Nodup)
    (hv0c : v0 ∉ chain) :
    ∃ (seenF cyc : List Nat),
      Graph.find_cycles_rec g fuel v0 ⟨[], [], C⟩ =
        some (true, ⟨seenF, [], C ++ [cyc]⟩) ∧
      cyc.length = chain.length + 1 ∧
      (∀ k, k ∈ cyc ↔ (k = v0 ∨ k ∈ chain)) := by
  have hchne : chain ≠ [] := by
    intro h
    rw [h] at hlen2
    simp at hlen2
  obtain ⟨f1, rfl⟩ : ∃ f1, fuel = f1 + 2 := ⟨fuel - 2, by omega⟩
  obtain ⟨nd, hnd_get⟩ := nodes_get_exists g v0 hv0lt
  have hedges := edgesOf_eq g v0 nd hnd_get
  simp only [adjPair, decide_eq_true_eq] at hadj0
  have hheadmem := headD_mem chain hchne
  have hlastmem := getLastD_mem chain hchne
  rcases hadj0 with hE | hE
  · -- forward orientation: first neighbor is the chain head
    have hwalk := ringWalk g v0 chain v0 [v0] C (f1 + 1) hchain rfl (by simp)
      (by omega) hlt
      (fun z hz => by
        simp only [List.mem_singleton]
        exact fun he => hv0c (he ▸ hz))
      hnd hv0c (fun h1 => absurd h1 (by omega))
    have hcyc_eq : collectCycle (chain.reverse ++ [v0]) v0 = chain.reverse ++ [v0] :=
      collectCycle_front chain.reverse v0 [] (by simpa using hv0c)
    have hrev := revisit_noop g f1 (chain.getLastD 0) chain [v0]
      (C ++ [collectCycle (chain.reverse ++ [v0]) v0]) hlastmem
      (by
        simp only [List.mem_singleton]
        exact fun he => hv0c (he ▸ hlastmem))
      (hlt _ hlastmem)
    refine ⟨v0 :: chain, chain.reverse ++ [v0], ?_, by simp, by
      intro k
      simp [or_comm]⟩
    rw [Graph.find_cycles_rec]
    rw [if_neg (show v0 ∉ (⟨[], [], C⟩ : CycState).stack by simp)]
    have hnone : (([] : List Nat)).head? = none := rfl
    simp only [hnd_get, hnone]
    rw [hedges] at hE
    rw [hE]
    rw [Graph.goEdgesF]
    rw [if_neg (by
      unfold skipNeighbor
      simp)]
    rw [hwalk]
    simp only [Option.bind_eq_bind, Option.some_bind, Bool.false_or]
    rw [Graph.goEdgesF]
    rw [if_neg (by
      unfold skipNeighbor
      simp only [Bool.or_eq_true, contains_eq_decide_mem, decide_eq_true_eq]
      push_neg
      exact ⟨by simp, hv0c⟩)]
    rw [hrev]
    simp only [Option.bind_eq_bind, Option.some_bind, Bool.or_false]
    rw [Graph.goEdgesF]
    simp only [Option.some_bind, List.tail_cons]
    rw [show seenInsert chain v0 = v0 :: chain by
      unfold seenInsert
      rw [if_neg hv0c]]
    rw [hcyc_eq]
  · -- reverse orientation: first neighbor is the chain last; walk the ring
    -- backwards
    have hchainR := chainAdjB_reverse g chain v0 v0 hchain
    have hndR : chain.reverse.Nodup := List.nodup_reverse.mpr hnd
    have hv0cR : v0 ∉ chain.reverse := by simpa using hv0c
    have hwalk := ringWalk g v0 chain.reverse v0 [v0] C (f1 + 1) hchainR rfl
      (by simp)
      (by simp only [List.length_reverse]; omega)
      (fun z hz => hlt z (List.mem_reverse.mp hz))
      (fun z hz => by
        simp only [List.mem_singleton]
        exact fun he => hv0cR (he ▸ hz))
      hndR hv0cR
      (fun h1 => absurd h1 (by simp only [List.length_reverse]; omega))
    rw [headD_reverse chain hchne] at hwalk
    have hcyc_eq : collectCycle (chain.reverse.reverse ++ [v0]) v0 =
        chain ++ [v0] := by
      rw [List.reverse_reverse]
      exact collectCycle_front chain v0 [] hv0c
    have hrev := revisit_noop g f1 (chain.headD 0) chain.reverse [v0]
      (C ++ [collectCycle (chain.reverse.reverse ++ [v0]) v0])
      (List.mem_reverse.mpr hheadmem)
      (by
        simp only [List.mem_singleton]
        exact fun he => hv0c (he ▸ hheadmem))
      (hlt _ hheadmem)
    refine ⟨v0 :: chain.reverse, chain ++ [v0], ?_, by simp, by
      intro k
      simp [or_comm]⟩
    rw [Graph.find_cycles_rec]
    rw [if_neg (show v0 ∉ (⟨[], [], C⟩ : CycState).stack by simp)]
    have hnone : (([] : List Nat)).head? = none := rfl
    simp only [hnd_get, hnone]
    rw [hedges] at hE
    rw [hE]
    rw [Graph.goEdgesF]
    rw [if_neg (by
      unfold skipNeighbor
      simp)]
    rw [hwalk]
    simp only [Option.bind_eq_bind, Option.some_bind, Bool.false_or]
    rw [Graph.goEdgesF]
    rw [if_neg (by
      unfold skipNeighbor
      simp only [Bool.or_eq_true, contains_eq_decide_mem, decide_eq_true_eq]
      push_neg
      exact ⟨by simp, hv0cR⟩)]
    rw [hrev]
    simp only [Option.bind_eq_bind, Option.some_bind, Bool.or_false]
    rw [Graph.goEdgesF]
    simp only [Option.some_bind, List.tail_cons]
    rw [show seenInsert chain.reverse v0 = v0 :: chain.reverse by
      unfold seenInsert
      rw [if_neg hv0cR]]
    rw [hcyc_eq]

theorem get?_set_true_self : ∀ (v : List Bool) (a : Nat), a < v.length →
    (v.set a true).get? a = some true
  | [], _, ha => by simp at ha
  | _ :: _, 0, _ => rfl
  | b :: v, a + 1, ha => by
    rw [show ((b :: v).set (a + 1) true) = b :: v.set a true from rfl]
    rw [show ((b :: v.set a true).get? (a + 1)) = (v.set a true).get? a from rfl]
    exact get?_set_true_self v a (by simp at ha; omega)

theorem get?_set_true_other : ∀ (v : List Bool) (a j : Nat), j ≠ a →
    (v.set a true).get? j = v.get? j
  | [], _, _, _ => rfl
  | _ :: _, 0, 0, h => absurd rfl h
  | _ :: _, 0, _ + 1, _ => rfl
  | _ :: _, _ + 1, 0, _ => rfl
  | b :: v, a + 1, j + 1, h => by
    rw [show ((b :: v).set (a + 1) true) = b :: v.set a true from rfl]
    rw [show ((b :: v.set a true).get? (j + 1)) = (v.set a true).get? j from rfl]
    rw [show ((b :: v).get? (j + 1)) = v.get? j from rfl]
    exact get?_set_true_other v a j (fun he => h (by rw [he]))

theorem replicate_get?_lt : ∀ (n i : Nat), i < n →
    (List.replicate n false).get? i = some false
  | 0, _, hi => by omega
  | _ + 1, 0, _ => rfl
  | n + 1, i + 1, hi => by
    rw [show List.replicate (n + 1) false = false :: List.replicate n false
      from rfl]
    rw [show ((false :: List.replicate n false).get? (i + 1)) =
        (List.replicate n false).get? i from rfl]
    exact replicate_get?_lt n i (by omega)

theorem markRun : ∀ (c : List Nat) (v : List Bool),
    (∀ z ∈ c, z < v.length) →
    ∃ v2, List.foldlM markVisitedH v c = some v2 ∧ v2.length = v.length ∧
      (∀ j ∈ c, v2.get? j = some true) ∧
      (∀ j, v.get? j = some true → v2.get? j = some true)
  | [], v, _ => ⟨v, rfl, rfl, by simp, fun _ hj => hj⟩
  | a :: c, v, hb => by
    have ha : a < v.length := hb a (by simp)
    have hstep : markVisitedH v a = some (v.set a true) := by
      unfold markVisitedH
      rw [if_pos ha]
    obtain ⟨v2, hrun, hlen, hmarked, hpres⟩ := markRun c (v.set a true)
      (fun z hz => by rw [List.length_set]; exact hb z (by simp [hz]))
    refine ⟨v2, ?_, by rw [hlen, List.length_set], ?_, ?_⟩
    · rw [List.foldlM_cons, hstep]
      simp only [Option.bind_eq_bind, Option.some_bind]
      exact hrun
    · intro j hj
      rcases List.mem_cons.mp hj with rfl | hj2
      · exact hpres j (get?_set_true_self v j ha)
      · exact hmarked j hj2
    · intro j hjv
      by_cases hja : j = a
      · subst hja
        exact hpres j (get?_set_true_self v j ha)
      · exact hpres j (by rw [get?_set_true_other v a j hja]; exact hjv)

theorem markVisited_nil (v : List Bool) : markVisited v [] = some v := rfl

theorem markVisited_props : ∀ (cys : List (List Nat)) (v : List Bool),
    (∀ c ∈ cys, ∀ z ∈ c, z < v.length) →
    ∃ v2, markVisited v cys = some v2 ∧ v2.length = v.length ∧
      (∀ j, v.get? j = some true → v2.get? j = some true) ∧
      (∀ c ∈ cys, ∀ j ∈ c, v2.get? j = some true)
  | [], v, _ => ⟨v, rfl, rfl, fun _ hj => hj, by simp⟩
  | c :: cys, v, hb => by
    obtain ⟨v1, hrun1, hlen1, hmark1, hpres1⟩ := markRun c v (hb c (by simp))
    obtain ⟨v2, hrun2, hlen2, hpres2, hmark2⟩ := markVisited_props cys v1
      (fun c2 hc2 z hz => by rw [hlen1]; exact hb c2 (by simp [hc2]) z hz)
    refine ⟨v2, ?_, by rw [hlen2, hlen1], ?_, ?_⟩
    · unfold markVisited
      rw [List.foldlM_cons]
      rw [hrun1]
      simp only [Option.bind_eq_bind, Option.some_bind]
      unfold markVisited at hrun2
      exact hrun2
    · intro j hj
      exact hpres2 j (hpres1 j hj)
    · intro c2 hc2 j hj
      rcases List.mem_cons.mp hc2 with rfl | hc3
      · exact hpres2 j (hmark1 j hj)
      · exact hmark2 c2 hc3 j hj

theorem findCyclesGo_stable (g : Graph) (ring : List Nat)
    (hempty : ∀ k, k < g.nodes.length → k ∉ ring → g.edgesOf k = []) :
    ∀ (remaining : Nat) (vis : List Bool) (C : List (List Nat)),
    remaining ≤ g.nodes.length →
    vis.length = g.nodes.length →
    (∀ z ∈ ring, vis.get? z = some true) →
    (∀ c ∈ C, ∀ z ∈ c, z < g.nodes.length) →
    findCyclesGo g remaining vis C = some C
  | 0, _, _, _, _, _, _ => rfl
  | r + 1, vis, C, hrem, hlen, hmarked, hC => by
    have hilt : g.nodes.length - (r + 1) < g.nodes.length := by omega
    rw [findCyclesGo]
    by_cases hvis : vis.get? (g.nodes.length - (r + 1)) = some true
    · rw [if_pos hvis]
      exact findCyclesGo_stable g ring hempty r vis C (by omega) hlen hmarked hC
    · rw [if_neg hvis]
      have hnr : (g.nodes.length - (r + 1)) ∉ ring := fun hm => hvis (hmarked _ hm)
      have hemp := hempty _ hilt hnr
      rw [show g.nodes.length + 2 = g.nodes.length + 1 + 1 from rfl]
      rw [emptyAdj_noop g (g.nodes.length + 1) _ [] [] C (by simp) hilt hemp]
      simp only [Option.bind_eq_bind, Option.some_bind]
      obtain ⟨v2, hmv, hlen2, hpres, _⟩ := markVisited_props C vis
        (by rw [hlen]; exact hC)
      rw [hmv]
      simp only [Option.some_bind]
      exact findCyclesGo_stable g ring hempty r v2 C (by omega)
        (hlen2.trans hlen) (fun z hz => hpres z (hmarked z hz)) hC

theorem nodup_lt_length_le (l : List Nat) (n : Nat) (hnd : l.Nodup)
    (hlt : ∀ z ∈ l, z < n) : l.length ≤ n := by
  classical
  have h1 : l.toFinset.card = l.length := List.toFinset_card_of_nodup hnd
  have h2 : l.toFinset ⊆ Finset.range n := by
    intro z hz
    rw [List.mem_toFinset] at hz
    exact Finset.mem_range.mpr (hlt z hz)
  have h3 := Finset.card_le_card h2
  rw [h1, Finset.card_range] at h3
  exact h3

theorem findCyclesGo_run (g : Graph) (v0 : Nat) (chain : List Nat)
    (hlen2 : 2 ≤ chain.length)
    (hadj0 : adjPair g v0 (chain.headD 0) (chain.getLastD 0) = true)
    (hchain : chainAdjB g v0 v0 chain = true)
    (hv0lt : v0 < g.nodes.length)
    (hlt : ∀ z ∈ chain, z < g.nodes.length)
    (hnd : chain.Nodup)
    (hv0c : v0 ∉ chain)
    (hmin : ∀ z ∈ chain, v0 < z)
    (hempty : ∀ k, k < g.nodes.length → k ∉ (v0 :: chain) → g.edgesOf k = []) :
    ∀ (j i : Nat), i + j = v0 →
    ∃ cyc, findCyclesGo g (g.nodes.length - i)
        (List.replicate g.nodes.length false) [] = some [cyc] ∧
      cyc.length = chain.length + 1 ∧
      (∀ k, k ∈ cyc ↔ (k = v0 ∨ k ∈ chain))
  | 0, i, hij => by
    have hiv : i = v0 := by omega
    subst hiv
    obtain ⟨r, hr⟩ : ∃ r, g.nodes.length - i = r + 1 :=
      ⟨g.nodes.length - i - 1, by omega⟩
    rw [hr, findCyclesGo]
    have hieq : g.nodes.length - (r + 1) = i := by omega
    rw [hieq]
    rw [if_neg (by rw [replicate_get?_lt g.nodes.length i hv0lt]; simp)]
    have hchlen : chain.length + 1 ≤ g.nodes.length := by
      have hb := nodup_lt_length_le (i :: chain) g.nodes.length
        (List.nodup_cons.mpr ⟨hv0c, hnd⟩)
        (by
          intro z hz
          rcases List.mem_cons.mp hz with rfl | hz2
          · exact hv0lt
          · exact hlt z hz2)
      simpa using hb
    obtain ⟨seenF, cyc, hrec, hclen, hcmem⟩ := ringRoot g i chain []
      (g.nodes.length + 2) hlen2 hadj0 hchain (by omega) hv0lt hlt hnd hv0c
    rw [hrec]
    simp only [Option.bind_eq_bind, Option.some_bind, List.nil_append]
    have hcyclt : ∀ c ∈ [cyc], ∀ z ∈ c, z < g.nodes.length := by
      intro c hc z hz
      rcases List.mem_singleton.mp hc with rfl
      rcases (hcmem z).mp hz with rfl | hzc
      · exact hv0lt
      · exact hlt z hzc
    obtain ⟨v2, hmv, hlen2v, hpres, hmark⟩ := markVisited_props [cyc]
      (List.replicate g.nodes.length false)
      (by rw [List.length_replicate]; exact hcyclt)
    rw [hmv]
    simp only [Option.some_bind]
    refine ⟨cyc, ?_, hclen, hcmem⟩
    exact findCyclesGo_stable g (i :: chain)
      (by intro k hk hkr; exact hempty k hk hkr) r v2 [cyc] (by omega)
      (hlen2v.trans (List.length_replicate _ _))
      (by
        intro z hz
        refine hmark cyc (by simp) z ((hcmem z).mpr ?_)
        rcases List.mem_cons.mp hz with rfl | hz2
        · exact Or.inl rfl
        · exact Or.inr hz2)
      hcyclt
  | j + 1, i, hij => by
    have hilt : i < v0 := by omega
    obtain ⟨r, hr⟩ : ∃ r, g.nodes.length - i = r + 1 :=
      ⟨g.nodes.length - i - 1, by omega⟩
    rw [hr, findCyclesGo]
    have hieq : g.nodes.length - (r + 1) = i := by omega
    rw [hieq]
    rw [if_neg (by rw [replicate_get?_lt g.nodes.length i (by omega)]; simp)]
    have hinr : i ∉ (v0 :: chain) := by
      simp only [List.mem_cons]
      push_neg
      exact ⟨by omega, fun hm => absurd (hmin i hm) (by omega)⟩
    have hemp := hempty i (by omega) hinr
    rw [show g.nodes.length + 2 = g.nodes.length + 1 + 1 from rfl]
    rw [emptyAdj_noop g (g.nodes.length + 1) i [] [] [] (by simp) (by omega) hemp]
    simp only [Option.bind_eq_bind, Option.some_bind]
    rw [markVisited_nil]
    simp only [Option.some_bind]
    have hreq : r = g.nodes.length - (i + 1) := by omega
    rw [hreq]
    exact findCyclesGo_run g v0 chain hlen2 hadj0 hchain hv0lt hlt hnd hv0c hmin
      hempty j (i + 1) (by omega)

theorem ringPts_length (w h x y : Nat) (hw : 1 ≤ w) :
    (ringPts w h x y).length = 2 * (w + h) := by
  unfold ringPts
  simp only [List.length_cons, List.length_append, List.length_map,
    List.length_range]
  omega

theorem ringPts_bounds (w h x y : Nat) :
    ∀ p ∈ ringPts w h x y, p.x ≤ x + w ∧ y ≤ p.y ∧ p.y ≤ y + h ∧ x ≤ p.x := by
  intro p hp
  unfold ringPts at hp
  simp only [List.mem_cons, List.mem_append, List.mem_map, List.mem_range] at hp
  rcases hp with rfl | ⟨⟨⟨i, hi, rfl⟩ | ⟨j, hj, rfl⟩⟩ | ⟨i, hi, rfl⟩⟩ | ⟨j, hj, rfl⟩ <;>
    exact ⟨by dsimp only; omega, by dsimp only; omega, by dsimp only; omega,
      by dsimp only; omega⟩

theorem ringPts_nodup (w h x y : Nat) (hw : 1 ≤ w) (hh : 1 ≤ h) :
    (ringPts w h x y).Nodup := by
  unfold ringPts
  refine List.nodup_cons.mpr ⟨?_, ?_⟩
  · intro hmem
    simp only [List.mem_append, List.mem_map, List.mem_range] at hmem
    rcases hmem with ⟨⟨⟨i, hi, he⟩ | ⟨j, hj, he⟩⟩ | ⟨i, hi, he⟩⟩ | ⟨j, hj, he⟩ <;>
      (rw [Point.mk.injEq] at he; omega)
  · refine List.nodup_append.mpr ⟨List.nodup_append.mpr
      ⟨List.nodup_append.mpr ⟨?_, ?_, ?_⟩, ?_, ?_⟩, ?_, ?_⟩
    · exact List.Nodup.map_on
        (fun a ha b hb he => by
          rw [Point.mk.injEq] at he
          omega)
        (List.nodup_range _)
    · exact List.Nodup.map_on
        (fun a ha b hb he => by
          rw [Point.mk.injEq] at he
          omega)
        (List.nodup_range _)
    · intro p hp1 hp2
      simp only [List.mem_map, List.mem_range] at hp1 hp2
      obtain ⟨i, hi, rfl⟩ := hp1
      obtain ⟨j, hj, he⟩ := hp2
      rw [Point.mk.injEq] at he
      omega
    · exact List.Nodup.map_on
        (fun a ha b hb he => by
          simp only [List.mem_range] at ha hb
          rw [Point.mk.injEq] at he
          omega)
        (List.nodup_range _)
    · intro p hp1 hp2
      simp only [List.mem_append, List.mem_map, List.mem_range] at hp1 hp2
      obtain ⟨i, hi, he⟩ := hp2
      rcases hp1 with ⟨i2, hi2, rfl⟩ | ⟨j2, hj2, rfl⟩ <;>
        (rw [Point.mk.injEq] at he; omega)
    · exact List.Nodup.map_on
        (fun a ha b hb he => by
          simp only [List.mem_range] at ha hb
          rw [Point.mk.injEq] at he
          omega)
        (List.nodup_range _)
    · intro p hp1 hp2
      simp only [List.mem_append, List.mem_map, List.mem_range] at hp1 hp2
      obtain ⟨j, hj, he⟩ := hp2
      rcases hp1 with ⟨⟨i2, hi2, rfl⟩ | ⟨j2, hj2, rfl⟩⟩ | ⟨i2, hi2, rfl⟩ <;>
        (rw [Point.mk.injEq] at he; omega)

theorem ringPts_tail_min (w h x y W : Nat) (hw : 1 ≤ w) (hh : 1 ≤ h) :
    ∀ p ∈ (ringPts w h x y).tail,
      x + (W + 1) * y < p.x + (W + 1) * p.y := by
  intro p hp
  unfold ringPts at hp
  rw [List.tail_cons] at hp
  simp only [List.mem_append, List.mem_map, List.mem_range] at hp
  have hmono : ∀ a b : Nat, a ≤ b → (W + 1) * a ≤ (W + 1) * b :=
    fun a b hab => Nat.mul_le_mul_left _ hab
  rcases hp with ⟨⟨⟨i, hi, rfl⟩ | ⟨j, hj, rfl⟩⟩ | ⟨i, hi, rfl⟩⟩ | ⟨j, hj, rfl⟩ <;>
    dsimp only
  · omega
  · have := hmono y (y + j) (by omega)
    omega
  · have := hmono y (y + h) (by omega)
    omega
  · have h1 := hmono (y + 1) (y + h - j) (by omega)
    have h2 : (W + 1) * (y + 1) = (W + 1) * y + (W + 1) := by ring
    omega

theorem key_inj_on (W : Nat) (p q : Point) (hp : p.x ≤ W) (hq : q.x ≤ W)
    (he : p.x + (W + 1) * p.y = q.x + (W + 1) * q.y) : p = q := by
  obtain ⟨px, py⟩ := p
  obtain ⟨qx, qy⟩ := q
  dsimp only at hp hq he
  rw [Point.mk.injEq]
  rcases Nat.lt_trichotomy py qy with hlt | heq | hgt
  · exfalso
    have h1 : (W + 1) * (py + 1) ≤ (W + 1) * qy := Nat.mul_le_mul_left _ (by omega)
    have h2 : (W + 1) * (py + 1) = (W + 1) * py + (W + 1) := by ring
    omega
  · subst heq
    exact ⟨by omega, rfl⟩
  · exfalso
    have h1 : (W + 1) * (qy + 1) ≤ (W + 1) * py := Nat.mul_le_mul_left _ (by omega)
    have h2 : (W + 1) * (qy + 1) = (W + 1) * qy + (W + 1) := by ring
    omega

/-- C5: confirmed. For every map whose graph carries, as its entire edge set,
exactly the cyclic unit perimeter segments of one in-bounds `w×h` rectangle
(`w, h ≥ 1`; each perimeter node's adjacency is its two cyclic neighbors in
either order, every other node's adjacency is empty), `find_cycles` returns
exactly one cycle, its length is `2(w+h)`, and its handles are exactly the
handles of the `2(w+h)` distinct perimeter grid points. -/
theorem C5_rect_perimeter_one_cycle (m : Map) (w h x y : Nat)
    (hw : 1 ≤ w) (hh : 1 ≤ h)
    (hxw : x + w ≤ m.width) (hyh : y + h ≤ m.height)
    (hpn : m.point_nodes = canonicalPN m.graph.nodes.length)
    (hnum : m.graph.nodes.length = (m.width + 1) * (m.height + 1))
    (hadj : ringAdjB m.graph
      ((ringPts w h x y).map fun p => p.x + (m.width + 1) * p.y) = true)
    (hempty : ∀ k, k < m.graph.nodes.length →
      k ∉ (ringPts w h x y).map (fun p => p.x + (m.width + 1) * p.y) →
      m.graph.edgesOf k = []) :
    ∃ cyc, m.graph.find_cycles = some [cyc] ∧
      cyc.length = 2 * (w + h) ∧
      (∀ k, k ∈ cyc ↔
        k ∈ (ringPts w h x y).map fun p => p.x + (m.width + 1) * p.y) ∧
      (ringPts w h x y).length = 2 * (w + h) ∧
      (ringPts w h x y).Nodup ∧
      (∀ p ∈ ringPts w h x y,
        m.find_node p = some (p.x + (m.width + 1) * p.y)) := by
  have hrlen : (ringPts w h x y).length = 2 * (w + h) := ringPts_length w h x y hw
  have hrnd : (ringPts w h x y).Nodup := ringPts_nodup w h x y hw hh
  have hbounds := ringPts_bounds w h x y
  have hfind : ∀ p ∈ ringPts w h x y,
      m.find_node p = some (p.x + (m.width + 1) * p.y) := by
    intro p hp
    obtain ⟨hpx, hpy1, hpy2, hpx2⟩ := hbounds p hp
    rw [find_node_canonical m m.graph.nodes.length hpn p]
    rw [if_pos (by
      rw [hnum]
      exact inBounds_key_lt m.width m.height p.x p.y (by omega) (by omega))]
  have hltH : ∀ z ∈ (ringPts w h x y).map (fun p => p.x + (m.width + 1) * p.y),
      z < m.graph.nodes.length := by
    intro z hz
    rw [List.mem_map] at hz
    obtain ⟨p, hp, rfl⟩ := hz
    obtain ⟨hpx, hpy1, hpy2, hpx2⟩ := hbounds p hp
    rw [hnum]
    exact inBounds_key_lt m.width m.height p.x p.y (by omega) (by omega)
  have hndH : ((ringPts w h x y).map
      (fun p => p.x + (m.width + 1) * p.y)).Nodup :=
    List.Nodup.map_on
      (fun p hp q hq he => key_inj_on m.width p q
        (by obtain ⟨h1, _, _, _⟩ := hbounds p hp; omega)
        (by obtain ⟨h1, _, _, _⟩ := hbounds q hq; omega) he)
      hrnd
  have hmapcons : (ringPts w h x y).map (fun p => p.x + (m.width + 1) * p.y) =
      (x + (m.width + 1) * y) ::
        ((ringPts w h x y).tail.map fun p => p.x + (m.width + 1) * p.y) := by
    conv_lhs => rw [show ringPts w h x y =
      Point.mk x y :: (ringPts w h x y).tail from by unfold ringPts; rfl]
    rfl
  have hclen : ((ringPts w h x y).tail.map
      fun p => p.x + (m.width + 1) * p.y).length = 2 * (w + h) - 1 := by
    rw [List.length_map, List.length_tail, hrlen]
  obtain ⟨v1, rest, hvr⟩ : ∃ v1 rest,
      ((ringPts w h x y).tail.map fun p => p.x + (m.width + 1) * p.y) =
        v1 :: rest := by
    cases hc : (ringPts w h x y).tail.map fun p => p.x + (m.width + 1) * p.y with
    | nil =>
      rw [hc] at hclen
      simp at hclen
      omega
    | cons a l => exact ⟨a, l, rfl⟩
  rw [hmapcons, hvr] at hadj
  simp only [ringAdjB, Bool.and_eq_true] at hadj
  obtain ⟨hadj0, hchain⟩ := hadj
  have hadj0' : adjPair m.graph (x + (m.width + 1) * y)
      (((ringPts w h x y).tail.map fun p => p.x + (m.width + 1) * p.y).headD 0)
      (((ringPts w h x y).tail.map
        fun p => p.x + (m.width + 1) * p.y).getLastD 0) = true := by
    rw [hvr]
    exact hadj0
  have hchain' : chainAdjB m.graph (x + (m.width + 1) * y) (x + (m.width + 1) * y)
      ((ringPts w h x y).tail.map fun p => p.x + (m.width + 1) * p.y) = true := by
    rw [hvr]
    exact hchain
  rw [hmapcons] at hndH hltH
  have hndC := (List.nodup_cons.mp hndH).2
  have hv0c := (List.nodup_cons.mp hndH).1
  have hrun := findCyclesGo_run m.graph (x + (m.width + 1) * y)
    ((ringPts w h x y).tail.map fun p => p.x + (m.width + 1) * p.y)
    (by rw [hclen]; omega)
    hadj0' hchain'
    (hltH _ (List.mem_cons_self _ _))
    (fun z hz => hltH z (List.mem_cons_of_mem _ hz))
    hndC hv0c
    (by
      intro z hz
      rw [List.mem_map] at hz
      obtain ⟨p, hp, rfl⟩ := hz
      exact ringPts_tail_min w h x y m.width hw hh p hp)
    (by
      intro k hk hkr
      refine hempty k hk ?_
      rw [hmapcons]
      exact hkr)
    (x + (m.width + 1) * y) 0 (by omega)
  obtain ⟨cyc, hfc, hclen2, hcmem⟩ := hrun
  rw [Nat.sub_zero] at hfc
  refine ⟨cyc, ?_, ?_, ?_, hrlen, hrnd, hfind⟩
  · unfold Graph.find_cycles
    exact hfc
  · rw [hclen2, hclen]
    omega
  · intro k
    rw [hcmem k, hmapcons]
    simp

/-- C5 witness: `grid 1,1` plus the unit rectangle — the four perimeter
points form exactly one 4-cycle. -/
theorem C5_rect_perimeter_one_cycle_witness :
    ∃ cyc, mapRect11.graph.find_cycles = some [cyc] ∧
      cyc.length = 2 * (1 + 1) ∧
      (∀ k, k ∈ cyc ↔
        k ∈ (ringPts 1 1 0 0).map fun p => p.x + (mapRect11.width + 1) * p.y) ∧
      (ringPts 1 1 0 0).length = 2 * (1 + 1) ∧
      (ringPts 1 1 0 0).Nodup ∧
      (∀ p ∈ ringPts 1 1 0 0,
        mapRect11.find_node p = some (p.x + (mapRect11.width + 1) * p.y)) :=
  C5_rect_perimeter_one_cycle mapRect11 1 1 0 0 (by decide) (by decide)
    (by decide) (by decide) (by decide) (by decide) (by decide) (by decide)

/-! ### Corridor paths per component (claim C7) -/

theorem mapM_some_length {α β : Type} :
    ∀ (l : List α) (f : α → Option β) (ys : List β),
    l.mapM f = some ys → ys.length = l.length
  | [], _, ys, h => by
    simp only [List.mapM_nil] at h
    rw [← Option.some.inj h]
    rfl
  | a :: l, f, ys, h => by
    rw [List.mapM_cons] at h
    cases hfa : f a with
    | none => rw [hfa] at h; simp at h
    | some b =>
      rw [hfa] at h
      simp only [Option.bind_eq_bind, Option.some_bind] at h
      cases hml : l.mapM f with
      | none => rw [hml] at h; simp at h
      | some bs =>
        rw [hml] at h
        simp only [Option.some_bind, Option.pure_def] at h
        have h2 := Option.some.inj h
        rw [← h2]
        simp [mapM_some_length l f bs hml]

theorem chunksTwo_length : ∀ (l : List Nat),
    (chunksTwo l).length = (l.length + 1) / 2
  | [] => rfl
  | [_] => by simp [chunksTwo]
  | a :: b :: rest => by
    rw [show chunksTwo (a :: b :: rest) = [a, b] :: chunksTwo rest from rfl]
    simp only [List.length_cons, chunksTwo_length rest]
    omega

/-- C7: corrected. What the renderer actually draws for a multi-node
component: the non-polygon survivors are paired by DEGREE-ONE endpoints two
at a time, so the number of open paths is `⌈endpoints/2⌉` — zero when no
surviving node has degree 1 (as for a corridor joining two rooms, whose
middle point has degree 2), never the claimed "exactly one path through all
remaining points", and no taxicab ordering is involved. -/
theorem C7_component_paths (g : Graph) (pp : List Point) (dim : Nat)
    (cc : List Nat) (handles endpoints : List Nat)
    (hh : cc.filterM (fun h => (do
      let nd ← g.find_node h
      pure (¬ pp.contains nd.data) : Option Bool)) = some handles)
    (he : handles.filterM (fun h => (do
      let nd ← g.find_node h
      pure (nd.edge_count = 1) : Option Bool)) = some endpoints) :
    (endpoints = [] → componentChainPaths g pp dim cc = some []) ∧
    (∀ ps, componentChainPaths g pp dim cc = some ps →
      ps.length = (endpoints.length + 1) / 2) := by
  unfold componentChainPaths
  rw [hh]
  simp only [Option.bind_eq_bind, Option.some_bind]
  by_cases hhe : handles.isEmpty
  · have hhnil : handles = [] := List.isEmpty_iff.mp hhe
    subst hhnil
    have hept : endpoints = [] := by
      have : (([] : List Nat).filterM (fun h => (do
          let nd ← g.find_node h
          pure (nd.edge_count = 1) : Option Bool))) = some [] := rfl
      rw [this] at he
      exact (Option.some.inj he).symm
    subst hept
    rw [if_pos hhe]
    exact ⟨fun _ => rfl, fun ps hps => by
      rw [← Option.some.inj hps]
      rfl⟩
  · rw [if_neg hhe]
    simp only [Option.bind_eq_bind] at he
    rw [he]
    simp only [Option.some_bind]
    constructor
    · intro hept
      subst hept
      rfl
    · intro ps hps
      rw [mapM_some_length (chunksTwo endpoints) _ ps hps]
      exact chunksTwo_length endpoints

/-- C7 witness: the corridor component (both rooms plus the degree-2 middle
point) produces zero open paths. -/
theorem C7_component_paths_witness :
    componentChainPaths mapCorridor.graph ppCorridor 10 ccBig = some [] :=
  (C7_component_paths mapCorridor.graph ppCorridor 10 ccBig [2] []
    (by rfl) (by rfl)).1 rfl

/-- C7: refutation of the claimed "exactly one path per qualifying
component". In the corridor map, the big component has 9 > 1 nodes and its
non-polygon point set is the non-empty `{(2,0)}`, yet the renderer emits ZERO
open paths for it (point `(2,0)` has degree 2, so the endpoint pairing is
empty), and the whole drawing holds zero `path` elements. -/
theorem C7_corridor_counterexample :
    generate_map astCorridor = some (.ok mapCorridor) ∧
    mapCorridor.graph.connected_components =
      some [[0, 5, 6, 1, 2, 3, 8, 9, 4], [7]] ∧
    ccBig.length > 1 ∧
    (ccBig.filterM fun h => (do
      let nd ← mapCorridor.graph.find_node h
      pure (¬ ppCorridor.contains nd.data) : Option Bool)) = some [2] ∧
    (mapCorridor.graph.find_node 2).map Node.data = some ⟨2, 0⟩ ∧
    (mapCorridor.graph.find_node 2).map Node.edge_count = some 2 ∧
    componentChainPaths mapCorridor.graph ppCorridor 10 ccBig = some [] ∧
    ((SvgMapDrawing.new 10 mapCorridor).drawElems mapCorridor).map
      (fun d => d.builder.numPaths) = some 0 :=
  ⟨by rfl, by rfl, by decide, by rfl, by rfl, by rfl, by rfl, by rfl⟩

/-! ### Rendering is total for cell dimension at least 2 (claim C2) -/

theorem mapM_isSome_of_all {α β : Type} :
    ∀ (l : List α) (f : α → Option β), (∀ x ∈ l, (f x).isSome) →
    (l.mapM f).isSome
  | [], f, _ => by
    rw [show (([] : List α).mapM f : Option (List β)) = some [] from rfl]
    rfl
  | a :: l, f, h => by
    rw [List.mapM_cons]
    obtain ⟨b, hb⟩ := Option.isSome_iff_exists.mp (h a (by simp))
    rw [hb]
    simp only [Option.bind_eq_bind, Option.some_bind]
    obtain ⟨bs, hbs⟩ := Option.isSome_iff_exists.mp
      (mapM_isSome_of_all l f (fun x hx => h x (by simp [hx])))
    rw [hbs]
    rfl

theorem elemOk_to_svg_isSome (e : SvgElement) (he : elemOkB e = true) :
    (SvgElement.to_svg e).isSome := by
  cases e with
  | rect p w h c => rfl
  | circle x y r c => rfl
  | polygon ps c => rfl
  | path ps c =>
    unfold elemOkB at he
    cases ps with
    | nil => simp at he
    | cons p rest => rfl

theorem build_isSome (b : SvgBuilder) (hok : builderOkB b = true) :
    (b.build).isSome := by
  unfold SvgBuilder.build
  unfold builderOkB at hok
  rw [List.all_eq_true] at hok
  obtain ⟨es, hes⟩ := Option.isSome_iff_exists.mp
    (mapM_isSome_of_all b.elements SvgElement.to_svg
      (fun x hx => elemOk_to_svg_isSome x (hok x hx)))
  rw [hes]
  rfl

theorem builderOk_append (b : SvgBuilder) (e : SvgElement)
    (hb : builderOkB b = true) (he : elemOkB e = true) :
    builderOkB ⟨b.width, b.height, b.elements ++ [e]⟩ = true := by
  unfold builderOkB at hb ⊢
  rw [List.all_eq_true] at hb ⊢
  intro x hx
  rcases List.mem_append.mp hx with hx1 | hx2
  · exact hb x hx1
  · rw [List.mem_singleton.mp hx2]
    exact he

theorem div_mul_le (dim : Nat) : dim * 3 / 5 ≤ dim := by
  have h1 : dim * 3 ≤ dim * 5 := by omega
  have h2 := Nat.div_le_div_right (c := 5) h1
  rw [Nat.mul_div_cancel dim (by omega)] at h2
  exact h2

theorem drawEntity_ok (d : SvgMapDrawing) (e : Entity) (h2 : 2 ≤ d.dim)
    (hb : builderOkB d.builder = true) :
    ∃ d2, drawEntity d e = some d2 ∧ d2.dim = d.dim ∧
      builderOkB d2.builder = true := by
  cases e with
  | mk shape point position =>
    cases shape with
    | Circle radius =>
      unfold drawEntity SvgMapDrawing.circle_entity
      cases position with
      | Within =>
        have hmid : 1 ≤ d.dim / 2 :=
          (Nat.le_div_iff_mul_le (by omega)).mpr (by omega)
        simp only []
        rw [show checkedSub (d.dim / 2) 1 = some (d.dim / 2 - 1) by
          unfold checkedSub
          rw [if_pos hmid]]
        refine ⟨_, rfl, rfl, ?_⟩
        exact builderOk_append d.builder _ hb rfl
      | At =>
        refine ⟨_, rfl, rfl, ?_⟩
        exact builderOk_append d.builder _ hb rfl
    | Square =>
      unfold drawEntity SvgMapDrawing.square_entity
      simp only []
      rw [show checkedSub d.dim (d.dim * 3 / 5) = some (d.dim - d.dim * 3 / 5) by
        unfold checkedSub
        rw [if_pos (div_mul_le d.dim)]]
      refine ⟨_, rfl, rfl, ?_⟩
      exact builderOk_append d.builder _ hb rfl
    | Stair =>
      unfold drawEntity SvgMapDrawing.stair_entity
      simp only []
      rw [show checkedSub d.dim (d.dim * 3 / 5) = some (d.dim - d.dim * 3 / 5) by
        unfold checkedSub
        rw [if_pos (div_mul_le d.dim)]]
      refine ⟨_, rfl, rfl, ?_⟩
      exact builderOk_append d.builder _ hb rfl
    | Ladder =>
      unfold drawEntity SvgMapDrawing.ladder_entity
      simp only []
      rw [show checkedSub d.dim (d.dim * 3 / 5) = some (d.dim - d.dim * 3 / 5) by
        unfold checkedSub
        rw [if_pos (div_mul_le d.dim)]]
      refine ⟨_, rfl, rfl, ?_⟩
      unfold builderOkB at hb ⊢
      rw [List.all_eq_true] at hb ⊢
      intro x hx
      simp only [List.foldl_cons, List.foldl_nil, SvgBuilder.path] at hx
      simp only [List.append_assoc, List.mem_append, List.mem_singleton] at hx
      rcases hx with hx | hx | hx | hx | hx
      · exact hb x hx
      all_goals (rw [hx]; rfl)
    | X =>
      unfold drawEntity SvgMapDrawing.x_entity
      refine ⟨_, rfl, rfl, ?_⟩
      simp only [SvgBuilder.path]
      unfold builderOkB at hb ⊢
      rw [List.all_eq_true] at hb ⊢
      intro x hx
      simp only [List.append_assoc, List.mem_append, List.mem_singleton] at hx
      rcases hx with hx | hx | hx
      · exact hb x hx
      all_goals (rw [hx]; rfl)

theorem entities_fold_ok : ∀ (es : List Entity) (d : SvgMapDrawing),
    2 ≤ d.dim → builderOkB d.builder = true →
    ∃ d2, es.foldlM drawEntity d = some d2 ∧ d2.dim = d.dim ∧
      builderOkB d2.builder = true
  | [], d, _, hb => ⟨d, rfl, rfl, hb⟩
  | e :: es, d, h2, hb => by
    obtain ⟨d1, hd1, hdim1, hb1⟩ := drawEntity_ok d e h2 hb
    obtain ⟨d2, hd2, hdim2, hb2⟩ := entities_fold_ok es d1 (by rw [hdim1]; exact h2) hb1
    refine ⟨d2, ?_, by rw [hdim2, hdim1], hb2⟩
    rw [List.foldlM_cons, hd1]
    simp only [Option.bind_eq_bind, Option.some_bind]
    exact hd2

theorem collectCycle_subset : ∀ (l : List Nat) (h : Nat),
    ∀ z ∈ collectCycle l h, z ∈ l
  | [], _, z, hz => by simp [collectCycle] at hz
  | a :: rest, h, z, hz => by
    unfold collectCycle at hz
    by_cases hah : a = h
    · rw [if_pos hah] at hz
      rw [List.mem_singleton.mp hz]
      simp
    · rw [if_neg hah] at hz
      rcases List.mem_cons.mp hz with rfl | hz2
      · simp
      · exact List.mem_cons_of_mem a (collectCycle_subset rest h z hz2)

theorem goEdgesF_total (n : Nat) (S0 : List Nat)
    (recFn : Nat → CycState → Option (Bool × CycState))
    (hrec : ∀ (e : Nat) (st2 : CycState), e < n → st2.stack = S0 →
      (∀ c ∈ st2.cycles, ∀ z ∈ c, z < n) →
      ∃ fs, recFn e st2 = some fs ∧ fs.2.stack = S0 ∧
        (∀ c ∈ fs.2.cycles, ∀ z ∈ c, z < n)) :
    ∀ (es : List Nat) (handle : Nat) (backRef : Option Nat) (found : Bool)
      (st : CycState),
    (∀ e ∈ es, e < n) → st.stack = S0 →
    (∀ c ∈ st.cycles, ∀ z ∈ c, z < n) →
    ∃ fs, Graph.goEdgesF recFn handle backRef es found st = some fs ∧
      fs.2.stack = S0 ∧ (∀ c ∈ fs.2.cycles, ∀ z ∈ c, z < n)
  | [], _, _, found, st, _, hs, hcy => ⟨(found, st), rfl, hs, hcy⟩
  | e :: es, handle, backRef, found, st, hes, hs, hcy => by
    rw [Graph.goEdgesF]
    by_cases hskip : skipNeighbor backRef st.seen handle e = true
    · rw [if_pos hskip]
      exact goEdgesF_total n S0 recFn hrec es handle backRef found st
        (fun x hx => hes x (by simp [hx])) hs hcy
    · rw [if_neg hskip]
      obtain ⟨fs1, hfs1, hstk1, hcy1⟩ := hrec e st (hes e (by simp)) hs hcy
      rw [hfs1]
      simp only [Option.bind_eq_bind, Option.some_bind]
      exact goEdgesF_total n S0 recFn hrec es handle backRef (found || fs1.1)
        fs1.2 (fun x hx => hes x (by simp [hx])) hstk1 hcy1

theorem find_cycles_rec_total (g : Graph)
    (hwfe : ∀ nd ∈ g.nodes, ∀ e ∈ nd.edges, e < g.nodes.length) :
    ∀ (fuel : Nat) (handle : Nat) (st : CycState),
    handle < g.nodes.length →
    st.stack.Nodup →
    (∀ z ∈ st.stack, z < g.nodes.length) →
    g.nodes.length + 1 ≤ fuel + st.stack.length →
    (∀ c ∈ st.cycles, ∀ z ∈ c, z < g.nodes.length) →
    ∃ fs, g.find_cycles_rec fuel handle st = some fs ∧
      fs.2.stack = st.stack ∧
      (∀ c ∈ fs.2.cycles, ∀ z ∈ c, z < g.nodes.length)
  | 0, handle, st, _, hnd, hstl, hfu, _ => by
    exfalso
    have := nodup_lt_length_le st.stack g.nodes.length hnd hstl
    omega
  | fuel + 1, handle, st, hh, hnd, hstl, hfu, hcy => by
    rw [Graph.find_cycles_rec]
    by_cases hmem : handle ∈ st.stack
    · rw [if_pos hmem]
      refine ⟨(true, _), rfl, rfl, ?_⟩
      intro c hc z hz
      rcases List.mem_append.mp hc with hc1 | hc2
      · exact hcy c hc1 z hz
      · rw [List.mem_singleton.mp hc2] at hz
        exact hstl z (collectCycle_subset st.stack handle z hz)
    · rw [if_neg hmem]
      obtain ⟨nd, hnd_get⟩ := nodes_get_exists g handle hh
      simp only [hnd_get]
      have hstep : ∀ (e : Nat) (st2 : CycState), e < g.nodes.length →
          st2.stack = handle :: st.stack →
          (∀ c ∈ st2.cycles, ∀ z ∈ c, z < g.nodes.length) →
          ∃ fs, g.find_cycles_rec fuel e st2 = some fs ∧
            fs.2.stack = handle :: st.stack ∧
            (∀ c ∈ fs.2.cycles, ∀ z ∈ c, z < g.nodes.length) := by
        intro e st2 he hs hc
        obtain ⟨fs, h1, h2, h3⟩ := find_cycles_rec_total g hwfe fuel e st2 he
          (by rw [hs]; exact List.nodup_cons.mpr ⟨hmem, hnd⟩)
          (by
            rw [hs]
            intro z hz
            rcases List.mem_cons.mp hz with rfl | hz2
            · exact hh
            · exact hstl z hz2)
          (by rw [hs]; simp only [List.length_cons]; omega)
          hc
        exact ⟨fs, h1, by rw [h2, hs], h3⟩
      obtain ⟨fs, hfs, hstk, hcy2⟩ := goEdgesF_total g.nodes.length
        (handle :: st.stack) (g.find_cycles_rec fuel) hstep nd.edges handle
        (st.stack.head?) false ⟨st.seen, handle :: st.stack, st.cycles⟩
        (fun e he => hwfe nd (List.get?_mem hnd_get) e he)
        rfl hcy
      rw [hfs]
      simp only [Option.bind_eq_bind, Option.some_bind]
      refine ⟨(fs.1, _), rfl, ?_, hcy2⟩
      rw [hstk]
      rfl

theorem findCyclesGo_total (g : Graph)
    (hwfe : ∀ nd ∈ g.nodes, ∀ e ∈ nd.edges, e < g.nodes.length) :
    ∀ (remaining : Nat) (vis : List Bool) (C : List (List Nat)),
    remaining ≤ g.nodes.length →
    vis.length = g.nodes.length →
    (∀ c ∈ C, ∀ z ∈ c, z < g.nodes.length) →
    ∃ cys, findCyclesGo g remaining vis C = some cys ∧
      (∀ c ∈ cys, ∀ z ∈ c, z < g.nodes.length)
  | 0, _, C, _, _, hC => ⟨C, rfl, hC⟩
  | r + 1, vis, C, hrem, hlen, hC => by
    rw [findCyclesGo]
    by_cases hvis : vis.get? (g.nodes.length - (r + 1)) = some true
    · rw [if_pos hvis]
      exact findCyclesGo_total g hwfe r vis C (by omega) hlen hC
    · rw [if_neg hvis]
      have hilt : g.nodes.length - (r + 1) < g.nodes.length := by omega
      obtain ⟨fs, hfs, hstk, hcy⟩ := find_cycles_rec_total g hwfe
        (g.nodes.length + 2) (g.nodes.length - (r + 1)) ⟨[], [], C⟩ hilt
        (by simp) (by simp) (by simp only [List.length_nil]; omega) hC
      rw [hfs]
      simp only [Option.bind_eq_bind, Option.some_bind]
      obtain ⟨v2, hmv, hlen2, _, _⟩ := markVisited_props fs.2.cycles vis
        (by rw [hlen]; exact hcy)
      rw [hmv]
      simp only [Option.some_bind]
      exact findCyclesGo_total g hwfe r v2 fs.2.cycles (by omega)
        (hlen2.trans hlen) hcy

theorem find_cycles_total (g : Graph)
    (hwfe : ∀ nd ∈ g.nodes, ∀ e ∈ nd.edges, e < g.nodes.length) :
    ∃ cys, g.find_cycles = some cys ∧
      (∀ c ∈ cys, ∀ z ∈ c, z < g.nodes.length) := by
  unfold Graph.find_cycles
  exact findCyclesGo_total g hwfe g.nodes.length
    (List.replicate g.nodes.length false) [] (Nat.le_refl _)
    (List.length_replicate _ _) (by simp)

theorem get?_bool_exists (v : List Bool) (h : Nat) (hlt : h < v.length) :
    ∃ b, v.get? h = some b := by
  cases hvb : v.get? h with
  | none =>
    rw [List.get?_eq_none] at hvb
    omega
  | some b => exact ⟨b, rfl⟩

theorem filter_sum_set (f : Nat → Nat) :
    ∀ (l : List Nat) (visited : List Bool) (h : Nat),
    h ∈ l → l.Nodup → visited.get? h = some false →
    ((l.filter fun i => decide (visited.get? i = some false)).map f).sum =
      ((l.filter fun i =>
        decide ((visited.set h true).get? i = some false)).map f).sum + f h := by
  intro l
  induction l with
  | nil =>
    intro visited h hm _ _
    simp at hm
  | cons a rest ih =>
    intro visited h hm hnd hvh
    have hnd2 := List.nodup_cons.mp hnd
    by_cases hah : a = h
    · subst hah
      have hlt : a < visited.length := by
        by_contra hge
        rw [List.get?_eq_none.mpr (by omega)] at hvh
        exact Option.noConfusion hvh
      have h2 : (visited.set a true).get? a = some true :=
        get?_set_true_self visited a hlt
      rw [List.filter_cons, List.filter_cons]
      rw [if_pos (by rw [hvh]; decide), if_neg (by rw [h2]; decide)]
      have hfeq : (rest.filter fun i => decide (visited.get? i = some false)) =
          rest.filter fun i =>
            decide ((visited.set a true).get? i = some false) := by
        apply List.filter_congr
        intro x hx
        have hxa : x ≠ a := fun he => hnd2.1 (he ▸ hx)
        rw [get?_set_true_other visited a x hxa]
      rw [hfeq]
      simp only [List.map_cons, List.sum_cons]
      omega
    · have hm2 : h ∈ rest := by
        rcases List.mem_cons.mp hm with he | hr
        · exact absurd he.symm hah
        · exact hr
      have hpa : (visited.set h true).get? a = visited.get? a :=
        get?_set_true_other visited h a (fun he => hah he)
      rw [List.filter_cons, List.filter_cons, hpa]
      by_cases hva : decide (visited.get? a = some false) = true
      · rw [if_pos hva, if_pos hva]
        simp only [List.map_cons, List.sum_cons]
        rw [ih visited h hm2 hnd2.2 hvh]
        omega
      · rw [if_neg hva, if_neg hva]
        exact ih visited h hm2 hnd2.2 hvh

theorem unvisitedWork_set (g : Graph) (visited : List Bool) (h : Nat)
    (hh : h < g.nodes.length) (hvh : visited.get? h = some false) :
    unvisitedWork g visited =
      unvisitedWork g (visited.set h true) + (g.edgesOf h).length := by
  unfold unvisitedWork
  exact filter_sum_set (fun i => (g.edgesOf i).length) (List.range g.nodes.length)
    visited h (List.mem_range.mpr hh) (List.nodup_range _) hvh

theorem filter_map_sum_le (p : Nat → Bool) (f : Nat → Nat) :
    ∀ (l : List Nat), ((l.filter p).map f).sum ≤ (l.map f).sum
  | [] => Nat.le_refl _
  | a :: rest => by
    rw [List.filter_cons]
    by_cases hpa : p a = true
    · rw [if_pos hpa]
      simp only [List.map_cons, List.sum_cons]
      exact Nat.add_le_add_left (filter_map_sum_le p f rest) _
    · rw [if_neg hpa]
      simp only [List.map_cons, List.sum_cons]
      exact Nat.le_trans (filter_map_sum_le p f rest) (by omega)

theorem sum_edgesOf_range (g : Graph) :
    ((List.range g.nodes.length).map fun i => (g.edgesOf i).length).sum =
      g.totalEdges := by
  unfold Graph.totalEdges
  congr 1
  apply List.ext_get
  · simp
  · intro i h1 h2
    simp only [List.get_map, List.get_range]
    have hi : i < g.nodes.length := by simpa using h2
    have hg : g.nodes.get? i = some (g.nodes.get ⟨i, hi⟩) := List.get?_eq_get hi
    rw [edgesOf_eq g i _ hg]

theorem unvisitedWork_le (g : Graph) (visited : List Bool) :
    unvisitedWork g visited ≤ g.totalEdges := by
  unfold unvisitedWork
  rw [← sum_edgesOf_range g]
  exact filter_map_sum_le _ _ _

theorem reach_trans (g : Graph) (a b c : Nat)
    (h1 : Reach g a b) (h2 : Reach g b c) : Reach g a c := by
  induction h2 with
  | refl => exact h1
  | step _ he ih => exact Reach.step ih he

theorem wfB_edges (g : Graph) (hwf : g.wfB = true) :
    ∀ nd ∈ g.nodes, ∀ e ∈ nd.edges, e < g.nodes.length := by
  unfold Graph.wfB at hwf
  rw [Bool.and_eq_true] at hwf
  have h1 := hwf.1
  simp only [List.all_eq_true, decide_eq_true_eq] at h1
  exact h1

theorem wfB_count (g : Graph) (hwf : g.wfB = true) (a b : Nat)
    (ha : a < g.nodes.length) (hb : b < g.nodes.length) :
    (g.edgesOf a).count b = (g.edgesOf b).count a := by
  unfold Graph.wfB at hwf
  rw [Bool.and_eq_true] at hwf
  have h2 := hwf.2
  simp only [List.all_eq_true, decide_eq_true_eq] at h2
  exact h2 a (List.mem_range.mpr ha) b (List.mem_range.mpr hb)

theorem edgesOf_src_lt (g : Graph) (x y : Nat) (hx : x ∈ g.edgesOf y) :
    y < g.nodes.length := by
  by_contra hge
  rw [edgesOf_of_ge g y (by omega)] at hx
  simp at hx

theorem edgesOf_mem_lt (g : Graph)
    (hwfe : ∀ nd ∈ g.nodes, ∀ e ∈ nd.edges, e < g.nodes.length)
    (x y : Nat) (hx : x ∈ g.edgesOf y) : x < g.nodes.length := by
  have hy : y < g.nodes.length := edgesOf_src_lt g x y hx
  obtain ⟨nd, hnd⟩ := nodes_get_exists g y hy
  rw [edgesOf_eq g y nd hnd] at hx
  exact hwfe nd (List.get?_mem hnd) x hx

theorem edgesOf_symm (g : Graph) (hwf : g.wfB = true) (x y : Nat)
    (hx : x ∈ g.edgesOf y) : y ∈ g.edgesOf x := by
  have hy : y < g.nodes.length := edgesOf_src_lt g x y hx
  have hxlt : x < g.nodes.length := edgesOf_mem_lt g (wfB_edges g hwf) x y hx
  have hcnt := wfB_count g hwf y x hy hxlt
  have hpos : (g.edgesOf y).count x ≠ 0 := by
    intro h0
    rw [List.count_eq_zero] at h0
    exact h0 hx
  rw [hcnt] at hpos
  by_contra hmem
  exact hpos (List.count_eq_zero.mpr hmem)

theorem reach_symm (g : Graph) (hwf : g.wfB = true) (a b : Nat)
    (h : Reach g a b) : Reach g b a := by
  induction h with
  | refl => exact Reach.refl
  | step _ he ih =>
    exact reach_trans g _ _ _ (Reach.step Reach.refl (edgesOf_symm g hwf _ _ he)) ih

theorem reach_lt (g : Graph)
    (hwfe : ∀ nd ∈ g.nodes, ∀ e ∈ nd.edges, e < g.nodes.length)
    (a b : Nat) (ha : a < g.nodes.length) (h : Reach g a b) :
    b < g.nodes.length := by
  induction h with
  | refl => exact ha
  | step _ he _ => exact edgesOf_mem_lt g hwfe _ _ he

theorem bfsAux_total (g : Graph) (root : Nat)
    (hwfe : ∀ nd ∈ g.nodes, ∀ e ∈ nd.edges, e < g.nodes.length) :
    ∀ (fuel : Nat) (visited : List Bool) (stack acc : List Nat),
    visited.length = g.nodes.length →
    (∀ z ∈ stack, z < g.nodes.length ∧ Reach g root z) →
    (∀ z ∈ acc, z < g.nodes.length ∧ Reach g root z) →
    stack.length + unvisitedWork g visited + 1 ≤ fuel →
    ∃ res, g.bfsAux fuel visited stack acc = some res ∧
      res.2.length = g.nodes.length ∧
      (∀ z ∈ res.1, z < g.nodes.length ∧ Reach g root z)
  | 0, _, _, _, _, _, _, hfu => by omega
  | fuel + 1, visited, [], acc, hlen, _, hacc, _ =>
    ⟨(acc, visited), rfl, hlen, hacc⟩
  | fuel + 1, visited, h :: rest, acc, hlen, hstk, hacc, hfu => by
    rw [Graph.bfsAux]
    have hh : h < g.nodes.length := (hstk h (by simp)).1
    obtain ⟨b, hb⟩ := get?_bool_exists visited h (by omega)
    rw [hb]
    cases b with
    | true =>
      simp only []
      apply bfsAux_total g root hwfe fuel visited rest acc hlen
        (fun z hz => hstk z (by simp [hz])) hacc
      simp only [List.length_cons] at hfu
      omega
    | false =>
      simp only []
      obtain ⟨nd, hnd⟩ := nodes_get_exists g h hh
      rw [hnd]
      have hedges : g.edgesOf h = nd.edges := edgesOf_eq g h nd hnd
      apply bfsAux_total g root hwfe fuel (visited.set h true)
        (nd.edges.reverse ++ rest) (acc ++ [h])
      · rw [List.length_set]
        exact hlen
      · intro z hz
        rcases List.mem_append.mp hz with hz1 | hz2
        · rw [List.mem_reverse] at hz1
          refine ⟨hwfe nd (List.get?_mem hnd) z hz1, ?_⟩
          exact Reach.step (hstk h (by simp)).2 (by rw [hedges]; exact hz1)
        · exact hstk z (by simp [hz2])
      · intro z hz
        rcases List.mem_append.mp hz with hz1 | hz2
        · exact hacc z hz1
        · rw [List.mem_singleton.mp hz2]
          exact hstk h (by simp)
      · have hset := unvisitedWork_set g visited h hh hb
        rw [List.length_append, List.length_reverse]
        rw [hedges] at hset
        simp only [List.length_cons] at hfu
        omega

theorem bfs_total (g : Graph) (start : Nat) (visited : List Bool)
    (hwfe : ∀ nd ∈ g.nodes, ∀ e ∈ nd.edges, e < g.nodes.length)
    (hlen : visited.length = g.nodes.length)
    (hst : start < g.nodes.length) :
    ∃ res, g.bfs start visited = some res ∧
      res.2.length = g.nodes.length ∧
      (∀ z ∈ res.1, z < g.nodes.length ∧ Reach g start z) := by
  unfold Graph.bfs
  apply bfsAux_total g start hwfe _ visited [start] [] hlen
    (fun z hz => by rw [List.mem_singleton.mp hz]; exact ⟨hst, Reach.refl⟩)
    (by simp)
  have := unvisitedWork_le g visited
  simp only [List.length_singleton]
  omega

theorem ccGo_total (g : Graph)
    (hwfe : ∀ nd ∈ g.nodes, ∀ e ∈ nd.edges, e < g.nodes.length) :
    ∀ (remaining : Nat) (vis : List Bool) (acc : List (List Nat)),
    remaining ≤ g.nodes.length →
    vis.length = g.nodes.length →
    (∀ cc ∈ acc, ∃ r, ∀ z ∈ cc, z < g.nodes.length ∧ Reach g r z) →
    ∃ ccs, ccGo g remaining vis acc = some ccs ∧
      ∀ cc ∈ ccs, ∃ r, ∀ z ∈ cc, z < g.nodes.length ∧ Reach g r z
  | 0, _, acc, _, _, hacc => ⟨acc, rfl, hacc⟩
  | r + 1, vis, acc, hrem, hlen, hacc => by
    rw [ccGo]
    by_cases hvis : vis.get? (g.nodes.length - (r + 1)) = some true
    · rw [if_pos hvis]
      exact ccGo_total g hwfe r vis acc (by omega) hlen hacc
    · rw [if_neg hvis]
      have hilt : g.nodes.length - (r + 1) < g.nodes.length := by omega
      obtain ⟨res, hres, hlen2, hmem⟩ :=
        bfs_total g (g.nodes.length - (r + 1)) vis hwfe hlen hilt
      rw [hres]
      simp only [Option.bind_eq_bind, Option.some_bind]
      exact ccGo_total g hwfe r res.2 (acc ++ [res.1]) (by omega) hlen2
        (fun cc hcc => by
          rcases List.mem_append.mp hcc with hc1 | hc2
          · exact hacc cc hc1
          · rw [List.mem_singleton.mp hc2]
            exact ⟨g.nodes.length - (r + 1), hmem⟩)

theorem connected_components_total (g : Graph)
    (hwfe : ∀ nd ∈ g.nodes, ∀ e ∈ nd.edges, e < g.nodes.length) :
    ∃ ccs, g.connected_components = some ccs ∧
      ∀ cc ∈ ccs, ∃ r, ∀ z ∈ cc, z < g.nodes.length ∧ Reach g r z := by
  unfold Graph.connected_components
  exact ccGo_total g hwfe g.nodes.length (List.replicate g.nodes.length false)
    [] (Nat.le_refl _) (List.length_replicate _ _) (by simp)

theorem lookup_mem {β : Type} : ∀ (l : List (Nat × β)) (k : Nat),
    k ∈ l.map Prod.fst → ∃ p, l.lookup k = some p ∧ (k, p) ∈ l
  | [], k, hk => by simp at hk
  | hd :: rest, k, hk => by
    simp only [List.lookup]
    cases hbeq : (k == hd.1) with
    | true =>
      have hke : k = hd.1 := by simpa using hbeq
      refine ⟨hd.2, rfl, ?_⟩
      rw [hke]
      simp
    | false =>
      have hne : k ≠ hd.1 := by simpa using hbeq
      have hk2 : k ∈ rest.map Prod.fst := by
        simp only [List.map_cons, List.mem_cons] at hk
        rcases hk with h1 | h1
        · exact absurd h1 hne
        · exact h1
      obtain ⟨p, hp, hm⟩ := lookup_mem rest k hk2
      exact ⟨p, hp, List.mem_cons_of_mem _ hm⟩

theorem bfsPaths_total (g : Graph) (a : Nat)
    (hwfe : ∀ nd ∈ g.nodes, ∀ e ∈ nd.edges, e < g.nodes.length) :
    ∀ (fuel : Nat) (visited : List Bool) (stack acc : List (Nat × List Nat)),
    visited.length = g.nodes.length →
    (∀ kp ∈ stack, kp.1 < g.nodes.length ∧ kp.2 ≠ [] ∧
      ∀ x ∈ kp.2, x < g.nodes.length) →
    (∀ kp ∈ acc, kp.1 < g.nodes.length ∧ kp.2 ≠ [] ∧
      ∀ x ∈ kp.2, x < g.nodes.length) →
    (∀ z, z < g.nodes.length →
      (visited.get? z = some true ↔ z ∈ acc.map Prod.fst)) →
    (∀ kp ∈ acc, ∀ e ∈ g.edgesOf kp.1,
      visited.get? e = some true ∨ e ∈ stack.map Prod.fst) →
    (a ∈ acc.map Prod.fst ∨ a ∈ stack.map Prod.fst) →
    stack.length + unvisitedWork g visited + 1 ≤ fuel →
    ∃ res, g.bfsPaths fuel visited stack acc = some res ∧
      (∀ kp ∈ res.1, kp.1 < g.nodes.length ∧ kp.2 ≠ [] ∧
        ∀ x ∈ kp.2, x < g.nodes.length) ∧
      a ∈ res.1.map Prod.fst ∧
      (∀ kp ∈ res.1, ∀ e ∈ g.edgesOf kp.1, e ∈ res.1.map Prod.fst)
  | 0, _, _, _, _, _, _, _, _, _, hfu => by omega
  | fuel + 1, visited, [], acc, hlen, _, hacc, hiff, hclo, ha, _ => by
    refine ⟨(acc, visited), rfl, hacc, ?_, ?_⟩
    · rcases ha with h1 | h1
      · exact h1
      · simp at h1
    · intro kp hkp e he
      rcases hclo kp hkp e he with hv | hm
      · exact (hiff e (edgesOf_mem_lt g hwfe e kp.1 he)).mp hv
      · simp at hm
  | fuel + 1, visited, (h, path) :: rest, acc, hlen, hstk, hacc, hiff, hclo,
      ha, hfu => by
    rw [Graph.bfsPaths]
    have hh : h < g.nodes.length := (hstk (h, path) (by simp)).1
    obtain ⟨b, hb⟩ := get?_bool_exists visited h (by omega)
    rw [hb]
    cases b with
    | true =>
      simp only []
      apply bfsPaths_total g a hwfe fuel visited rest acc hlen
        (fun kp hkp => hstk kp (by simp [hkp])) hacc hiff
      · intro kp hkp e he
        rcases hclo kp hkp e he with hv | hm
        · exact Or.inl hv
        · simp only [List.map_cons, List.mem_cons] at hm
          rcases hm with rfl | hm2
          · exact Or.inl hb
          · exact Or.inr hm2
      · rcases ha with h1 | h1
        · exact Or.inl h1
        · simp only [List.map_cons, List.mem_cons] at h1
          rcases h1 with rfl | h2
          · exact Or.inl ((hiff a hh).mp hb)
          · exact Or.inr h2
      · simp only [List.length_cons] at hfu
        omega
    | false =>
      simp only []
      obtain ⟨nd, hnd⟩ := nodes_get_exists g h hh
      rw [hnd]
      have hedges : g.edgesOf h = nd.edges := edgesOf_eq g h nd hnd
      have hpathok := hstk (h, path) (by simp)
      apply bfsPaths_total g a hwfe fuel (visited.set h true)
        ((nd.edges.reverse.map fun e => (e, path ++ [e])) ++ rest)
        (acc ++ [(h, path)])
      · rw [List.length_set]
        exact hlen
      · intro kp hkp
        rcases List.mem_append.mp hkp with hz1 | hz2
        · obtain ⟨e, he, rfl⟩ := List.mem_map.mp hz1
          rw [List.mem_reverse] at he
          refine ⟨hwfe nd (List.get?_mem hnd) e he, by simp, ?_⟩
          intro x hx
          rcases List.mem_append.mp hx with hx1 | hx2
          · exact hpathok.2.2 x hx1
          · rw [List.mem_singleton.mp hx2]
            exact hwfe nd (List.get?_mem hnd) e he
        · exact hstk kp (by simp [hz2])
      · intro kp hkp
        rcases List.mem_append.mp hkp with hz1 | hz2
        · exact hacc kp hz1
        · rw [List.mem_singleton.mp hz2]
          exact hpathok
      · intro z hz
        by_cases hzh : z = h
        · subst hzh
          refine iff_of_true (get?_set_true_self visited z (by omega)) ?_
          rw [List.map_append]
          exact List.mem_append.mpr (Or.inr (by simp))
        · rw [get?_set_true_other visited h z hzh]
          rw [List.map_append]
          constructor
          · intro hv
            exact List.mem_append.mpr (Or.inl ((hiff z hz).mp hv))
          · intro hv
            rcases List.mem_append.mp hv with h1 | h1
            · exact (hiff z hz).mpr h1
            · exact absurd (by simpa using h1) hzh
      · intro kp hkp e he
        rcases List.mem_append.mp hkp with hz1 | hz2
        · rcases hclo kp hz1 e he with hv | hm
          · by_cases heh : e = h
            · subst heh
              exact Or.inl (get?_set_true_self visited e (by omega))
            · rw [← get?_set_true_other visited h e heh] at hv
              exact Or.inl hv
          · simp only [List.map_cons, List.mem_cons] at hm
            rcases hm with rfl | hm2
            · exact Or.inl (get?_set_true_self visited e (by omega))
            · refine Or.inr ?_
              rw [List.map_append]
              exact List.mem_append.mpr (Or.inr hm2)
        · rw [List.mem_singleton.mp hz2] at he
          refine Or.inr ?_
          rw [List.map_append]
          refine List.mem_append.mpr (Or.inl ?_)
          have hke : (nd.edges.reverse.map fun e => ((e : Nat), path ++ [e])).map
              Prod.fst = nd.edges.reverse := by
            rw [List.map_map]
            rw [show (Prod.fst ∘ fun e => ((e : Nat), path ++ [e])) = id from rfl]
            exact List.map_id _
          rw [hke, List.mem_reverse]
          rw [hedges] at he
          exact he
      · rcases ha with h1 | h1
        · refine Or.inl ?_
          rw [List.map_append]
          exact List.mem_append.mpr (Or.inl h1)
        · simp only [List.map_cons, List.mem_cons] at h1
          rcases h1 with rfl | h2
          · refine Or.inl ?_
            rw [List.map_append]
            exact List.mem_append.mpr (Or.inr (by simp))
          · refine Or.inr ?_
            rw [List.map_append]
            exact List.mem_append.mpr (Or.inr h2)
      · have hset := unvisitedWork_set g visited h hh hb
        rw [List.length_append, List.length_map, List.length_reverse]
        rw [hedges] at hset
        simp only [List.length_cons] at hfu
        omega

theorem find_path_total (g : Graph) (a b : Nat)
    (hwfe : ∀ nd ∈ g.nodes, ∀ e ∈ nd.edges, e < g.nodes.length)
    (ha : a < g.nodes.length) (hr : Reach g a b) :
    ∃ path, g.find_path a b = some path ∧ path ≠ [] ∧
      ∀ x ∈ path, x < g.nodes.length := by
  unfold Graph.find_path
  obtain ⟨res, hres, hprops, hamem, hclo⟩ := bfsPaths_total g a hwfe
    (g.nodes.length + g.totalEdges + 1)
    (List.replicate g.nodes.length false) [(a, [a])] []
    (List.length_replicate _ _)
    (by
      intro kp hkp
      rw [List.mem_singleton.mp hkp]
      exact ⟨ha, by simp, fun x hx => by rw [List.mem_singleton.mp hx]; exact ha⟩)
    (by simp)
    (by
      intro z hz
      refine iff_of_false ?_ (by simp)
      rw [replicate_get?_lt g.nodes.length z hz]
      simp)
    (by simp)
    (Or.inr (by simp))
    (by
      have := unvisitedWork_le g (List.replicate g.nodes.length false)
      simp only [List.length_singleton]
      omega)
  rw [hres]
  simp only [Option.bind_eq_bind, Option.some_bind]
  have hbk : ∀ z, Reach g a z → z ∈ res.1.map Prod.fst := by
    intro z hz
    induction hz with
    | refl => exact hamem
    | step _ he ih =>
      obtain ⟨kp, hkp, hfst⟩ := List.mem_map.mp ih
      exact hclo kp hkp _ (by rw [hfst]; exact he)
  obtain ⟨p, hlk, hpmem⟩ := lookup_mem res.1 b (hbk b hr)
  exact ⟨p, hlk, (hprops (b, p) hpmem).2.1, (hprops (b, p) hpmem).2.2⟩

theorem filterAuxM_total {α : Type} : ∀ (l acc : List α) (f : α → Option Bool),
    (∀ x ∈ l, (f x).isSome) →
    ∃ l2, List.filterAuxM f l acc = some l2 ∧ ∀ x ∈ l2, x ∈ l ∨ x ∈ acc
  | [], acc, _, _ => ⟨acc, rfl, fun _ hx => Or.inr hx⟩
  | a :: l, acc, f, hf => by
    rw [List.filterAuxM]
    obtain ⟨b, hb⟩ := Option.isSome_iff_exists.mp (hf a (by simp))
    rw [hb]
    simp only [Option.bind_eq_bind, Option.some_bind]
    obtain ⟨l2, h2, hmem⟩ := filterAuxM_total l (cond b (a :: acc) acc) f
      (fun x hx => hf x (by simp [hx]))
    refine ⟨l2, h2, ?_⟩
    intro x hx
    rcases hmem x hx with h1 | h1
    · exact Or.inl (by simp [h1])
    · cases b with
      | false => exact Or.inr h1
      | true =>
        rcases List.mem_cons.mp h1 with rfl | h3
        · exact Or.inl (by simp)
        · exact Or.inr h3

theorem filterM_total {α : Type} (l : List α) (f : α → Option Bool)
    (hf : ∀ x ∈ l, (f x).isSome) :
    ∃ l2, l.filterM f = some l2 ∧ ∀ x ∈ l2, x ∈ l := by
  unfold List.filterM
  obtain ⟨l2, h2, hmem⟩ := filterAuxM_total l [] f hf
  rw [h2]
  simp only [Option.bind_eq_bind, Option.some_bind]
  refine ⟨l2.reverse, rfl, ?_⟩
  intro x hx
  rcases hmem x (List.mem_reverse.mp hx) with h1 | h1
  · exact h1
  · simp at h1

theorem mapM_props {α β : Type} : ∀ (l : List α) (f : α → Option β)
    (P : β → Prop), (∀ x ∈ l, ∃ y, f x = some y ∧ P y) →
    ∃ ys, l.mapM f = some ys ∧ ∀ y ∈ ys, P y
  | [], f, P, _ => by
    rw [show (([] : List α).mapM f : Option (List β)) = some [] from rfl]
    exact ⟨[], rfl, by simp⟩
  | a :: l, f, P, hf => by
    rw [List.mapM_cons]
    obtain ⟨y, hy, hPy⟩ := hf a (by simp)
    rw [hy]
    simp only [Option.bind_eq_bind, Option.some_bind]
    obtain ⟨ys, hys, hPs⟩ := mapM_props l f P (fun x hx => hf x (by simp [hx]))
    rw [hys]
    simp only [Option.some_bind, Option.pure_def]
    refine ⟨y :: ys, rfl, ?_⟩
    intro z hz
    rcases List.mem_cons.mp hz with rfl | h2
    · exact hPy
    · exact hPs z h2

theorem chunksTwo_mem : ∀ (l : List Nat) (c : List Nat), c ∈ chunksTwo l →
    c ≠ [] ∧ ∀ x ∈ c, x ∈ l
  | [], c, hc => by simp [chunksTwo] at hc
  | [a], c, hc => by
    rw [show chunksTwo [a] = [[a]] from by simp [chunksTwo]] at hc
    rw [List.mem_singleton.mp hc]
    refine ⟨by simp, ?_⟩
    intro x hx
    simpa using hx
  | a :: b :: rest, c, hc => by
    rw [show chunksTwo (a :: b :: rest) = [a, b] :: chunksTwo rest from rfl] at hc
    rcases List.mem_cons.mp hc with rfl | h2
    · refine ⟨by simp, ?_⟩
      intro x hx
      rcases (by simpa using hx : x = a ∨ x = b) with rfl | rfl
      · simp
      · simp
    · obtain ⟨hne, hsub⟩ := chunksTwo_mem rest c h2
      refine ⟨hne, ?_⟩
      intro x hx
      simp [hsub x hx]

theorem find_node_total (g : Graph) (h : Nat) (hh : h < g.nodes.length) :
    ∃ nd, g.find_node h = some nd := by
  unfold Graph.find_node
  exact nodes_get_exists g h hh

theorem nodePoints_total (g : Graph) (l : List Nat)
    (hl : ∀ z ∈ l, z < g.nodes.length) :
    ∃ pts, (l.mapM fun h => (g.find_node h).map Node.data) = some pts ∧
      pts.length = l.length := by
  obtain ⟨pts, hpts, _⟩ := mapM_props l (fun h => (g.find_node h).map Node.data)
    (fun _ => True)
    (fun z hz => by
      obtain ⟨nd, hnd⟩ := find_node_total g z (hl z hz)
      refine ⟨nd.data, ?_, trivial⟩
      show Option.map Node.data (g.find_node z) = some nd.data
      rw [hnd]
      rfl)
  exact ⟨pts, hpts, mapM_some_length l _ pts hpts⟩

theorem cyclePoints_total (g : Graph) (c : List Nat)
    (hc : ∀ z ∈ c, z < g.nodes.length) :
    ∃ pts, cyclePoints g c = some pts := by
  unfold cyclePoints
  obtain ⟨pts, hpts, _⟩ := nodePoints_total g c hc
  exact ⟨pts, hpts⟩

theorem componentChainPaths_total (g : Graph) (pp : List Point) (dim : Nat)
    (cc : List Nat) (hwf : g.wfB = true)
    (hcc : ∀ z ∈ cc, z < g.nodes.length)
    (hpair : ∀ x ∈ cc, ∀ y ∈ cc, Reach g x y) :
    ∃ paths, componentChainPaths g pp dim cc = some paths ∧
      ∀ ps ∈ paths, ps ≠ [] := by
  unfold componentChainPaths
  obtain ⟨handles, hh, hhsub⟩ := filterM_total cc
    (fun h => do
      let nd ← g.find_node h
      pure (¬ pp.contains nd.data))
    (fun x hx => by
      obtain ⟨nd, hnd⟩ := find_node_total g x (hcc x hx)
      simp only [Option.bind_eq_bind, hnd, Option.some_bind]
      rfl)
  simp only [Option.bind_eq_bind] at hh ⊢
  rw [hh]
  simp only [Option.some_bind]
  by_cases hempty : handles.isEmpty = true
  · rw [if_pos hempty]
    exact ⟨[], rfl, by simp⟩
  · rw [if_neg hempty]
    obtain ⟨endpoints, he, hesub⟩ := filterM_total handles
      (fun h => do
        let nd ← g.find_node h
        pure (nd.edge_count = 1))
      (fun x hx => by
        obtain ⟨nd, hnd⟩ := find_node_total g x (hcc x (hhsub x hx))
        simp only [Option.bind_eq_bind, hnd, Option.some_bind]
        rfl)
    simp only [Option.bind_eq_bind] at he
    rw [he]
    simp only [Option.some_bind]
    have hendcc : ∀ x ∈ endpoints, x ∈ cc :=
      fun x hx => hhsub x (hesub x hx)
    have hdraw : ∀ a b : Nat, a ∈ endpoints → b ∈ endpoints →
        ∃ ps, ((g.find_path a b).bind fun path =>
          (path.mapM fun h => Option.map Node.data (g.find_node h)).bind
            fun pts => pure (scale_points pts dim) : Option (List Point)) =
          some ps ∧ ps ≠ [] := by
      intro a b haep hbep
      obtain ⟨path, hpath, hpne, hpmem⟩ := find_path_total g a b
        (wfB_edges g hwf) (hcc a (hendcc a haep))
        (hpair a (hendcc a haep) b (hendcc b hbep))
      rw [hpath]
      simp only [Option.some_bind]
      obtain ⟨pts, hpts, hlen⟩ := nodePoints_total g path hpmem
      rw [hpts]
      simp only [Option.some_bind, Option.pure_def]
      refine ⟨scale_points pts dim, rfl, ?_⟩
      unfold scale_points
      intro hmapnil
      apply hpne
      rw [← List.length_eq_zero, ← hlen,
        ← List.length_map pts (fun p => p.scale dim)]
      rw [hmapnil]
      rfl
    apply mapM_props (chunksTwo endpoints) _ (fun ps => ps ≠ [])
    intro chunk hchunk
    obtain ⟨hcne, hcsub⟩ := chunksTwo_mem endpoints chunk hchunk
    match chunk, hcne, hcsub with
    | [], h, _ => exact absurd rfl h
    | [a], _, hcsub =>
      cases hep : endpoints with
      | nil =>
        rw [hep] at hchunk
        simp [chunksTwo] at hchunk
      | cons e0 tl =>
        simp only []
        rw [show (e0 :: tl).head? = some e0 from rfl]
        simp only [Option.some_bind, Option.pure_def]
        exact hdraw a e0 (hcsub a (by simp)) (by rw [hep]; simp)
    | a :: b :: rest, _, hcsub =>
      simp only []
      simp only [Option.pure_def, Option.some_bind]
      exact hdraw a b (hcsub a (by simp)) (hcsub b (by simp))

theorem grid_inner_ok : ∀ (js : List Nat) (d : SvgMapDrawing) (i : Nat),
    builderOkB d.builder = true →
    (js.foldl (fun d2 j => d2.grid_cell ⟨i, j⟩) d).dim = d.dim ∧
    builderOkB (js.foldl (fun d2 j => d2.grid_cell ⟨i, j⟩) d).builder = true
  | [], _, _, hb => ⟨rfl, hb⟩
  | j :: js, d, i, hb => by
    rw [List.foldl_cons]
    have h1 : builderOkB (d.grid_cell ⟨i, j⟩).builder = true :=
      builderOk_append d.builder _ hb rfl
    obtain ⟨hd, hb2⟩ := grid_inner_ok js (d.grid_cell ⟨i, j⟩) i h1
    exact ⟨hd, hb2⟩

theorem grid_outer_ok (js : List Nat) :
    ∀ (is : List Nat) (d : SvgMapDrawing),
    builderOkB d.builder = true →
    (is.foldl (fun d i => js.foldl (fun d2 j => d2.grid_cell ⟨i, j⟩) d) d).dim
      = d.dim ∧
    builderOkB
      (is.foldl (fun d i => js.foldl (fun d2 j => d2.grid_cell ⟨i, j⟩) d)
        d).builder = true
  | [], _, hb => ⟨rfl, hb⟩
  | i :: is, d, hb => by
    rw [List.foldl_cons]
    obtain ⟨hd1, hb1⟩ := grid_inner_ok js d i hb
    obtain ⟨hd2, hb2⟩ :=
      grid_outer_ok js is (js.foldl (fun d2 j => d2.grid_cell ⟨i, j⟩) d) hb1
    exact ⟨hd2.trans hd1, hb2⟩

theorem polys_fold_ok (m : Map) : ∀ (cys : List (List Nat)) (d : SvgMapDrawing),
    (∀ c ∈ cys, ∀ z ∈ c, z < m.graph.nodes.length) →
    builderOkB d.builder = true →
    ∃ d2, (cys.foldlM (fun d cyc => do
        let pts ← cyclePoints m.graph cyc
        let pts2 := (pts.filter fun p => m.contains_point p).map
          fun p => p.scale d.dim
        pure (d.polygon pts2)) d) = some d2 ∧ d2.dim = d.dim ∧
      builderOkB d2.builder = true
  | [], d, _, hb => ⟨d, rfl, rfl, hb⟩
  | c :: cys, d, hc, hb => by
    rw [List.foldlM_cons]
    obtain ⟨pts, hpts⟩ := cyclePoints_total m.graph c (hc c (by simp))
    simp only [Option.bind_eq_bind]
    rw [hpts]
    simp only [Option.some_bind, Option.pure_def]
    have hbd : builderOkB ((d.polygon ((pts.filter fun p =>
        m.contains_point p).map fun p => p.scale d.dim)).builder) = true :=
      builderOk_append d.builder _ hb rfl
    obtain ⟨d2, h2, hdim, hb2⟩ := polys_fold_ok m cys _
      (fun c2 hc2 => hc c2 (by simp [hc2])) hbd
    exact ⟨d2, h2, hdim, hb2⟩

theorem elemOk_path (ps : List Point) (c : Colour) (hne : ps ≠ []) :
    elemOkB (.path ps c) = true := by
  cases ps with
  | nil => exact absurd rfl hne
  | cons p rest => rfl

theorem paths_foldl_ok : ∀ (paths : List (List Point)) (d : SvgMapDrawing),
    (∀ ps ∈ paths, ps ≠ []) → builderOkB d.builder = true →
    (paths.foldl (fun dd pts => dd.pathElem pts) d).dim = d.dim ∧
    builderOkB (paths.foldl (fun dd pts => dd.pathElem pts) d).builder = true
  | [], _, _, hb => ⟨rfl, hb⟩
  | ps :: paths, d, hne, hb => by
    rw [List.foldl_cons]
    have h1 : builderOkB (d.pathElem ps).builder = true :=
      builderOk_append d.builder _ hb (elemOk_path ps .Black (hne ps (by simp)))
    obtain ⟨hd, hb2⟩ := paths_foldl_ok paths (d.pathElem ps)
      (fun x hx => hne x (by simp [hx])) h1
    exact ⟨hd, hb2⟩

theorem comps_fold_ok (g : Graph) (pp : List Point) (hwf : g.wfB = true) :
    ∀ (ccs : List (List Nat)) (d : SvgMapDrawing),
    (∀ cc ∈ ccs, ∃ r, ∀ z ∈ cc, z < g.nodes.length ∧ Reach g r z) →
    builderOkB d.builder = true →
    ∃ d2, (ccs.foldlM (fun d cc => do
        let paths ← componentChainPaths g pp d.dim cc
        pure (paths.foldl (fun dd pts => dd.pathElem pts) d)) d) = some d2 ∧
      d2.dim = d.dim ∧ builderOkB d2.builder = true
  | [], d, _, hb => ⟨d, rfl, rfl, hb⟩
  | cc :: ccs, d, hprops, hb => by
    rw [List.foldlM_cons]
    obtain ⟨r, hr⟩ := hprops cc (by simp)
    obtain ⟨paths, hpaths, hpne⟩ := componentChainPaths_total g pp d.dim cc hwf
      (fun z hz => (hr z hz).1)
      (fun x hx y hy => reach_trans g x r y
        (reach_symm g hwf r x (hr x hx).2) (hr y hy).2)
    simp only [Option.bind_eq_bind]
    rw [hpaths]
    simp only [Option.some_bind, Option.pure_def]
    obtain ⟨hdimf, hbf⟩ := paths_foldl_ok paths d hpne hb
    obtain ⟨d2, h2, hdim, hb2⟩ := comps_fold_ok g pp hwf ccs
      (paths.foldl (fun dd pts => dd.pathElem pts) d)
      (fun c2 hc2 => hprops c2 (by simp [hc2])) hbf
    exact ⟨d2, h2, hdim.trans hdimf, hb2⟩

theorem drawElems_ok (m : Map) (d0 : SvgMapDrawing)
    (hwf : m.graph.wfB = true) (hdim : 2 ≤ d0.dim)
    (hb : builderOkB d0.builder = true) :
    ∃ d4, d0.drawElems m = some d4 ∧ builderOkB d4.builder = true := by
  unfold SvgMapDrawing.drawElems
  have hwfe := wfB_edges m.graph hwf
  obtain ⟨hd1dim, hd1ok⟩ := grid_outer_ok (List.range m.height)
    (List.range m.width) d0 hb
  obtain ⟨cys, hcys, hcmem⟩ := find_cycles_total m.graph hwfe
  simp only [Option.bind_eq_bind]
  rw [hcys]
  simp only [Option.some_bind]
  obtain ⟨d2, hd2, hdim2, hok2⟩ := polys_fold_ok m cys _ hcmem hd1ok
  simp only [Option.bind_eq_bind] at hd2
  rw [hd2]
  simp only [Option.some_bind]
  obtain ⟨pp, hpp, _⟩ := mapM_props cys.flatten
    (fun h => (m.graph.find_node h).map Node.data) (fun _ => True)
    (fun z hz => by
      obtain ⟨c, hc, hzc⟩ := List.mem_flatten.mp hz
      obtain ⟨nd, hnd⟩ := find_node_total m.graph z (hcmem c hc z hzc)
      refine ⟨nd.data, ?_, trivial⟩
      show Option.map Node.data (m.graph.find_node z) = some nd.data
      rw [hnd]
      rfl)
  rw [hpp]
  simp only [Option.some_bind]
  obtain ⟨ccs, hccs, hccprops⟩ := connected_components_total m.graph hwfe
  rw [hccs]
  simp only [Option.some_bind]
  obtain ⟨d3, hd3, hdim3, hok3⟩ := comps_fold_ok m.graph pp hwf
    (ccs.filter fun c => c.length > 1) d2
    (fun cc hcc => hccprops cc (List.mem_of_mem_filter hcc)) hok2
  simp only [Option.bind_eq_bind] at hd3
  rw [hd3]
  simp only [Option.some_bind]
  have hdim3' : 2 ≤ d3.dim := by
    rw [hdim3, hdim2, hd1dim]
    exact hdim
  obtain ⟨d4, hd4, _, hok4⟩ := entities_fold_ok m.entities d3 hdim3' hok3
  exact ⟨d4, hd4, hok4⟩

theorem map_to_svg_total (m : Map) (dim : Nat)
    (hwf : m.graph.wfB = true) (hdim : 2 ≤ dim) :
    (map_to_svg m dim).isSome := by
  unfold map_to_svg SvgMapDrawing.draw
  obtain ⟨d4, hd4, hok4⟩ := drawElems_ok m (SvgMapDrawing.new dim m) hwf hdim rfl
  simp only [Option.bind_eq_bind]
  rw [hd4]
  simp only [Option.some_bind]
  exact build_isSome d4.builder hok4

/-- C2: corrected. The rendering pipeline `map_to_svg` is total on every map
whose graph is well-formed (valid adjacency indices, symmetric adjacency —
true of every generator-built map) for every cell pixel dimension of at
least 2: background grid, cycle polygons, corridor paths and entity glyphs
all succeed and the final builder serializes. The spec's claim of totality
for EVERY dimension ≥ 1 is false: at dimension 1 a `Within`-positioned
circle entity computes its radius as `dim/2 - 1 = 0 - 1`, an usize
underflow panic (see the counterexample). -/
theorem C2_render_total (m : Map) (dim : Nat)
    (hwf : m.graph.wfB = true) (hdim : 2 ≤ dim) :
    (map_to_svg m dim).isSome :=
  map_to_svg_total m dim hwf hdim

/-- Witness for C2: the generated `grid 1,1` + unit-rectangle map is
graph-well-formed and renders at dimension 2. -/
theorem C2_render_total_witness :
    mapRect11.graph.wfB = true ∧ (map_to_svg mapRect11 2).isSome :=
  ⟨by decide, C2_render_total mapRect11 2 (by decide) (by decide)⟩

/-- Counterexample to C2 as stated: a well-formed 1×1 map holding a
`Within`-positioned circle entity fails to render at cell dimension 1
(`dim/2 - 1` underflows in `circle_entity`), though it renders at 2. -/
theorem C2_dim_one_counterexample :
    mapWithin.graph.wfB = true ∧ map_to_svg mapWithin 1 = none ∧
      (map_to_svg mapWithin 2).isSome := by
  refine ⟨by decide, ?_, by decide⟩
  decide

end TtMap
